import Mathlib

/-!
# The fmod archive: packer (`c.js`) and extractor (`e.js`)

A shallow embedding of the two scripts.  JavaScript strings are lists of UTF-16
code units, buffers are lists of bytes, plain objects are lists of own properties
in insertion order, and the calls of `Math.random` are a supplied list of draws.
-/

namespace Fmod

/-! ## JavaScript values, strings and plain objects -/

/-- UTF-16 code unit: the element type of a JavaScript string. -/
abbrev CodeUnit := Fin 65536

/-- JavaScript string: a sequence of UTF-16 code units. -/
abbrev JStr := List CodeUnit

/-- Byte of a Node `Buffer`. -/
abbrev Byte := Fin 256

/-- Code units of a source literal (used for ASCII literals only). -/
def js (s : String) : JStr := s.toList.map (fun c => Fin.ofNat c.toNat)

/-- The JavaScript values the two scripts handle as property values and lookup results.
`inherited name` is the function or object found under `name` on `Object.prototype`. -/
inductive JSVal where
  | undefined
  | str (s : JStr)
  | num (n : Nat)
  | inherited (name : JStr)
  deriving DecidableEq, Repr

/-- Exceptions that the modelled code can throw. -/
inductive JSError where
  | outOfRange
  | unknownCharKey (num : Nat)
  deriving DecidableEq, Repr

/-- Plain object created by an object literal or `JSON.parse`: its own enumerable
properties, in insertion order.  Its prototype is `Object.prototype`.  JavaScript enumerates
integer-like names before the others, so `Object.entries` can list the properties in another
order: what depends on that order is stated for every permutation of the list. -/
abbrev Obj := List (JStr × JSVal)

/-- Own property names of `Object.prototype` in Node. -/
def objectPrototypeNames : List JStr :=
  [js "constructor", js "__defineGetter__", js "__defineSetter__", js "hasOwnProperty",
   js "__lookupGetter__", js "__lookupSetter__", js "isPrototypeOf",
   js "propertyIsEnumerable", js "toString", js "valueOf", js "__proto__",
   js "toLocaleString"]

/-- Little-endian decimal digits of `n`; `fuel` bounds the number of digits. -/
def digitsLE : Nat → Nat → List Nat
  | 0, _ => []
  | fuel + 1, n => if n < 10 then [n] else (n % 10) :: digitsLE fuel (n / 10)

/-- Model of `String(n)` for a non-negative integer `n`: its decimal numeral. -/
def decimal (n : Nat) : JStr :=
  (digitsLE (n + 1) n).reverse.map (fun d => Fin.ofNat (48 + d))

/-- Value of a little-endian list of decimal digits. -/
def valLE : List Nat → Nat
  | [] => 0
  | d :: ds => d + 10 * valLE ds

/-- Number denoted by a decimal numeral. -/
def undecimal (s : JStr) : Nat := valLE ((s.map (fun u => u.val - 48)).reverse)

/-- String conversion, as done by `+=` on a string and by template literals. -/
def toStr : JSVal → JStr
  | .undefined => js "undefined"
  | .str s => s
  | .num n => decimal n
  | .inherited name =>
    if name = js "__proto__" then js "[object Object]"
    else if name = js "constructor" then js "function Object() \x7b [native code] \x7d"
    else js "function " ++ name ++ js "() \x7b [native code] \x7d"

/-- Model of `ToPropertyKey`: the property name used by `obj[v]`. -/
def toPropertyKey (v : JSVal) : JStr := toStr v

/-- Model of `ToBoolean`, as applied by the operator `!`. -/
def truthy : JSVal → Bool
  | .undefined => false
  | .str s => !s.isEmpty
  | .num n => n != 0
  | .inherited _ => true

/-- Own property lookup. -/
def ownProp : Obj → JStr → Option JSVal
  | [], _ => none
  | (k, v) :: rest, key => if k = key then some v else ownProp rest key

/-- Property read `o[key]`: the own property, else the one inherited from
`Object.prototype`, else `undefined`. -/
def getProp (o : Obj) (key : JStr) : JSVal :=
  match ownProp o key with
  | some v => v
  | none => if key ∈ objectPrototypeNames then .inherited key else .undefined

/-- Overwrite the value of the own property `key`, keeping its position. -/
def replaceOwn : Obj → JStr → JSVal → Obj
  | [], _, _ => []
  | (k, w) :: rest, key, v =>
    if k = key then (k, v) :: rest else (k, w) :: replaceOwn rest key v

/-- Property write `o[key] = v` of a string or a number.  An own property is overwritten;
`__proto__` is an accessor of `Object.prototype` whose setter ignores primitive values;
any other name becomes a new own property. -/
def setProp (o : Obj) (key : JStr) (v : JSVal) : Obj :=
  match ownProp o key with
  | some _ => replaceOwn o key v
  | none => if key = js "__proto__" then o else o ++ [(key, v)]

/-! ## `c.js`: random labels and the text encoder -/

/-- The alphabet of `getRandomKey`. -/
def chars : JStr := js "abcdefghijklmnopqrstuvwxyzABCDEFGHIJKLMNOPQRSTUVWXYZ0123456789"

/-- Loop of `getRandomKey`.  The randomness is the list of draws still to come; the loop test
`i < 7 + Math.floor(Math.random() * 3)` takes one draw `r` (as `r % 3`), and the body
`chars[Math.floor(Math.random() * chars.length)]` takes the next one.  `none`: the supplied
draws ran out. -/
def getRandomKeyLoop : List Nat → Nat → JStr → Option (JStr × List Nat)
  | [], _, _ => none
  | [r], i, res => if i < 7 + r % 3 then none else some (res, [])
  | r :: c :: rest, i, res =>
    if i < 7 + r % 3 then getRandomKeyLoop rest (i + 1) (res ++ [chars.getD (c % chars.length) 0])
    else some (res, c :: rest)

/-- Model of `getRandomKey()`: returns the label and the draws left. -/
def getRandomKey (rnd : List Nat) : Option (JStr × List Nat) :=
  getRandomKeyLoop rnd 0 []

/-- The mutable globals of `c.js` that make up the character table. -/
structure Table where
  keys : Obj
  bin : Obj
  binCounter : Nat
  deriving DecidableEq, Repr

/-- The table at the start of a packing run. -/
def Table.empty : Table := ⟨[], [], 0⟩

/-- Rejection loop `do { k = getRandomKey(); } while (bin[k] !== undefined)`.
Every call of `getRandomKey` uses up at least one draw, so `fuel = rnd.length` iterations
exhaust any supply.  `none`: the draws ran out before an unused label came up. -/
def freshKeyLoop (bin : Obj) : Nat → List Nat → Option (JStr × List Nat)
  | 0, _ => none
  | fuel + 1, rnd =>
    match getRandomKey rnd with
    | none => none
    | some (k, rnd1) =>
      if getProp bin k ≠ .undefined then freshKeyLoop bin fuel rnd1 else some (k, rnd1)

/-- Body of `if (!keys[ch]) { ... }` in `encodeText`. -/
def ensureEntry (t : Table) (rnd : List Nat) (ch : CodeUnit) : Option (Table × List Nat) :=
  if !truthy (getProp t.keys [ch]) then
    match freshKeyLoop t.bin rnd.length rnd with
    | none => none
    | some (k, rnd1) =>
      some (⟨setProp t.keys [ch] (.str k), setProp t.bin k (.num t.binCounter),
             t.binCounter + 1⟩, rnd1)
  else some (t, rnd)

/-- Model of the unary `+value` that `writeUInt16BE` applies to its argument: `none` stands for
`NaN`.  `undefined` and functions and objects give `NaN`; of the strings only the empty one
(which is 0) and the plain decimal numerals are given their number, the other numeric forms
(sign, fraction, exponent, radix, white space) are not modelled: `c.js` stores numbers only in
`bin`. -/
def toNumber : JSVal → Option Nat
  | .num n => some n
  | .str s => if s.all (fun u => decide (48 ≤ u.val ∧ u.val ≤ 57)) then some (undecimal s) else none
  | .undefined => none
  | .inherited _ => none

/-- Model of `buf.writeUInt16BE(num, i * 2)`: Node converts the value with `+value`, throws for
a number outside `0..65535`, and writes the high and the low byte; `NaN` is not out of range
and is written as `00 00`. -/
def writeUInt16BE (value : JSVal) : Except JSError (List Byte) :=
  match toNumber value with
  | some n => if n ≤ 65535 then .ok [Fin.ofNat (n / 256), Fin.ofNat (n % 256)]
              else .error .outOfRange
  | none => .ok [0, 0]

/-- Loop of `encodeText` over the code units still to be encoded; `buf` holds the bytes
written so far.  The result carries the table and the draws left, also when a write throws. -/
def encodeTextLoop : List CodeUnit → Table → List Nat → List Byte →
    Option (Table × List Nat × Except JSError (List Byte))
  | [], t, rnd, buf => some (t, rnd, .ok buf)
  | ch :: rest, t, rnd, buf =>
    match ensureEntry t rnd ch with
    | none => none
    | some (t1, rnd1) =>
      let key := getProp t1.keys [ch]
      let num := getProp t1.bin (toPropertyKey key)
      match writeUInt16BE num with
      | .error e => some (t1, rnd1, .error e)
      | .ok bytes => encodeTextLoop rest t1 rnd1 (buf ++ bytes)

/-- Model of `encodeText(text)`. -/
def encodeText (t : Table) (rnd : List Nat) (text : JStr) :
    Option (Table × List Nat × Except JSError (List Byte)) :=
  encodeTextLoop text t rnd []

/-! ## Node library functions used by the two scripts -/

/-- Whether `b` lies in the byte range `lo..hi`. -/
def inRange (b : Byte) (lo hi : Nat) : Bool := decide (lo ≤ b.val) && decide (b.val ≤ hi)

/-- UTF-8 decoding as done by `buffer.toString('utf8')`: the code points of the bytes, where
every maximal ill-formed subsequence becomes U+FFFD.  It never throws. -/
def utf8DecodePoints : List Byte → List Nat
  | [] => []
  | b0 :: rest =>
    if b0.val < 0x80 then b0.val :: utf8DecodePoints rest
    else if inRange b0 0xC2 0xDF then
      match rest with
      | [] => [0xFFFD]
      | b1 :: rest1 =>
        if inRange b1 0x80 0xBF then
          ((b0.val - 0xC0) * 64 + (b1.val - 0x80)) :: utf8DecodePoints rest1
        else 0xFFFD :: utf8DecodePoints (b1 :: rest1)
    else if inRange b0 0xE0 0xEF then
      match rest with
      | [] => [0xFFFD]
      | b1 :: rest1 =>
        if inRange b1 (if b0.val = 0xE0 then 0xA0 else 0x80) (if b0.val = 0xED then 0x9F else 0xBF) then
          match rest1 with
          | [] => [0xFFFD]
          | b2 :: rest2 =>
            if inRange b2 0x80 0xBF then
              ((b0.val - 0xE0) * 4096 + (b1.val - 0x80) * 64 + (b2.val - 0x80))
                :: utf8DecodePoints rest2
            else 0xFFFD :: utf8DecodePoints (b2 :: rest2)
        else 0xFFFD :: utf8DecodePoints (b1 :: rest1)
    else if inRange b0 0xF0 0xF4 then
      match rest with
      | [] => [0xFFFD]
      | b1 :: rest1 =>
        if inRange b1 (if b0.val = 0xF0 then 0x90 else 0x80) (if b0.val = 0xF4 then 0x8F else 0xBF) then
          match rest1 with
          | [] => [0xFFFD]
          | b2 :: rest2 =>
            if inRange b2 0x80 0xBF then
              match rest2 with
              | [] => [0xFFFD]
              | b3 :: rest3 =>
                if inRange b3 0x80 0xBF then
                  ((b0.val - 0xF0) * 262144 + (b1.val - 0x80) * 4096 + (b2.val - 0x80) * 64
                      + (b3.val - 0x80)) :: utf8DecodePoints rest3
                else 0xFFFD :: utf8DecodePoints (b3 :: rest3)
            else 0xFFFD :: utf8DecodePoints (b2 :: rest2)
        else 0xFFFD :: utf8DecodePoints (b1 :: rest1)
    else 0xFFFD :: utf8DecodePoints rest

/-- UTF-16 code units of a code point. -/
def utf16Units (cp : Nat) : JStr :=
  if cp < 0x10000 then [Fin.ofNat cp]
  else [Fin.ofNat (0xD800 + (cp - 0x10000) / 1024), Fin.ofNat (0xDC00 + (cp - 0x10000) % 1024)]

/-- Model of `buffer.toString('utf8')`. -/
def toStringUtf8 (buffer : List Byte) : JStr :=
  (utf8DecodePoints buffer).flatMap utf16Units

/-- Code points of a JavaScript string: a surrogate pair is one code point, a lone surrogate
is replaced by U+FFFD, as the UTF-8 writer of Node does. -/
def utf16Points : JStr → List Nat
  | [] => []
  | [u] => if 0xD800 ≤ u.val ∧ u.val ≤ 0xDFFF then [0xFFFD] else [u.val]
  | u :: v :: rest =>
    if 0xD800 ≤ u.val ∧ u.val ≤ 0xDBFF then
      if 0xDC00 ≤ v.val ∧ v.val ≤ 0xDFFF then
        (0x10000 + (u.val - 0xD800) * 1024 + (v.val - 0xDC00)) :: utf16Points rest
      else 0xFFFD :: utf16Points (v :: rest)
    else if 0xDC00 ≤ u.val ∧ u.val ≤ 0xDFFF then 0xFFFD :: utf16Points (v :: rest)
    else u.val :: utf16Points (v :: rest)

/-- UTF-8 bytes of a code point. -/
def utf8Bytes (cp : Nat) : List Byte :=
  if cp < 0x80 then [Fin.ofNat cp]
  else if cp < 0x800 then [Fin.ofNat (0xC0 + cp / 64), Fin.ofNat (0x80 + cp % 64)]
  else if cp < 0x10000 then
    [Fin.ofNat (0xE0 + cp / 4096), Fin.ofNat (0x80 + cp / 64 % 64), Fin.ofNat (0x80 + cp % 64)]
  else
    [Fin.ofNat (0xF0 + cp / 262144), Fin.ofNat (0x80 + cp / 4096 % 64),
     Fin.ofNat (0x80 + cp / 64 % 64), Fin.ofNat (0x80 + cp % 64)]

/-- Bytes written by `fs.writeFileSync(outPath, text, 'utf-8')`. -/
def utf8Write (text : JStr) : List Byte :=
  (utf16Points text).flatMap utf8Bytes

/-- ASCII lower-casing of a code unit.  `toLowerCase` also maps non-ASCII letters, but none of
them to a string of the allow-list alphabet, so membership in `TextExtensions` is unaffected. -/
def lowerUnit (u : CodeUnit) : CodeUnit :=
  if 65 ≤ u.val ∧ u.val ≤ 90 then Fin.ofNat (u.val + 32) else u

/-- Model of `s.toLowerCase()` on the extension of a path. -/
def toLowerCase (s : JStr) : JStr := s.map lowerUnit

/-- The part of `s` after its last occurrence of `sep`, or all of `s` when there is none. -/
def afterLast (sep : CodeUnit) (s : JStr) : JStr :=
  (s.reverse.takeWhile (fun u => u ≠ sep)).reverse

/-- Model of POSIX `path.extname(p)`: trailing slashes are ignored; the extension goes from the
last dot of the last path segment to its end, and is empty when the segment has no dot, when the
only dot is its first character, or when the segment is `..`. -/
def extname (p : JStr) : JStr :=
  let trimmed := (p.reverse.dropWhile (fun u => u = 47)).reverse
  let base := afterLast 47 trimmed
  let tail := afterLast 46 base
  if tail.length = base.length then []
  else if tail.length + 1 = base.length then []
  else if base = js ".." then []
  else (46 : CodeUnit) :: tail

/-- Model of `buffer.slice(start, end)` for non-negative bounds, which are clamped to the buffer. -/
def slice (buffer : List Byte) (start stop : Nat) : List Byte :=
  (buffer.take stop).drop start

/-! ## `c.js`: the pack loop -/

/-- The allow-list `TextExtensions`. -/
def TextExtensions : List JStr :=
  [js ".js", js ".ts", js ".tsx", js ".d.ts", js ".json", js ".html",
   js ".css", js ".cjs", js ".mjz", js ".md", js ".xml", js ".ejs"]

/-- Entry of `filesMeta`. -/
structure FileMeta where
  path : JStr
  offset : Nat
  length : Nat
  binary : Bool
  deriving DecidableEq, Repr

/-- The mutable globals of the packing run. -/
structure PackState where
  bundleBuffers : List (List Byte)
  table : Table
  filesMeta : List FileMeta
  offset : Nat
  deriving DecidableEq, Repr

/-- State before the first file. -/
def PackState.init : PackState := ⟨[], Table.empty, [], 0⟩

/-- Body of `files.forEach` in `c.js` for one file, given as the value of `relPath` after
line 82 (relative to the source directory, backslashes already replaced by slashes) and the
bytes read from it. -/
def packFile (s : PackState) (rnd : List Nat) (relPath : JStr) (buffer : List Byte) :
    Option (PackState × List Nat) :=
  let ext := toLowerCase (extname relPath)
  if ext ∈ TextExtensions then
    let str := toStringUtf8 buffer
    match encodeText s.table rnd str with
    | none => none
    | some (t1, rnd1, .ok data) =>
      some (⟨s.bundleBuffers ++ [data], t1,
             s.filesMeta ++ [⟨relPath, s.offset, data.length, false⟩],
             s.offset + data.length⟩, rnd1)
    | some (t1, rnd1, .error _) =>
      some (⟨s.bundleBuffers ++ [buffer], t1,
             s.filesMeta ++ [⟨relPath, s.offset, buffer.length, true⟩],
             s.offset + buffer.length⟩, rnd1)
  else
    some (⟨s.bundleBuffers ++ [buffer], s.table,
           s.filesMeta ++ [⟨relPath, s.offset, buffer.length, true⟩],
           s.offset + buffer.length⟩, rnd)

/-- The loop `files.forEach` of `c.js`. -/
def packLoop : List (JStr × List Byte) → PackState → List Nat → Option (PackState × List Nat)
  | [], s, rnd => some (s, rnd)
  | (relPath, buffer) :: rest, s, rnd =>
    match packFile s rnd relPath buffer with
    | none => none
    | some (s1, rnd1) => packLoop rest s1 rnd1

/-- What a packing run leaves behind: `bundle.fmod`, the three fields of `keys.json`, and the
final value of the offset cursor. -/
structure Archive where
  bundle : List Byte
  keys : Obj
  bin : Obj
  files : List FileMeta
  offset : Nat
  binCounter : Nat
  deriving DecidableEq, Repr

/-- Model of a whole packing run over the files found by `walkFiles`. -/
def pack (files : List (JStr × List Byte)) (rnd : List Nat) : Option Archive :=
  match packLoop files PackState.init rnd with
  | none => none
  | some (s, _) =>
    some ⟨s.bundleBuffers.flatten, s.table.keys, s.table.bin, s.filesMeta, s.offset,
          s.table.binCounter⟩

/-! ## `e.js`: reverse maps, the text decoder and the extract loop -/

/-- The loop `for (const [k, v] of Object.entries(bin)) reverseBin[v] = k`. -/
def reverseBin (bin : Obj) : Obj :=
  bin.foldl (fun r kv => setProp r (toPropertyKey kv.2) (.str kv.1)) []

/-- The loop `for (const [ch, key] of Object.entries(keys)) reverseKeys[key] = ch`. -/
def reverseKeys (keys : Obj) : Obj :=
  keys.foldl (fun r kv => setProp r (toPropertyKey kv.2) (.str kv.1)) []

/-- Loop of `decodeText` over the bytes from offset `i` on; `result` is the text so far.
A single byte left makes `readUInt16BE` throw. -/
def decodeTextLoop (rBin rKeys : Obj) : List Byte → JStr → Except JSError JStr
  | [], result => .ok result
  | [_], _ => .error .outOfRange
  | hi :: lo :: rest, result =>
    let num := hi.val * 256 + lo.val
    let key := getProp rBin (toPropertyKey (.num num))
    let ch := getProp rKeys (toPropertyKey key)
    if ch = .undefined then .error (.unknownCharKey num)
    else decodeTextLoop rBin rKeys rest (result ++ toStr ch)

/-- Model of `decodeText(buffer)`, with the two global reverse maps as arguments. -/
def decodeText (rBin rKeys : Obj) (buffer : List Byte) : Except JSError JStr :=
  decodeTextLoop rBin rKeys buffer []

/-- One `fs.writeFileSync` of the extractor: the relative path and the bytes written. -/
structure Written where
  path : JStr
  data : List Byte
  deriving DecidableEq, Repr

/-- The loop `files.forEach` of `e.js`: the files written so far, and the exception that ended
the loop if one was thrown (nothing catches it). -/
def extractLoop (bundle : List Byte) (rBin rKeys : Obj) :
    List FileMeta → List Written → List Written × Option JSError
  | [], out => (out, none)
  | f :: rest, out =>
    let data := slice bundle f.offset (f.offset + f.length)
    if f.binary then extractLoop bundle rBin rKeys rest (out ++ [⟨f.path, data⟩])
    else
      match decodeText rBin rKeys data with
      | .error e => (out, some e)
      | .ok text => extractLoop bundle rBin rKeys rest (out ++ [⟨f.path, utf8Write text⟩])

/-- Model of an extraction run on a bundle and the parsed fields of `keys.json`. -/
def extract (bundle : List Byte) (keys bin : Obj) (files : List FileMeta) :
    List Written × Option JSError :=
  extractLoop bundle (reverseBin bin) (reverseKeys keys) files []

/-! ## Command line of the two scripts -/

/-- Model of `s.startsWith(searchString)`. -/
def startsWith (s searchString : JStr) : Bool := searchString.isPrefixOf s

/-- Model of `s.split(sep)` for a separator of one code unit: the pieces between the
occurrences of `sep`; a string without `sep` is its only piece. -/
def splitOn (sep : CodeUnit) : JStr → List JStr
  | [] => [[]]
  | c :: rest =>
    if c = sep then [] :: splitOn sep rest
    else
      match splitOn sep rest with
      | [] => [[c]]
      | piece :: pieces => (c :: piece) :: pieces

/-- Model of `getArg(name)` of `c.js` and `e.js` on the arguments `args`.  `none` stands for
`null` (and for the `undefined` that `split(...)[1]` would give on a string without `=`, which
the argument found never is). -/
def getArg (args : List JStr) (name : JStr) : Option JStr :=
  match args.find? (fun x => startsWith x (js "--" ++ name ++ js "=")) with
  | some arg => (splitOn 61 arg)[1]?
  | none => none

/-- The test `!v` that the scripts apply to a result of `getArg`: `null` and the empty string
are falsy. -/
def falsy : Option JStr → Bool
  | none => true
  | some s => s.isEmpty

/-- The messages that the two scripts print with `console.error`. -/
inductive Diagnostic where
  | usage
  | sourceNotFound
  | missingArchive
  deriving DecidableEq, Repr

/-- Observable actions of the start of a script, in the order in which they happen. -/
inductive Action where
  | consoleError (d : Diagnostic)
  | exit (code : Nat)
  | readFile (path : JStr)
  | mkdir (path : JStr)
  deriving DecidableEq, Repr

/-- Lines 5 to 26 of `c.js`: the actions from the start of the script up to the two
`mkdirSync` calls, on the arguments `args` and a file system in which `existsSync` tells which
paths exist.  `process.exit` ends the script on the spot. -/
def packStartup (args : List JStr) (existsSync : JStr → Bool) : List Action :=
  let SRC_DIR := getArg args (js "src-dir")
  let OUT_CPP := getArg args (js "output-cpp-dir")
  let OUT_MOD := getArg args (js "output-mod")
  if falsy SRC_DIR || falsy OUT_CPP || falsy OUT_MOD then [.consoleError .usage, .exit 1]
  else if !existsSync (SRC_DIR.getD []) then [.consoleError .sourceNotFound, .exit 1]
  else [.mkdir (OUT_CPP.getD []), .mkdir (OUT_MOD.getD [])]

/-- Lines 4 to 39 of `e.js`: the actions from the start of the script up to the `mkdirSync` of
the output directory, when the two reads and `JSON.parse` succeed.  `join` stands for
`path.join` of Node. -/
def extractStartup (args : List JStr) (join : JStr → JStr → JStr) (existsSync : JStr → Bool) :
    List Action :=
  let OUT_DIR := getArg args (js "output-dir")
  let MOD_DIR := getArg args (js "mod-dir")
  if falsy OUT_DIR || falsy MOD_DIR then [.consoleError .usage, .exit 1]
  else
    let bundlePath := join (MOD_DIR.getD []) (js "bundle.fmod")
    let keysPath := join (MOD_DIR.getD []) (js "keys.json")
    if !existsSync bundlePath || !existsSync keysPath then
      [.consoleError .missingArchive, .exit 1]
    else [.readFile bundlePath, .readFile keysPath, .mkdir (OUT_DIR.getD [])]

/-! ## Vocabulary of the specification -/

/-- Big-endian 16-bit representation of `n`. -/
def be16 (n : Nat) : List Byte := [Fin.ofNat (n / 256), Fin.ofNat (n % 256)]

/-- What `encodeText` computes for a code unit: `bin[keys[ch]]`. -/
def Table.indexOf (t : Table) (ch : CodeUnit) : JSVal :=
  getProp t.bin (toPropertyKey (getProp t.keys [ch]))

/-- Relation `Calls t texts t1`: the calls `encodeText(texts[0])`, `encodeText(texts[1])`, ... made
in this order from table `t`, each under some draws of `Math.random` on which it comes to an end
(by returning or by throwing), leave the table `t1`. -/
inductive Calls : Table → List JStr → Table → Prop where
  | done (t : Table) : Calls t [] t
  | call {t t1 t2 : Table} {text : JStr} {texts : List JStr} {rnd rnd1 : List Nat}
      {res : Except JSError (List Byte)} :
      encodeText t rnd text = some (t1, rnd1, res) → Calls t1 texts t2 →
      Calls t (text :: texts) t2

/-- Table reachable from the empty table by calls of `encodeText`. -/
def Reachable (t : Table) : Prop := ∃ texts, Calls Table.empty texts t

/-- Step of the first-seen scan: `c` is appended unless it was seen before. -/
def addSeen (acc : List CodeUnit) (c : CodeUnit) : List CodeUnit :=
  if c ∈ acc then acc else acc ++ [c]

/-- The distinct code units of `acc` followed by those new in `text`, in order of first
occurrence. -/
def firstSeenFrom (acc : List CodeUnit) (text : JStr) : List CodeUnit :=
  text.foldl addSeen acc

/-- Number of distinct code units in `l`. -/
def distinctCount (l : List CodeUnit) : Nat := l.dedup.length

/-- Number of distinct code units whose first occurrence in `l` precedes that of `c`. -/
def distinctBefore (l : List CodeUnit) (c : CodeUnit) : Nat :=
  distinctCount (l.take (l.indexOf c))

/-- The `keys` object holding the characters and labels of `es`, in this order. -/
def keysOf (es : List (CodeUnit × JStr)) : Obj :=
  es.map (fun e => ([e.1], JSVal.str e.2))

/-- The `bin` object giving the labels of `es` the indices `n`, `n + 1`, ... -/
def binFrom : Nat → List (CodeUnit × JStr) → Obj
  | _, [] => []
  | n, e :: es => (e.2, JSVal.num n) :: binFrom (n + 1) es

/-- Shape of the table after the characters and labels `es` have been allocated in this order. -/
structure TableInv (es : List (CodeUnit × JStr)) (t : Table) : Prop where
  keys_eq : t.keys = keysOf es
  bin_eq : t.bin = binFrom 0 es
  counter_eq : t.binCounter = es.length
  chars_nodup : (es.map Prod.fst).Nodup
  labels_nodup : (es.map Prod.snd).Nodup
  labels_ok : ∀ e ∈ es, e.2 ≠ [] ∧ e.2 ∉ objectPrototypeNames

/-- Records that lie back to back from offset `start` and end at offset `stop`. -/
def Contiguous : Nat → List FileMeta → Nat → Prop
  | start, [], stop => start = stop
  | start, r :: rs, stop => r.offset = start ∧ Contiguous (start + r.length) rs stop

/-- The classification test of the pack loop: `TextExtensions.includes(ext)` for the lower-cased
extension of the relative path. -/
def isTextPath (relPath : JStr) : Bool :=
  decide (toLowerCase (extname relPath) ∈ TextExtensions)

/-- Payload of a file in an archive whose table lists the characters `cs` in index order:
the raw bytes of a binary file, the index stream of the decoded text of a text file. -/
def FileData (cs : List CodeUnit) (file : JStr × List Byte) (data : List Byte) : Prop :=
  if isTextPath file.1 then
    data = (toStringUtf8 file.2).flatMap (fun c => be16 (cs.indexOf c)) ∧
      ∀ c ∈ toStringUtf8 file.2, c ∈ cs
  else data = file.2

/-- The records of the files with the payloads `datas`, laid out from offset `off`. -/
def recordsFrom : Nat → List (JStr × List Byte) → List (List Byte) → List FileMeta
  | off, f :: fs, d :: ds =>
    ⟨f.1, off, d.length, !isTextPath f.1⟩ :: recordsFrom (off + d.length) fs ds
  | _, _, _ => []

/-- The text that the pack loop passes to `encodeText` for a file; none for a binary file. -/
def fileText (file : JStr × List Byte) : JStr :=
  if isTextPath file.1 then toStringUtf8 file.2 else []

/-- What the extractor writes for a packed file: the raw bytes of a binary file, the UTF-8
encoding of the decoded text of a text file. -/
def extracted (file : JStr × List Byte) : Written :=
  ⟨file.1, if isTextPath file.1 then utf8Write (toStringUtf8 file.2) else file.2⟩

/-- The `k` low base-62 digits of `n`, lowest first. -/
def labelDigits : Nat → Nat → List Nat
  | 0, _ => []
  | k + 1, n => n % 62 :: labelDigits k (n / 62)

/-- The label of seven characters whose positions in the alphabet are the base-62 digits of
`n`. -/
def labelFor (n : Nat) : JStr := (labelDigits 7 n).map (fun d => chars.getD d 0)

/-- Draws on which `getRandomKey` returns `labelFor n`: each loop test draws 0, each character
draws its digit, and the eighth loop test ends the loop. -/
def drawsFor (n : Nat) : List Nat := (labelDigits 7 n).flatMap (fun d => [0, d]) ++ [0]

/-- The text between the first and the second occurrence of `sep` in `s`; the whole remainder
after the first occurrence when there is no second one. -/
def betweenFirstTwo (sep : CodeUnit) (s : JStr) : JStr :=
  ((s.dropWhile (fun u => u ≠ sep)).drop 1).takeWhile (fun u => u ≠ sep)

/-- No argument of `args` starts with `--name=`. -/
def optionAbsent (args : List JStr) (name : JStr) : Prop :=
  ∀ x ∈ args, startsWith x (js "--" ++ name ++ js "=") = false

/-- Lower-casing of one code unit as the allow-list needs it: `v` is the small letter of the
ASCII capital `u`, or `u` itself when `u` is no ASCII capital. -/
def LowerOf (u v : CodeUnit) : Prop :=
  (65 ≤ u.val ∧ u.val ≤ 90 ∧ v.val = u.val + 32) ∨ (¬ (65 ≤ u.val ∧ u.val ≤ 90) ∧ v = u)

/-- The string `e` is `s` with every ASCII capital letter replaced by its small letter. -/
def LoweredTo (s e : JStr) : Prop := List.Forall₂ LowerOf s e

/-! ## Sample data -/

/-- Draws of `Math.random` that make `getRandomKey` return `abcdefg` and then `abcdefh`. -/
def sampleDraws : List Nat :=
  [0, 0, 0, 1, 0, 2, 0, 3, 0, 4, 0, 5, 0, 6, 0, 0, 0, 0, 1, 0, 2, 0, 3, 0, 4, 0, 5, 0, 7, 0]

/-- The table after `encodeText("hi")` under `sampleDraws`. -/
def sampleTable : Table :=
  ⟨[([104], .str (js "abcdefg")), ([105], .str (js "abcdefh"))],
   [(js "abcdefg", .num 0), (js "abcdefh", .num 1)], 2⟩

/-- Draws that make `getRandomKey` return `abcdefi`. -/
def sampleDraws2 : List Nat := [0, 0, 0, 1, 0, 2, 0, 3, 0, 4, 0, 5, 0, 8, 0]

/-- The table after a further `encodeText("hx")` under `sampleDraws2`. -/
def sampleTable2 : Table :=
  ⟨[([104], .str (js "abcdefg")), ([105], .str (js "abcdefh")), ([120], .str (js "abcdefi"))],
   [(js "abcdefg", .num 0), (js "abcdefh", .num 1), (js "abcdefi", .num 2)], 3⟩

/-- Draws on which `getRandomKey` returns `abcdefi` and then `abcdefg`. -/
def sampleDraws3 : List Nat := sampleDraws2 ++ sampleDraws

/-- The archive that packing `a.md` (content `hi`) and `b.png` leaves under `sampleDraws`. -/
def sampleArchive : Archive :=
  ⟨[0, 0, 0, 1, 255, 0], sampleTable.keys, sampleTable.bin,
    [⟨js "a.md", 0, 4, false⟩, ⟨js "b.png", 4, 2, true⟩], 6, 2⟩

/-- The archive that packing `dir/A.JS` (content `hi`), the dot-file `.js` and `b.png` leaves
under `sampleDraws`. -/
def sampleArchive2 : Archive :=
  ⟨[0, 0, 0, 1, 104, 255, 0], sampleTable.keys, sampleTable.bin,
    [⟨js "dir/A.JS", 0, 4, false⟩, ⟨js ".js", 4, 1, true⟩, ⟨js "b.png", 5, 2, true⟩], 7, 2⟩

/-! ## Plain objects -/

theorem proto_names_long : ∀ name ∈ objectPrototypeNames, 7 ≤ name.length := by decide

theorem single_not_proto (c : CodeUnit) : [c] ∉ objectPrototypeNames := by
  intro h
  have := proto_names_long _ h
  simp at this

theorem proto_mem : js "__proto__" ∈ objectPrototypeNames := by decide

theorem ownProp_keysOf_none {es : List (CodeUnit × JStr)} {c : CodeUnit}
    (h : c ∉ es.map Prod.fst) : ownProp (keysOf es) [c] = none := by
  induction es with
  | nil => rfl
  | cons e es ih =>
    simp only [List.map_cons, List.mem_cons, not_or] at h
    have hne : ¬ ([e.1] = [c]) := by
      intro heq
      exact h.1 (by simpa using heq.symm)
    simp only [keysOf, List.map_cons, ownProp, hne, if_false]
    exact ih h.2

theorem ownProp_binFrom_none {es : List (CodeUnit × JStr)} {k : JStr} (n : Nat)
    (h : k ∉ es.map Prod.snd) : ownProp (binFrom n es) k = none := by
  induction es generalizing n with
  | nil => rfl
  | cons e es ih =>
    simp only [List.map_cons, List.mem_cons, not_or] at h
    have hne : ¬ (e.2 = k) := fun heq => h.1 heq.symm
    simp only [binFrom, ownProp, hne, if_false]
    exact ih (n + 1) h.2

theorem ownProp_binFrom_some {es : List (CodeUnit × JStr)} {k : JStr} (n : Nat)
    (h : k ∈ es.map Prod.snd) : ∃ m, ownProp (binFrom n es) k = some (.num m) := by
  induction es generalizing n with
  | nil => simp at h
  | cons e es ih =>
    by_cases hk : e.2 = k
    · exact ⟨n, by simp [binFrom, ownProp, hk]⟩
    · simp only [List.map_cons, List.mem_cons] at h
      rcases h with h | h
      · exact absurd h.symm hk
      · obtain ⟨m, hm⟩ := ih (n + 1) h
        exact ⟨m, by simp [binFrom, ownProp, hk, hm]⟩

/-- Joint lookup: a character of `es` has its label under `keys` and its position under `bin`. -/
theorem lookup_spec {es : List (CodeUnit × JStr)} {c : CodeUnit} (n : Nat)
    (hl : (es.map Prod.snd).Nodup) (hc : c ∈ es.map Prod.fst) :
    ∃ k, (c, k) ∈ es ∧ ownProp (keysOf es) [c] = some (.str k) ∧
      ownProp (binFrom n es) k = some (.num (n + (es.map Prod.fst).indexOf c)) := by
  induction es generalizing n with
  | nil => simp at hc
  | cons e es ih =>
    simp only [List.map_cons, List.nodup_cons] at hl
    by_cases he : e.1 = c
    · refine ⟨e.2, ?_, ?_, ?_⟩
      · simp [← he]
      · simp [keysOf, ownProp, he]
      · simp [binFrom, ownProp, he]
    · simp only [List.map_cons, List.mem_cons] at hc
      rcases hc with hc | hc
      · exact absurd hc.symm he
      · obtain ⟨k, hmem, hk1, hk2⟩ := ih (n + 1) hl.2 hc
        have hkne : ¬ (e.2 = k) := by
          intro heq
          apply hl.1
          rw [heq]
          exact List.mem_map.2 ⟨(c, k), hmem, rfl⟩
        have hne : ¬ ([e.1] = [c]) := by
          intro heq
          exact he (by simpa using heq)
        refine ⟨k, List.mem_cons_of_mem _ hmem, ?_, ?_⟩
        · simpa [keysOf, ownProp, hne] using hk1
        · simp only [binFrom, ownProp, hkne, if_false, List.map_cons]
          rw [hk2, List.indexOf_cons_ne _ he]
          congr 2
          omega

theorem binFrom_append (n : Nat) (es : List (CodeUnit × JStr)) (e : CodeUnit × JStr) :
    binFrom n (es ++ [e]) = binFrom n es ++ [(e.2, .num (n + es.length))] := by
  induction es generalizing n with
  | nil => simp [binFrom]
  | cons x es ih =>
    have : n + 1 + es.length = n + (es.length + 1) := by omega
    show (x.2, JSVal.num n) :: binFrom (n + 1) (es ++ [e]) = _
    rw [ih, this]
    rfl

theorem binFrom_map_fst (n : Nat) (es : List (CodeUnit × JStr)) :
    (binFrom n es).map Prod.fst = es.map Prod.snd := by
  induction es generalizing n with
  | nil => rfl
  | cons x es ih => simp [binFrom, ih]

theorem binFrom_map_snd (n : Nat) (es : List (CodeUnit × JStr)) :
    (binFrom n es).map Prod.snd = (List.range' n es.length).map JSVal.num := by
  induction es generalizing n with
  | nil => rfl
  | cons x es ih => simp [binFrom, ih, List.range'_succ]

/-! ## Random labels -/

theorem getRandomKeyLoop_spec : ∀ (rnd : List Nat) (i : Nat) (res k : JStr) (rnd1 : List Nat),
    getRandomKeyLoop rnd i res = some (k, rnd1) → i ≤ res.length →
    7 ≤ k.length ∧ rnd1.length < rnd.length := by
  intro rnd i res
  induction rnd, i, res using getRandomKeyLoop.induct with
  | case1 i res => intro k rnd1 h; simp [getRandomKeyLoop] at h
  | case2 r i res hlt => intro k rnd1 h; simp [getRandomKeyLoop, hlt] at h
  | case3 r i res hlt =>
    intro k rnd1 h hi
    simp only [getRandomKeyLoop, hlt, if_false, Option.some.injEq, Prod.mk.injEq] at h
    obtain ⟨rfl, rfl⟩ := h
    exact ⟨by omega, by simp⟩
  | case4 r c rest i res hlt ih =>
    intro k rnd1 h hi
    simp only [getRandomKeyLoop, hlt, if_true] at h
    have := ih k rnd1 h (by simp; omega)
    exact ⟨this.1, by simp only [List.length_cons]; omega⟩
  | case5 r c rest i res hlt =>
    intro k rnd1 h hi
    simp only [getRandomKeyLoop, hlt, if_false, Option.some.injEq, Prod.mk.injEq] at h
    obtain ⟨rfl, rfl⟩ := h
    exact ⟨by omega, by simp⟩

theorem getRandomKey_spec {rnd rnd1 : List Nat} {k : JStr}
    (h : getRandomKey rnd = some (k, rnd1)) : 7 ≤ k.length ∧ rnd1.length < rnd.length :=
  getRandomKeyLoop_spec rnd 0 [] k rnd1 h (by simp)

theorem freshKeyLoop_spec {bin : Obj} : ∀ (fuel : Nat) (rnd : List Nat) (k : JStr)
    (rnd1 : List Nat), freshKeyLoop bin fuel rnd = some (k, rnd1) →
    getProp bin k = .undefined ∧ 7 ≤ k.length := by
  intro fuel
  induction fuel with
  | zero => intro rnd k rnd1 h; simp [freshKeyLoop] at h
  | succ fuel ih =>
    intro rnd k rnd1 h
    simp only [freshKeyLoop] at h
    cases hg : getRandomKey rnd with
    | none => simp [hg] at h
    | some p =>
      obtain ⟨k0, rnd0⟩ := p
      simp only [hg] at h
      split at h
      · exact ih _ _ _ h
      · simp only [Option.some.injEq, Prod.mk.injEq] at h
        obtain ⟨rfl, rfl⟩ := h
        rename_i hnot
        exact ⟨by simpa using hnot, (getRandomKey_spec hg).1⟩

/-! ## The table invariant -/

theorem TableInv.init : TableInv [] Table.empty :=
  ⟨rfl, rfl, rfl, List.nodup_nil, List.nodup_nil, by simp⟩

theorem TableInv.length_le {es : List (CodeUnit × JStr)} {t : Table} (h : TableInv es t) :
    es.length ≤ 65536 := by
  have := List.Nodup.length_le_card h.chars_nodup
  rw [Fintype.card_fin, List.length_map] at this
  exact this

theorem TableInv.lookup_mem {es : List (CodeUnit × JStr)} {t : Table} (h : TableInv es t)
    {c : CodeUnit} (hc : c ∈ es.map Prod.fst) :
    ∃ k, (c, k) ∈ es ∧ k ≠ [] ∧ getProp t.keys [c] = .str k ∧
      getProp t.bin k = .num ((es.map Prod.fst).indexOf c) := by
  obtain ⟨k, hmem, hk1, hk2⟩ := lookup_spec 0 h.labels_nodup hc
  refine ⟨k, hmem, (h.labels_ok _ hmem).1, ?_, ?_⟩
  · simp [getProp, h.keys_eq, hk1]
  · simp [getProp, h.bin_eq, hk2]

theorem TableInv.lookup_not_mem {es : List (CodeUnit × JStr)} {t : Table} (h : TableInv es t)
    {c : CodeUnit} (hc : c ∉ es.map Prod.fst) : getProp t.keys [c] = .undefined := by
  simp [getProp, h.keys_eq, ownProp_keysOf_none hc, single_not_proto]

theorem TableInv.indexOf_mem {es : List (CodeUnit × JStr)} {t : Table} (h : TableInv es t)
    {c : CodeUnit} (hc : c ∈ es.map Prod.fst) :
    t.indexOf c = .num ((es.map Prod.fst).indexOf c) := by
  obtain ⟨k, _, _, hk1, hk2⟩ := h.lookup_mem hc
  simp [Table.indexOf, hk1, toPropertyKey, toStr, hk2]

/-- A label that `bin[k] !== undefined` lets through is no label of the table and no name
inherited from `Object.prototype`. -/
theorem TableInv.fresh {es : List (CodeUnit × JStr)} {t : Table} (h : TableInv es t)
    {k : JStr} (hk : getProp t.bin k = .undefined) :
    k ∉ es.map Prod.snd ∧ k ∉ objectPrototypeNames ∧ ownProp t.bin k = none := by
  have hnot : k ∉ es.map Prod.snd := by
    intro hmem
    obtain ⟨m, hm⟩ := ownProp_binFrom_some 0 hmem
    simp [getProp, h.bin_eq, hm] at hk
  have hown : ownProp t.bin k = none := by rw [h.bin_eq]; exact ownProp_binFrom_none 0 hnot
  refine ⟨hnot, ?_, hown⟩
  intro hp
  simp [getProp, hown, hp] at hk

/-- One allocation step keeps the invariant and extends the allocation list by at most the
character at hand. -/
theorem ensureEntry_spec {es : List (CodeUnit × JStr)} {t t1 : Table} {rnd rnd1 : List Nat}
    {ch : CodeUnit} (h : TableInv es t) (he : ensureEntry t rnd ch = some (t1, rnd1)) :
    (ch ∈ es.map Prod.fst ∧ t1 = t ∧ rnd1 = rnd) ∨
    (ch ∉ es.map Prod.fst ∧ ∃ k, TableInv (es ++ [(ch, k)]) t1) := by
  by_cases hc : ch ∈ es.map Prod.fst
  · left
    obtain ⟨k, _, hne, hk, _⟩ := h.lookup_mem hc
    have htr : truthy (getProp t.keys [ch]) = true := by
      rw [hk]
      cases k with
      | nil => exact absurd rfl hne
      | cons a l => rfl
    simp only [ensureEntry, htr, Bool.not_true, Bool.false_eq_true, if_false,
      Option.some.injEq, Prod.mk.injEq] at he
    exact ⟨hc, he.1.symm, he.2.symm⟩
  · right
    refine ⟨hc, ?_⟩
    have hun := h.lookup_not_mem hc
    simp only [ensureEntry, hun, truthy, Bool.not_false, if_true] at he
    cases hf : freshKeyLoop t.bin rnd.length rnd with
    | none => simp [hf] at he
    | some p =>
      obtain ⟨k, rnd2⟩ := p
      simp only [hf, Option.some.injEq, Prod.mk.injEq] at he
      obtain ⟨rfl, rfl⟩ := he
      obtain ⟨hfresh, hlen⟩ := freshKeyLoop_spec _ _ _ _ hf
      obtain ⟨hnot, hnp, hown⟩ := h.fresh hfresh
      have hkp : k ≠ js "__proto__" := fun heq => hnp (heq ▸ proto_mem)
      have hcp : [ch] ≠ js "__proto__" := fun heq => single_not_proto ch (heq ▸ proto_mem)
      have hownk : ownProp t.keys [ch] = none := by
        rw [h.keys_eq]; exact ownProp_keysOf_none hc
      refine ⟨k, ?_, ?_, ?_, ?_, ?_, ?_⟩
      · simp only [setProp, hownk, hcp, if_false]
        simp [h.keys_eq, keysOf]
      · simp only [setProp, hown, hkp, if_false]
        simp [h.bin_eq, binFrom_append, h.counter_eq]
      · simp [h.counter_eq]
      · rw [List.map_append, List.nodup_append]
        refine ⟨h.chars_nodup, by simp, ?_⟩
        intro a ha hb
        simp only [List.map_cons, List.map_nil, List.mem_singleton] at hb
        exact hc (hb ▸ ha)
      · rw [List.map_append, List.nodup_append]
        refine ⟨h.labels_nodup, by simp, ?_⟩
        intro a ha hb
        simp only [List.map_cons, List.map_nil, List.mem_singleton] at hb
        exact hnot (hb ▸ ha)
      · intro e hmem
        rcases List.mem_append.1 hmem with hmem | hmem
        · exact h.labels_ok e hmem
        · simp only [List.mem_singleton] at hmem
          subst hmem
          refine ⟨?_, hnp⟩
          intro hnil
          have hk0 : k = [] := hnil
          subst hk0
          simp at hlen

theorem ensureEntry_inv {es : List (CodeUnit × JStr)} {t t1 : Table} {rnd rnd1 : List Nat}
    {ch : CodeUnit} (h : TableInv es t) (he : ensureEntry t rnd ch = some (t1, rnd1)) :
    ∃ new, TableInv (es ++ new) t1 ∧
      (es ++ new).map Prod.fst = addSeen (es.map Prod.fst) ch ∧
      ch ∈ (es ++ new).map Prod.fst := by
  rcases ensureEntry_spec h he with ⟨hc, rfl, _⟩ | ⟨hc, k, hk⟩
  · exact ⟨[], by simpa using h, by simp [addSeen, hc], by simpa using hc⟩
  · exact ⟨[(ch, k)], hk, by simp [addSeen, hc], by simp⟩

theorem writeUInt16BE_num {n : Nat} (h : n ≤ 65535) : writeUInt16BE (.num n) = .ok (be16 n) := by
  simp [writeUInt16BE, toNumber, h, be16]

/-- The encoder loop on a well-formed table: it never throws, keeps the table well formed,
allocates the new characters in order of first occurrence and writes, for every code unit, the
16-bit big-endian index that the final table gives it. -/
theorem encodeTextLoop_spec : ∀ (text : List CodeUnit) (es : List (CodeUnit × JStr))
    (t t1 : Table) (rnd rnd1 : List Nat) (buf : List Byte) (res : Except JSError (List Byte)),
    TableInv es t → encodeTextLoop text t rnd buf = some (t1, rnd1, res) →
    ∃ more, TableInv (es ++ more) t1 ∧
      (es ++ more).map Prod.fst = firstSeenFrom (es.map Prod.fst) text ∧
      res = .ok (buf ++ text.flatMap (fun c => be16 (((es ++ more).map Prod.fst).indexOf c))) := by
  intro text
  induction text with
  | nil =>
    intro es t t1 rnd rnd1 buf res h he
    simp only [encodeTextLoop, Option.some.injEq, Prod.mk.injEq] at he
    obtain ⟨rfl, rfl, rfl⟩ := he
    exact ⟨[], by simpa using h, by simp [firstSeenFrom], by simp⟩
  | cons ch rest ih =>
    intro es t t1 rnd rnd1 buf res h he
    simp only [encodeTextLoop] at he
    cases hen : ensureEntry t rnd ch with
    | none => simp [hen] at he
    | some p =>
      obtain ⟨t2, rnd2⟩ := p
      simp only [hen] at he
      obtain ⟨new, hinv, hfst, hmem⟩ := ensureEntry_inv h hen
      obtain ⟨k, _, _, hk1, hk2⟩ := hinv.lookup_mem hmem
      have hlt : ((es ++ new).map Prod.fst).indexOf ch ≤ 65535 := by
        have h1 := List.indexOf_lt_length.2 hmem
        have h2 := hinv.length_le
        rw [List.length_map] at h1
        omega
      simp only [hk1, toPropertyKey, toStr, hk2, writeUInt16BE_num hlt] at he
      obtain ⟨more, hinv1, hfst1, hres⟩ := ih (es ++ new) t2 t1 rnd2 rnd1 _ res hinv he
      refine ⟨new ++ more, by simpa using hinv1, ?_, ?_⟩
      · rw [← List.append_assoc, hfst1, hfst]
        rfl
      · rw [hres, ← List.append_assoc es new more, List.flatMap_cons, List.append_assoc]
        congr 3
        have hmap : ((es ++ new) ++ more).map Prod.fst
            = (es ++ new).map Prod.fst ++ more.map Prod.fst := List.map_append _ _ _
        rw [hmap, List.indexOf_append_of_mem hmem]

theorem encodeText_spec {es : List (CodeUnit × JStr)} {t t1 : Table} {rnd rnd1 : List Nat}
    {text : JStr} {res : Except JSError (List Byte)}
    (h : TableInv es t) (he : encodeText t rnd text = some (t1, rnd1, res)) :
    ∃ more, TableInv (es ++ more) t1 ∧
      (es ++ more).map Prod.fst = firstSeenFrom (es.map Prod.fst) text ∧
      res = .ok (text.flatMap (fun c => be16 (((es ++ more).map Prod.fst).indexOf c))) := by
  simpa using encodeTextLoop_spec text es t t1 rnd rnd1 [] res h he

theorem firstSeenFrom_append (acc : List CodeUnit) (a b : JStr) :
    firstSeenFrom acc (a ++ b) = firstSeenFrom (firstSeenFrom acc a) b := by
  simp [firstSeenFrom, List.foldl_append]

/-- A sequence of calls from a well-formed table ends in a well-formed table whose characters
are those of the start followed by the new ones of the texts, in first-seen order. -/
theorem Calls.preserves {t t1 : Table} {texts : List JStr} (hc : Calls t texts t1) :
    ∀ es, TableInv es t → ∃ more, TableInv (es ++ more) t1 ∧
      (es ++ more).map Prod.fst = firstSeenFrom (es.map Prod.fst) texts.flatten := by
  induction hc with
  | done t => intro es h; exact ⟨[], by simpa using h, by simp [firstSeenFrom]⟩
  | call he _ ih =>
    intro es h
    obtain ⟨more, hinv, hfst, _⟩ := encodeText_spec h he
    obtain ⟨more1, hinv1, hfst1⟩ := ih _ hinv
    refine ⟨more ++ more1, by simpa using hinv1, ?_⟩
    rw [← List.append_assoc, hfst1, hfst, List.flatten_cons, firstSeenFrom_append]

theorem Reachable.wellFormed {t : Table} (h : Reachable t) : ∃ es, TableInv es t := by
  obtain ⟨texts, hc⟩ := h
  obtain ⟨more, hinv, _⟩ := hc.preserves [] TableInv.init
  exact ⟨_, hinv⟩

/-! ## Decimal property names -/

theorem digitsLE_lt : ∀ (fuel n : Nat), ∀ d ∈ digitsLE fuel n, d < 10 := by
  intro fuel
  induction fuel with
  | zero => intro n d h; simp [digitsLE] at h
  | succ fuel ih =>
    intro n d h
    simp only [digitsLE] at h
    split at h
    · simp only [List.mem_singleton] at h
      omega
    · simp only [List.mem_cons] at h
      rcases h with h | h
      · omega
      · exact ih _ _ h

theorem valLE_digitsLE : ∀ (fuel n : Nat), n < fuel → valLE (digitsLE fuel n) = n := by
  intro fuel
  induction fuel with
  | zero => intro n h; omega
  | succ fuel ih =>
    intro n h
    simp only [digitsLE]
    split
    · simp [valLE]
    · simp only [valLE]
      rw [ih (n / 10) (by omega)]
      omega

theorem undecimal_decimal (n : Nat) : undecimal (decimal n) = n := by
  have hmap : (decimal n).map (fun u => u.val - 48) = (digitsLE (n + 1) n).reverse := by
    simp only [decimal, List.map_map]
    conv_rhs => rw [← List.map_id (digitsLE (n + 1) n).reverse]
    apply List.map_congr_left
    intro d hd
    have hlt := digitsLE_lt _ _ d (List.mem_reverse.1 hd)
    simp only [Function.comp, id]
    show (48 + d) % 65536 - 48 = d
    omega
  simp only [undecimal, hmap, List.reverse_reverse]
  exact valLE_digitsLE _ _ (by omega)

theorem decimal_injective : Function.Injective decimal := by
  intro a b h
  rw [← undecimal_decimal a, ← undecimal_decimal b, h]

theorem decimal_units_lt (n : Nat) : ∀ u ∈ decimal n, u.val < 58 := by
  intro u hu
  simp only [decimal, List.mem_map, List.mem_reverse] at hu
  obtain ⟨d, hd, rfl⟩ := hu
  have hlt := digitsLE_lt _ _ d hd
  show (48 + d) % 65536 < 58
  omega

theorem proto_names_have_letter : ∀ name ∈ objectPrototypeNames, ∃ u ∈ name, 58 ≤ u.val := by
  decide

theorem decimal_not_proto (n : Nat) : decimal n ∉ objectPrototypeNames := by
  intro h
  obtain ⟨u, hu, hge⟩ := proto_names_have_letter _ h
  have := decimal_units_lt n u hu
  omega

/-! ## Reverse maps of the extractor -/

theorem ownProp_replaceOwn_ne {o : Obj} {key other : JStr} (v : JSVal) (h : key ≠ other) :
    ownProp (replaceOwn o key v) other = ownProp o other := by
  induction o with
  | nil => rfl
  | cons e o ih =>
    obtain ⟨k, w⟩ := e
    simp only [replaceOwn]
    by_cases hk : k = key
    · subst hk
      simp [ownProp, h]
    · simp only [hk, if_false, ownProp, ih]

theorem ownProp_replaceOwn_self {o : Obj} {key : JStr} (v : JSVal) {w : JSVal}
    (h : ownProp o key = some w) : ownProp (replaceOwn o key v) key = some v := by
  induction o with
  | nil => simp [ownProp] at h
  | cons e o ih =>
    obtain ⟨k, x⟩ := e
    simp only [replaceOwn]
    by_cases hk : k = key
    · simp [hk, ownProp]
    · simp only [hk, if_false, ownProp] at h ⊢
      exact ih h

theorem ownProp_append_ne {o : Obj} {key other : JStr} (v : JSVal) (h : key ≠ other) :
    ownProp (o ++ [(key, v)]) other = ownProp o other := by
  induction o with
  | nil => simp [ownProp, h]
  | cons e o ih =>
    obtain ⟨k, x⟩ := e
    show (if k = other then some x else ownProp (o ++ [(key, v)]) other) = _
    rw [ih]
    rfl

theorem ownProp_append_self {o : Obj} {key : JStr} (v : JSVal) (h : ownProp o key = none) :
    ownProp (o ++ [(key, v)]) key = some v := by
  induction o with
  | nil => simp [ownProp]
  | cons e o ih =>
    obtain ⟨k, x⟩ := e
    have h1 : (if k = key then some x else ownProp o key) = none := h
    show (if k = key then some x else ownProp (o ++ [(key, v)]) key) = _
    by_cases hk : k = key
    · simp [hk] at h1
    · simp only [hk, if_false] at h1 ⊢
      exact ih h1

theorem ownProp_setProp_ne {o : Obj} {key other : JStr} (v : JSVal) (h : key ≠ other) :
    ownProp (setProp o key v) other = ownProp o other := by
  unfold setProp
  cases hown : ownProp o key with
  | some w => exact ownProp_replaceOwn_ne v h
  | none =>
    simp only
    split
    · rfl
    · exact ownProp_append_ne v h

theorem ownProp_setProp_self {o : Obj} {key : JStr} (v : JSVal) (h : key ≠ js "__proto__") :
    ownProp (setProp o key v) key = some v := by
  unfold setProp
  cases hown : ownProp o key with
  | some w => exact ownProp_replaceOwn_self v hown
  | none =>
    simp only [h, if_false]
    exact ownProp_append_self v hown

/-- Entries whose property key differs from `pk` leave the slot `pk` of a reverse map alone. -/
theorem foldl_reverse_other : ∀ (entries r : Obj) (pk : JStr),
    pk ∉ entries.map (fun kv => toPropertyKey kv.2) →
    ownProp (entries.foldl (fun r kv => setProp r (toPropertyKey kv.2) (.str kv.1)) r) pk
      = ownProp r pk := by
  intro entries
  induction entries with
  | nil => intro r pk _; rfl
  | cons e entries ih =>
    intro r pk h
    simp only [List.map_cons, List.mem_cons, not_or] at h
    simp only [List.foldl_cons]
    rw [ih _ _ h.2]
    exact ownProp_setProp_ne _ (fun heq => h.1 heq.symm)

/-- When the entries have pairwise different property keys, the reverse map sends the key of
every entry back to the name of that entry. -/
theorem foldl_reverse_mem : ∀ (entries r : Obj) (k : JStr) (v : JSVal),
    (entries.map (fun kv => toPropertyKey kv.2)).Nodup → (k, v) ∈ entries →
    toPropertyKey v ≠ js "__proto__" →
    ownProp (entries.foldl (fun r kv => setProp r (toPropertyKey kv.2) (.str kv.1)) r)
      (toPropertyKey v) = some (.str k) := by
  intro entries
  induction entries with
  | nil => intro r k v _ h; simp at h
  | cons e entries ih =>
    intro r k v hnd hmem hp
    simp only [List.map_cons, List.nodup_cons] at hnd
    simp only [List.foldl_cons]
    rcases List.mem_cons.1 hmem with heq | hmem
    · subst heq
      rw [foldl_reverse_other _ _ _ hnd.1]
      exact ownProp_setProp_self _ hp
    · exact ih _ k v hnd.2 hmem hp

theorem ownProp_mem {o : Obj} {key : JStr} {v : JSVal} (h : ownProp o key = some v) :
    (key, v) ∈ o := by
  induction o with
  | nil => simp [ownProp] at h
  | cons e o ih =>
    obtain ⟨k, x⟩ := e
    simp only [ownProp] at h
    by_cases hk : k = key
    · simp only [hk, if_true, Option.some.injEq] at h
      simp [hk, h]
    · simp only [hk, if_false] at h
      exact List.mem_cons_of_mem _ (ih h)

/-- Reverse `bin` map of a well-formed table, under any enumeration order of its entries:
the index of a character leads back to its label. -/
theorem TableInv.reverseBin_lookup {es : List (CodeUnit × JStr)} {t : Table} (h : TableInv es t)
    {binEntries : Obj} (hp : binEntries.Perm t.bin) {c : CodeUnit} {k : JStr}
    (hk : getProp t.bin k = .num ((es.map Prod.fst).indexOf c)) (hmem : (c, k) ∈ es) :
    getProp (reverseBin binEntries) (decimal ((es.map Prod.fst).indexOf c)) = .str k := by
  have hown : ownProp t.bin k = some (.num ((es.map Prod.fst).indexOf c)) := by
    have hks : k ∈ es.map Prod.snd := List.mem_map.2 ⟨(c, k), hmem, rfl⟩
    obtain ⟨m, hm⟩ := ownProp_binFrom_some 0 hks
    rw [h.bin_eq] at hk ⊢
    simp only [getProp, hm] at hk
    rw [hm, hk]
  have hin : (k, JSVal.num ((es.map Prod.fst).indexOf c)) ∈ binEntries :=
    hp.symm.subset (ownProp_mem hown)
  have hnd : (binEntries.map (fun kv => toPropertyKey kv.2)).Nodup := by
    have hperm := hp.map (fun kv : JStr × JSVal => toPropertyKey kv.2)
    refine hperm.nodup_iff.2 ?_
    rw [h.bin_eq]
    have : (binFrom 0 es).map (fun kv => toPropertyKey kv.2) =
        (List.range' 0 es.length).map decimal := by
      have h1 : (binFrom 0 es).map (fun kv => toPropertyKey kv.2)
          = ((binFrom 0 es).map Prod.snd).map toPropertyKey := by
        rw [List.map_map]; rfl
      rw [h1, binFrom_map_snd, List.map_map]
      rfl
    rw [this]
    exact (List.nodup_range' 0 es.length).map decimal_injective
  have := foldl_reverse_mem binEntries [] k _ hnd hin
    (fun heq => decimal_not_proto _ (by
      have : decimal ((es.map Prod.fst).indexOf c) = js "__proto__" := heq
      rw [this]; exact proto_mem))
  simp only [reverseBin, getProp]
  have hkey : toPropertyKey (JSVal.num ((es.map Prod.fst).indexOf c))
      = decimal ((es.map Prod.fst).indexOf c) := rfl
  rw [hkey] at this
  rw [this]

/-- Reverse `keys` map of a well-formed table, under any enumeration order of its entries:
a label leads back to its character. -/
theorem TableInv.reverseKeys_lookup {es : List (CodeUnit × JStr)} {t : Table} (h : TableInv es t)
    {keysEntries : Obj} (hp : keysEntries.Perm t.keys) {c : CodeUnit} {k : JStr}
    (hmem : (c, k) ∈ es) :
    getProp (reverseKeys keysEntries) k = .str [c] := by
  have hin : (([c] : JStr), JSVal.str k) ∈ keysEntries := by
    apply hp.symm.subset
    rw [h.keys_eq]
    exact List.mem_map.2 ⟨(c, k), hmem, rfl⟩
  have hnd : (keysEntries.map (fun kv => toPropertyKey kv.2)).Nodup := by
    have hperm := hp.map (fun kv : JStr × JSVal => toPropertyKey kv.2)
    refine hperm.nodup_iff.2 ?_
    rw [h.keys_eq]
    have : (keysOf es).map (fun kv => toPropertyKey kv.2) = es.map Prod.snd := by
      simp only [keysOf, List.map_map]
      rfl
    rw [this]
    exact h.labels_nodup
  have hkp : toPropertyKey (JSVal.str k) ≠ js "__proto__" := by
    intro heq
    have : k = js "__proto__" := heq
    exact (h.labels_ok _ hmem).2 (this ▸ proto_mem)
  have := foldl_reverse_mem keysEntries [] [c] _ hnd hin hkp
  have hkey : toPropertyKey (JSVal.str k) = k := rfl
  rw [hkey] at this
  simp only [reverseKeys, getProp, this]

/-! ## First-seen order -/

theorem subset_firstSeenFrom (text : JStr) : ∀ (acc : List CodeUnit) (c : CodeUnit),
    c ∈ acc → c ∈ firstSeenFrom acc text := by
  induction text with
  | nil => intro acc c h; exact h
  | cons a text ih =>
    intro acc c h
    apply ih
    show c ∈ addSeen acc a
    unfold addSeen
    split
    · exact h
    · exact List.mem_append_left _ h

theorem mem_firstSeenFrom (text : JStr) : ∀ (acc : List CodeUnit) (c : CodeUnit),
    c ∈ text → c ∈ firstSeenFrom acc text := by
  induction text with
  | nil => intro acc c h; simp at h
  | cons a text ih =>
    intro acc c h
    rcases List.mem_cons.1 h with heq | h
    · subst heq
      apply subset_firstSeenFrom text (addSeen acc c)
      by_cases hm : c ∈ acc
      · simp [addSeen, hm]
      · simp [addSeen, hm]
    · exact ih _ _ h

theorem firstSeenFrom_snoc (acc : List CodeUnit) (l : JStr) (a : CodeUnit) :
    firstSeenFrom acc (l ++ [a]) = addSeen (firstSeenFrom acc l) a := by
  simp [firstSeenFrom, List.foldl_append]

theorem mem_addSeen {acc : List CodeUnit} {a c : CodeUnit} :
    c ∈ addSeen acc a ↔ c ∈ acc ∨ c = a := by
  unfold addSeen
  split
  · constructor
    · exact Or.inl
    · rintro (h | rfl)
      · exact h
      · assumption
  · simp

theorem mem_firstSeen_iff (l : JStr) (c : CodeUnit) : c ∈ firstSeenFrom [] l ↔ c ∈ l := by
  induction l using List.reverseRecOn with
  | nil => simp [firstSeenFrom]
  | append_singleton l a ih =>
    rw [firstSeenFrom_snoc, mem_addSeen, ih]
    simp

theorem nodup_firstSeen (l : JStr) : (firstSeenFrom [] l).Nodup := by
  induction l using List.reverseRecOn with
  | nil => simp [firstSeenFrom]
  | append_singleton l a ih =>
    rw [firstSeenFrom_snoc]
    unfold addSeen
    split
    · exact ih
    · rename_i hn
      exact List.Nodup.append ih (by simp) (by simpa using hn)

theorem length_firstSeen (l : JStr) : (firstSeenFrom [] l).length = distinctCount l := by
  have hperm : (firstSeenFrom [] l).Perm l.dedup :=
    (List.perm_ext_iff_of_nodup (nodup_firstSeen l) (List.nodup_dedup l)).2
      (fun a => by rw [mem_firstSeen_iff, List.mem_dedup])
  exact hperm.length_eq

/-- The position of a code unit in the first-seen list is the number of distinct code units
that occur before its first occurrence. -/
theorem indexOf_firstSeen (l : JStr) : ∀ c ∈ l,
    (firstSeenFrom [] l).indexOf c = distinctBefore l c := by
  induction l using List.reverseRecOn with
  | nil => intro c h; simp at h
  | append_singleton l a ih =>
    intro c hc
    rw [firstSeenFrom_snoc]
    by_cases hl : c ∈ l
    · have hfs : c ∈ firstSeenFrom [] l := (mem_firstSeen_iff l c).2 hl
      have h1 : (addSeen (firstSeenFrom [] l) a).indexOf c = (firstSeenFrom [] l).indexOf c := by
        unfold addSeen
        split
        · rfl
        · exact List.indexOf_append_of_mem hfs
      have h2 : distinctBefore (l ++ [a]) c = distinctBefore l c := by
        unfold distinctBefore
        rw [List.indexOf_append_of_mem hl, List.take_append_of_le_length List.indexOf_le_length]
      rw [h1, h2, ih c hl]
    · have hca : c = a := by
        rcases List.mem_append.1 hc with h | h
        · exact absurd h hl
        · simpa using h
      subst hca
      have hfs : c ∉ firstSeenFrom [] l := fun h => hl ((mem_firstSeen_iff l c).1 h)
      have h1 : (addSeen (firstSeenFrom [] l) c).indexOf c = (firstSeenFrom [] l).length := by
        simp only [addSeen, hfs, if_false]
        rw [List.indexOf_append_of_not_mem hfs]
        simp
      have h2 : distinctBefore (l ++ [c]) c = distinctCount l := by
        unfold distinctBefore
        rw [List.indexOf_append_of_not_mem hl]
        simp
      rw [h1, h2, length_firstSeen]

/-! ## The decoder on encoded text -/

theorem be16_val {n : Nat} (h : n ≤ 65535) :
    ∃ hi lo : Byte, be16 n = [hi, lo] ∧ hi.val * 256 + lo.val = n := by
  refine ⟨Fin.ofNat (n / 256), Fin.ofNat (n % 256), rfl, ?_⟩
  show (n / 256) % 256 * 256 + (n % 256) % 256 = n
  omega

/-- The decoder loop reads back a text from its index stream when both reverse maps resolve the
index of every code unit of the text. -/
theorem decodeTextLoop_spec (rBin rKeys : Obj) (f : CodeUnit → Nat) :
    ∀ (text result : JStr),
    (∀ c ∈ text, f c ≤ 65535 ∧
      ∃ k, getProp rBin (decimal (f c)) = .str k ∧ getProp rKeys k = .str [c]) →
    decodeTextLoop rBin rKeys (text.flatMap (fun c => be16 (f c))) result
      = .ok (result ++ text) := by
  intro text
  induction text with
  | nil => intro result _; simp [decodeTextLoop]
  | cons c text ih =>
    intro result h
    obtain ⟨hle, k, hk1, hk2⟩ := h c (List.mem_cons_self _ _)
    obtain ⟨hi, lo, hbe, hval⟩ := be16_val hle
    rw [List.flatMap_cons, hbe]
    show decodeTextLoop rBin rKeys (hi :: lo :: _) result = _
    simp only [decodeTextLoop, hval, toPropertyKey, toStr, hk1, hk2]
    rw [if_neg (by simp)]
    have := ih (result ++ [c]) (fun c1 h1 => h c1 (List.mem_cons_of_mem _ h1))
    simpa using this

/-! ## Layout of the encoded buffer -/

theorem flatMap_be16_length (f : CodeUnit → Nat) (text : JStr) :
    (text.flatMap (fun c => be16 (f c))).length = 2 * text.length := by
  induction text with
  | nil => rfl
  | cons c text ih =>
    rw [List.flatMap_cons, List.length_append, ih]
    simp only [be16, List.length_cons, List.length_nil]
    omega

theorem flatMap_be16_get (f : CodeUnit → Nat) : ∀ (text : JStr) (i : Nat) (c : CodeUnit),
    text[i]? = some c →
    (text.flatMap (fun c => be16 (f c)))[2 * i]? = some (Fin.ofNat (f c / 256)) ∧
    (text.flatMap (fun c => be16 (f c)))[2 * i + 1]? = some (Fin.ofNat (f c % 256)) := by
  intro text
  induction text with
  | nil => intro i c h; simp at h
  | cons a text ih =>
    intro i c h
    cases i with
    | zero =>
      simp only [List.getElem?_cons_zero, Option.some.injEq] at h
      subst h
      simp [List.flatMap_cons, be16]
    | succ i =>
      simp only [List.getElem?_cons_succ] at h
      obtain ⟨h1, h2⟩ := ih i c h
      have e1 : 2 * (i + 1) = 2 * i + 1 + 1 := by omega
      rw [e1, List.flatMap_cons]
      simp only [be16, List.cons_append, List.nil_append, List.getElem?_cons_succ]
      exact ⟨h1, h2⟩

/-- On a table in which every code unit of the text has a non-empty label, the encoder loop
changes neither the table nor the supply of draws. -/
theorem encodeTextLoop_known : ∀ (text : List CodeUnit) (t : Table) (rnd : List Nat)
    (buf : List Byte), (∀ c ∈ text, truthy (getProp t.keys [c]) = true) →
    ∃ res, encodeTextLoop text t rnd buf = some (t, rnd, res) := by
  intro text
  induction text with
  | nil => intro t rnd buf _; exact ⟨_, rfl⟩
  | cons ch rest ih =>
    intro t rnd buf h
    have hch := h ch (List.mem_cons_self _ _)
    have hen : ensureEntry t rnd ch = some (t, rnd) := by simp [ensureEntry, hch]
    simp only [encodeTextLoop, hen]
    cases hw : writeUInt16BE (getProp t.bin (toPropertyKey (getProp t.keys [ch]))) with
    | error e => exact ⟨_, rfl⟩
    | ok bytes => exact ih t rnd _ (fun c hc => h c (List.mem_cons_of_mem _ hc))

theorem binFrom_append_list (n : Nat) (a b : List (CodeUnit × JStr)) :
    binFrom n (a ++ b) = binFrom n a ++ binFrom (n + a.length) b := by
  induction a generalizing n with
  | nil => simp [binFrom]
  | cons x a ih =>
    have : n + 1 + a.length = n + (a.length + 1) := by omega
    show (x.2, JSVal.num n) :: binFrom (n + 1) (a ++ b) = _
    rw [ih, this]
    rfl

/-! ## The pack loop -/

/-- Every iteration of the pack loop pushes one buffer and one record that starts at the
current offset and has the length of that buffer, and advances the offset by that length. -/
theorem packFile_shape {s s1 : PackState} {rnd rnd1 : List Nat} {relPath : JStr}
    {buffer : List Byte} (h : packFile s rnd relPath buffer = some (s1, rnd1)) :
    ∃ data isBinary, s1.bundleBuffers = s.bundleBuffers ++ [data] ∧
      s1.filesMeta = s.filesMeta ++ [⟨relPath, s.offset, data.length, isBinary⟩] ∧
      s1.offset = s.offset + data.length := by
  unfold packFile at h
  simp only at h
  split at h
  · split at h
    · simp at h
    · simp only [Option.some.injEq, Prod.mk.injEq] at h
      obtain ⟨rfl, _⟩ := h
      exact ⟨_, _, rfl, rfl, rfl⟩
    · simp only [Option.some.injEq, Prod.mk.injEq] at h
      obtain ⟨rfl, _⟩ := h
      exact ⟨_, _, rfl, rfl, rfl⟩
  · simp only [Option.some.injEq, Prod.mk.injEq] at h
    obtain ⟨rfl, _⟩ := h
    exact ⟨_, _, rfl, rfl, rfl⟩

theorem Contiguous.snoc : ∀ (rs : List FileMeta) (start stop : Nat) (r : FileMeta),
    Contiguous start rs stop → r.offset = stop →
    Contiguous start (rs ++ [r]) (stop + r.length) := by
  intro rs
  induction rs with
  | nil =>
    intro start stop r h hr
    have hs : start = stop := h
    subst hs
    exact ⟨hr, rfl⟩
  | cons x rs ih =>
    intro start stop r h hr
    exact ⟨h.1, ih _ _ r h.2 hr⟩

theorem Contiguous.sum : ∀ (rs : List FileMeta) (start stop : Nat),
    Contiguous start rs stop → start + (rs.map FileMeta.length).sum = stop := by
  intro rs
  induction rs with
  | nil => intro start stop h; simpa using h
  | cons x rs ih =>
    intro start stop h
    have := ih _ _ h.2
    simp only [List.map_cons, List.sum_cons]
    omega

theorem Contiguous.next : ∀ (rs : List FileMeta) (start stop : Nat),
    Contiguous start rs stop → ∀ i r r1, rs[i]? = some r → rs[i + 1]? = some r1 →
    r1.offset = r.offset + r.length := by
  intro rs
  induction rs with
  | nil => intro start stop _ i r r1 h; simp at h
  | cons x rs ih =>
    intro start stop h i r r1 h0 h1
    cases i with
    | zero =>
      simp only [List.getElem?_cons_zero, Option.some.injEq] at h0
      subst h0
      cases rs with
      | nil => simp at h1
      | cons y rs =>
        simp only [zero_add, List.getElem?_cons_succ, List.getElem?_cons_zero,
          Option.some.injEq] at h1
        subst h1
        rw [h.2.1, h.1]
    | succ i =>
      simp only [List.getElem?_cons_succ] at h0 h1
      exact ih _ _ h.2 i r r1 h0 h1

/-- Invariant of the pack loop: the records lie back to back from offset 0 to the offset
cursor, which is the total length of the buffers pushed; one record per buffer. -/
theorem packLoop_contiguous : ∀ (files : List (JStr × List Byte)) (s s1 : PackState)
    (rnd rnd1 : List Nat), packLoop files s rnd = some (s1, rnd1) →
    Contiguous 0 s.filesMeta s.offset → s.bundleBuffers.flatten.length = s.offset →
    Contiguous 0 s1.filesMeta s1.offset ∧ s1.bundleBuffers.flatten.length = s1.offset ∧
      s1.filesMeta.length = s.filesMeta.length + files.length := by
  intro files
  induction files with
  | nil =>
    intro s s1 rnd rnd1 h hc hl
    simp only [packLoop, Option.some.injEq, Prod.mk.injEq] at h
    obtain ⟨rfl, _⟩ := h
    exact ⟨hc, hl, rfl⟩
  | cons f files ih =>
    intro s s1 rnd rnd1 h hc hl
    obtain ⟨relPath, buffer⟩ := f
    simp only [packLoop] at h
    cases hp : packFile s rnd relPath buffer with
    | none => simp [hp] at h
    | some p =>
      obtain ⟨s2, rnd2⟩ := p
      simp only [hp] at h
      obtain ⟨data, isBinary, hb, hm, ho⟩ := packFile_shape hp
      have hc2 : Contiguous 0 s2.filesMeta s2.offset := by
        rw [hm, ho]
        exact Contiguous.snoc _ _ _ ⟨relPath, s.offset, data.length, isBinary⟩ hc rfl
      have hl2 : s2.bundleBuffers.flatten.length = s2.offset := by
        rw [hb, ho, List.flatten_append, List.length_append, hl]
        simp
      obtain ⟨r1, r2, r3⟩ := ih s2 s1 rnd2 rnd1 h hc2 hl2
      refine ⟨r1, r2, ?_⟩
      rw [r3, hm, List.length_append, List.length_cons, List.length_cons, List.length_nil]
      omega

theorem flatMap_be16_congr {f g : CodeUnit → Nat} : ∀ (text : JStr),
    (∀ c ∈ text, f c = g c) →
    text.flatMap (fun c => be16 (f c)) = text.flatMap (fun c => be16 (g c)) := by
  intro text
  induction text with
  | nil => intro _; rfl
  | cons a text ih =>
    intro h
    rw [List.flatMap_cons, List.flatMap_cons, h a (List.mem_cons_self _ _),
      ih (fun c hc => h c (List.mem_cons_of_mem _ hc))]

theorem FileData.mono {cs : List CodeUnit} {file : JStr × List Byte} {data : List Byte}
    (more : List CodeUnit) (h : FileData cs file data) : FileData (cs ++ more) file data := by
  unfold FileData at h ⊢
  split
  · rename_i ht
    rw [if_pos ht] at h
    refine ⟨?_, fun c hc => List.mem_append_left _ (h.2 c hc)⟩
    rw [h.1]
    exact flatMap_be16_congr _ (fun c hc => (List.indexOf_append_of_mem (h.2 c hc)).symm)
  · rename_i ht
    rw [if_neg ht] at h
    exact h

/-- One iteration of the pack loop on a well-formed table. -/
theorem packFile_spec {es : List (CodeUnit × JStr)} {s s1 : PackState} {rnd rnd1 : List Nat}
    {relPath : JStr} {buffer : List Byte} (hinv : TableInv es s.table)
    (h : packFile s rnd relPath buffer = some (s1, rnd1)) :
    ∃ more data, TableInv (es ++ more) s1.table ∧
      s1.bundleBuffers = s.bundleBuffers ++ [data] ∧
      s1.filesMeta = s.filesMeta ++ [⟨relPath, s.offset, data.length, !isTextPath relPath⟩] ∧
      s1.offset = s.offset + data.length ∧
      FileData ((es ++ more).map Prod.fst) (relPath, buffer) data ∧
      (es ++ more).map Prod.fst = firstSeenFrom (es.map Prod.fst) (fileText (relPath, buffer)) := by
  unfold packFile at h
  simp only at h
  by_cases ht : toLowerCase (extname relPath) ∈ TextExtensions
  · have htp : isTextPath relPath = true := by simp [isTextPath, ht]
    rw [if_pos ht] at h
    cases hen : encodeText s.table rnd (toStringUtf8 buffer) with
    | none => simp [hen] at h
    | some p =>
      obtain ⟨t1, rnd2, res⟩ := p
      obtain ⟨more, hinv1, hfst, hres⟩ := encodeText_spec hinv hen
      subst hres
      simp only [hen, Option.some.injEq, Prod.mk.injEq] at h
      obtain ⟨rfl, _⟩ := h
      refine ⟨more, _, hinv1, rfl, by simp [htp], rfl, ?_, by simpa [fileText, htp] using hfst⟩
      unfold FileData
      rw [if_pos htp]
      exact ⟨rfl, fun c hc => by rw [hfst]; exact mem_firstSeenFrom _ _ _ hc⟩
  · have htp : isTextPath relPath = false := by simp [isTextPath, ht]
    rw [if_neg ht] at h
    simp only [Option.some.injEq, Prod.mk.injEq] at h
    obtain ⟨rfl, _⟩ := h
    refine ⟨[], buffer, by simpa using hinv, rfl, by simp [htp], rfl, ?_,
      by simp [fileText, htp, firstSeenFrom]⟩
    unfold FileData
    simp [htp]

/-- The pack loop on a well-formed table: what it appends to the buffers and to the records. -/
theorem packLoop_spec : ∀ (files : List (JStr × List Byte)) (es : List (CodeUnit × JStr))
    (s s1 : PackState) (rnd rnd1 : List Nat), TableInv es s.table →
    packLoop files s rnd = some (s1, rnd1) →
    ∃ more datas, TableInv (es ++ more) s1.table ∧
      s1.bundleBuffers = s.bundleBuffers ++ datas ∧
      s1.filesMeta = s.filesMeta ++ recordsFrom s.offset files datas ∧
      List.Forall₂ (FileData ((es ++ more).map Prod.fst)) files datas ∧
      (es ++ more).map Prod.fst = firstSeenFrom (es.map Prod.fst) (files.flatMap fileText) := by
  intro files
  induction files with
  | nil =>
    intro es s s1 rnd rnd1 hinv h
    simp only [packLoop, Option.some.injEq, Prod.mk.injEq] at h
    obtain ⟨rfl, _⟩ := h
    exact ⟨[], [], by simpa using hinv, by simp, by simp [recordsFrom], List.Forall₂.nil,
      by simp [firstSeenFrom]⟩
  | cons f files ih =>
    intro es s s1 rnd rnd1 hinv h
    obtain ⟨relPath, buffer⟩ := f
    simp only [packLoop] at h
    cases hp : packFile s rnd relPath buffer with
    | none => simp [hp] at h
    | some p =>
      obtain ⟨s2, rnd2⟩ := p
      simp only [hp] at h
      obtain ⟨more1, data, hinv2, hb, hm, ho, hd, hf1⟩ := packFile_spec hinv hp
      obtain ⟨more2, datas, hinv3, hb3, hm3, hall, hf2⟩ := ih _ s2 s1 rnd2 rnd1 hinv2 h
      refine ⟨more1 ++ more2, data :: datas, by simpa using hinv3, ?_, ?_, ?_, ?_⟩
      · rw [hb3, hb]; simp
      · rw [hm3, hm, ho]; simp [recordsFrom]
      · rw [← List.append_assoc]
        refine List.Forall₂.cons ?_ hall
        have := hd.mono (more2.map Prod.fst)
        rwa [← List.map_append] at this
      · rw [← List.append_assoc, hf2, hf1, List.flatMap_cons, firstSeenFrom_append]

/-! ## The extract loop on a packed archive -/

theorem slice_middle (pre d post : List Byte) :
    slice (pre ++ d ++ post) pre.length (pre.length + d.length) = d := by
  unfold slice
  rw [List.append_assoc, List.take_append, List.take_left, List.drop_left]

/-- The extract loop on records laid out by the pack loop, with reverse maps that resolve the
index of every character of the table: every file is written, none fails. -/
theorem extractLoop_spec (rBin rKeys : Obj) (cs : List CodeUnit)
    (hmaps : ∀ c ∈ cs, cs.indexOf c ≤ 65535 ∧
      ∃ k, getProp rBin (decimal (cs.indexOf c)) = .str k ∧ getProp rKeys k = .str [c])
    {files : List (JStr × List Byte)} {datas : List (List Byte)}
    (h : List.Forall₂ (FileData cs) files datas) :
    ∀ (pre post : List Byte) (out : List Written),
    extractLoop (pre ++ datas.flatten ++ post) rBin rKeys
      (recordsFrom pre.length files datas) out = (out ++ files.map extracted, none) := by
  induction h with
  | nil => intro pre post out; simp [recordsFrom, extractLoop]
  | @cons f d fs ds hd _ ih =>
    intro pre post out
    have hbundle : pre ++ (d :: ds).flatten ++ post = pre ++ d ++ (ds.flatten ++ post) := by
      simp
    have hnext : pre ++ (d :: ds).flatten ++ post = (pre ++ d) ++ ds.flatten ++ post := by
      simp
    have hslice : slice (pre ++ (d :: ds).flatten ++ post) pre.length (pre.length + d.length)
        = d := by
      rw [hbundle]; exact slice_middle _ _ _
    have hrec := ih (pre ++ d) post
    rw [List.length_append, ← hnext] at hrec
    simp only [recordsFrom, extractLoop, hslice]
    unfold FileData at hd
    by_cases ht : isTextPath f.1 = true
    · rw [if_pos ht] at hd
      have hdec : decodeText rBin rKeys d = .ok (toStringUtf8 f.2) := by
        rw [hd.1]
        have := decodeTextLoop_spec rBin rKeys (fun c => cs.indexOf c) (toStringUtf8 f.2) []
          (fun c hc => hmaps c (hd.2 c hc))
        simpa [decodeText] using this
      simp only [ht, Bool.not_true, Bool.false_eq_true, if_false, hdec]
      rw [hrec]
      simp [extracted, ht]
    · have htf : isTextPath f.1 = false := by simpa using ht
      rw [if_neg ht] at hd
      simp only [htf, Bool.not_false, if_true]
      rw [hrec]
      simp [extracted, htf, hd]

/-- Packing and then extracting, with the reverse maps built from the entries of the packed
`keys` and `bin` in any enumeration order: every file is written at its path, a binary file
with its raw bytes and a text file with the UTF-8 encoding of its decoded text. -/
theorem pack_extract (files : List (JStr × List Byte)) (rnd : List Nat) (a : Archive)
    (keysEntries binEntries : Obj) (h : pack files rnd = some a)
    (hk : keysEntries.Perm a.keys) (hb : binEntries.Perm a.bin) :
    extract a.bundle keysEntries binEntries a.files = (files.map extracted, none) := by
  unfold pack at h
  cases hp : packLoop files PackState.init rnd with
  | none => simp [hp] at h
  | some p =>
    obtain ⟨s, rnd1⟩ := p
    simp only [hp, Option.some.injEq] at h
    subst h
    obtain ⟨more, datas, hinv, hbuf, hmeta, hall, _⟩ :=
      packLoop_spec files [] PackState.init s rnd rnd1 TableInv.init hp
    simp only [List.nil_append, PackState.init] at hinv hbuf hmeta hall
    have hmaps : ∀ c ∈ more.map Prod.fst, (more.map Prod.fst).indexOf c ≤ 65535 ∧
        ∃ k, getProp (reverseBin binEntries) (decimal ((more.map Prod.fst).indexOf c)) = .str k ∧
          getProp (reverseKeys keysEntries) k = .str [c] := by
      intro c hc
      obtain ⟨k, hmem, _, _, hk2⟩ := hinv.lookup_mem hc
      have hlt := List.indexOf_lt_length.2 hc
      have hle := hinv.length_le
      rw [List.length_map] at hlt
      exact ⟨by omega, k, hinv.reverseBin_lookup hb hk2 hmem, hinv.reverseKeys_lookup hk hmem⟩
    have := extractLoop_spec (reverseBin binEntries) (reverseKeys keysEntries) _ hmaps hall [] [] []
    simp only [List.nil_append, List.append_nil, List.length_nil] at this
    show extractLoop s.bundleBuffers.flatten (reverseBin binEntries) (reverseKeys keysEntries)
      s.filesMeta [] = _
    rw [hbuf, hmeta]
    exact this

/-- A packing run that comes to an end: its table is well formed and lists the characters of
the text files in first-seen order; the blob is the concatenation of the payloads; the records
are laid out from offset 0. -/
theorem pack_spec {files : List (JStr × List Byte)} {rnd : List Nat} {a : Archive}
    (h : pack files rnd = some a) :
    ∃ es datas, TableInv es ⟨a.keys, a.bin, a.binCounter⟩ ∧ a.bundle = datas.flatten ∧
      a.files = recordsFrom 0 files datas ∧
      List.Forall₂ (FileData (es.map Prod.fst)) files datas ∧
      es.map Prod.fst = firstSeenFrom [] (files.flatMap fileText) := by
  unfold pack at h
  cases hp : packLoop files PackState.init rnd with
  | none => simp [hp] at h
  | some p =>
    obtain ⟨s, rnd1⟩ := p
    simp only [hp, Option.some.injEq] at h
    subst h
    obtain ⟨more, datas, hinv, hbuf, hmeta, hall, hfst⟩ :=
      packLoop_spec files [] PackState.init s rnd rnd1 TableInv.init hp
    simp only [List.nil_append, PackState.init, List.map_nil] at hinv hbuf hmeta hall hfst
    exact ⟨more, datas, hinv, by rw [hbuf], hmeta, hall, hfst⟩

/-- Round trip of an archive whose text files are left unchanged by decoding as UTF-8 and
encoding again: extraction writes every file with its original bytes at its path. -/
theorem pack_extract_utf8 (files : List (JStr × List Byte)) (rnd : List Nat) (a : Archive)
    (keysEntries binEntries : Obj) (h : pack files rnd = some a)
    (hk : keysEntries.Perm a.keys) (hb : binEntries.Perm a.bin)
    (hutf : ∀ f ∈ files, isTextPath f.1 = true → utf8Write (toStringUtf8 f.2) = f.2) :
    extract a.bundle keysEntries binEntries a.files
      = (files.map (fun f => ⟨f.1, f.2⟩), none) := by
  rw [pack_extract files rnd a keysEntries binEntries h hk hb]
  congr 1
  apply List.map_congr_left
  intro f hf
  unfold extracted
  by_cases ht : isTextPath f.1 = true
  · rw [if_pos ht, hutf f hf ht]
  · rw [if_neg ht]

/-! ## Progress: draws on which the random loop comes to an end -/

theorem chars_length : chars.length = 62 := by rfl

theorem chars_nodup : chars.Nodup := by decide

theorem getRandomKeyLoop_step (d i : Nat) (rest : List Nat) (res : JStr) (hi : i < 7) :
    getRandomKeyLoop (0 :: d :: rest) i res
      = getRandomKeyLoop rest (i + 1) (res ++ [chars.getD (d % chars.length) 0]) := by
  have : i < 7 + 0 % 3 := by omega
  simp only [getRandomKeyLoop, this, if_true]

theorem getRandomKeyLoop_stop (tail : List Nat) (res : JStr) :
    getRandomKeyLoop (0 :: tail) 7 res = some (res, tail) := by
  cases tail with
  | nil => simp [getRandomKeyLoop]
  | cons c rest => simp [getRandomKeyLoop]

theorem getRandomKey_drawsFor (n : Nat) (tail : List Nat) :
    getRandomKey (drawsFor n ++ tail) = some (labelFor n, tail) := by
  simp only [getRandomKey, drawsFor, labelFor, labelDigits, List.flatMap_cons, List.flatMap_nil,
    List.cons_append, List.nil_append, List.append_nil, List.map_cons, List.map_nil]
  rw [getRandomKeyLoop_step _ _ _ _ (by omega), getRandomKeyLoop_step _ _ _ _ (by omega),
    getRandomKeyLoop_step _ _ _ _ (by omega), getRandomKeyLoop_step _ _ _ _ (by omega),
    getRandomKeyLoop_step _ _ _ _ (by omega), getRandomKeyLoop_step _ _ _ _ (by omega),
    getRandomKeyLoop_step _ _ _ _ (by omega), getRandomKeyLoop_stop]
  simp [chars_length, Nat.mod_mod]

theorem labelDigits_lt : ∀ (k n : Nat), ∀ d ∈ labelDigits k n, d < 62 := by
  intro k
  induction k with
  | zero => intro n d h; simp [labelDigits] at h
  | succ k ih =>
    intro n d h
    simp only [labelDigits, List.mem_cons] at h
    rcases h with h | h
    · omega
    · exact ih _ _ h

theorem labelDigits_inj : ∀ (k a b : Nat), labelDigits k a = labelDigits k b →
    a % 62 ^ k = b % 62 ^ k := by
  intro k
  induction k with
  | zero => intro a b _; simp [Nat.mod_one]
  | succ k ih =>
    intro a b h
    simp only [labelDigits, List.cons.injEq] at h
    rw [pow_succ', Nat.mod_mul, Nat.mod_mul, h.1, ih _ _ h.2]

theorem chars_getD_inj {i j : Nat} (hi : i < 62) (hj : j < 62)
    (h : chars.getD i 0 = chars.getD j 0) : i = j := by
  have hi1 : i < chars.length := by rw [chars_length]; exact hi
  have hj1 : j < chars.length := by rw [chars_length]; exact hj
  rw [List.getD_eq_getElem _ _ hi1, List.getD_eq_getElem _ _ hj1] at h
  exact (chars_nodup.getElem_inj_iff).1 h

theorem map_chars_inj : ∀ (l1 l2 : List Nat), (∀ d ∈ l1, d < 62) → (∀ d ∈ l2, d < 62) →
    l1.map (fun d => chars.getD d 0) = l2.map (fun d => chars.getD d 0) → l1 = l2 := by
  intro l1
  induction l1 with
  | nil =>
    intro l2 _ _ h
    cases l2 with
    | nil => rfl
    | cons b l2 => simp at h
  | cons a l1 ih =>
    intro l2 h1 h2 h
    cases l2 with
    | nil => simp at h
    | cons b l2 =>
      simp only [List.map_cons, List.cons.injEq] at h
      have hab := chars_getD_inj (h1 a (List.mem_cons_self _ _)) (h2 b (List.mem_cons_self _ _)) h.1
      rw [hab, ih l2 (fun d hd => h1 d (List.mem_cons_of_mem _ hd))
        (fun d hd => h2 d (List.mem_cons_of_mem _ hd)) h.2]

theorem labelFor_inj {a b : Nat} (ha : a < 62 ^ 7) (hb : b < 62 ^ 7)
    (h : labelFor a = labelFor b) : a = b := by
  have hd := map_chars_inj _ _ (labelDigits_lt 7 a) (labelDigits_lt 7 b) h
  have := labelDigits_inj 7 a b hd
  rwa [Nat.mod_eq_of_lt ha, Nat.mod_eq_of_lt hb] at this

/-- Among more labels than a list holds, one is not in the list. -/
theorem exists_fresh_label (bad : List JStr) (h : bad.length < 62 ^ 7) :
    ∃ n, labelFor n ∉ bad := by
  by_contra hall
  simp only [not_exists, not_not] at hall
  have hnd : ((List.range (bad.length + 1)).map labelFor).Nodup := by
    apply List.Nodup.map_on _ (List.nodup_range _)
    intro x hx y hy hxy
    rw [List.mem_range] at hx hy
    exact labelFor_inj (by omega) (by omega) hxy
  have hsub : (List.range (bad.length + 1)).map labelFor ⊆ bad := by
    intro k hk
    obtain ⟨n, _, rfl⟩ := List.mem_map.1 hk
    exact hall n
  have := (List.subperm_of_subset hnd hsub).length_le
  simp at this

theorem drawsFor_length (n : Nat) : (drawsFor n).length = 15 := by
  simp [drawsFor, labelDigits]

/-- A well-formed table leaves some label of seven characters unused. -/
theorem TableInv.exists_fresh {es : List (CodeUnit × JStr)} {t : Table} (h : TableInv es t) :
    ∃ n, getProp t.bin (labelFor n) = .undefined := by
  have hlen : (es.map Prod.snd ++ objectPrototypeNames).length < 62 ^ 7 := by
    have h1 := h.length_le
    have h2 : objectPrototypeNames.length = 12 := rfl
    rw [List.length_append, List.length_map, h2]
    norm_num
    omega
  obtain ⟨n, hn⟩ := exists_fresh_label _ hlen
  rw [List.mem_append, not_or] at hn
  refine ⟨n, ?_⟩
  simp [getProp, h.bin_eq, ownProp_binFrom_none 0 hn.1, hn.2]

theorem freshKeyLoop_drawsFor {bin : Obj} {n : Nat}
    (h : getProp bin (labelFor n) = .undefined) (tail : List Nat) :
    freshKeyLoop bin (drawsFor n ++ tail).length (drawsFor n ++ tail)
      = some (labelFor n, tail) := by
  have hl : (drawsFor n ++ tail).length = (14 + tail.length) + 1 := by
    rw [List.length_append, drawsFor_length]
    omega
  rw [hl]
  simp only [freshKeyLoop, getRandomKey_drawsFor, h, ne_eq, not_true_eq_false, if_false]

/-- On a well-formed table the allocation step comes to an end on suitable draws, and uses up
exactly those. -/
theorem ensureEntry_total {es : List (CodeUnit × JStr)} {t : Table} (h : TableInv es t)
    (ch : CodeUnit) : ∃ pre t1, ∀ tail, ensureEntry t (pre ++ tail) ch = some (t1, tail) := by
  by_cases hc : ch ∈ es.map Prod.fst
  · obtain ⟨k, _, hne, hk, _⟩ := h.lookup_mem hc
    have htr : truthy (getProp t.keys [ch]) = true := by
      rw [hk]
      cases k with
      | nil => exact absurd rfl hne
      | cons a l => rfl
    exact ⟨[], t, fun tail => by simp [ensureEntry, htr]⟩
  · have hun := h.lookup_not_mem hc
    obtain ⟨n, hn⟩ := h.exists_fresh
    refine ⟨drawsFor n, ⟨setProp t.keys [ch] (.str (labelFor n)),
      setProp t.bin (labelFor n) (.num t.binCounter), t.binCounter + 1⟩, fun tail => ?_⟩
    simp only [ensureEntry, hun, truthy, Bool.not_false, if_true, freshKeyLoop_drawsFor hn]

/-- On a well-formed table the encoder loop comes to an end on suitable draws, and uses up
exactly those. -/
theorem encodeTextLoop_total : ∀ (text : List CodeUnit) (es : List (CodeUnit × JStr))
    (t : Table) (buf : List Byte), TableInv es t →
    ∃ pre t1 res, ∀ tail, encodeTextLoop text t (pre ++ tail) buf = some (t1, tail, res) := by
  intro text
  induction text with
  | nil => intro es t buf _; exact ⟨[], t, .ok buf, fun tail => rfl⟩
  | cons ch rest ih =>
    intro es t buf h
    obtain ⟨pre1, t2, hen⟩ := ensureEntry_total h ch
    obtain ⟨new, hinv, _, hmem⟩ := ensureEntry_inv h (hen [])
    obtain ⟨k, _, _, hk1, hk2⟩ := hinv.lookup_mem hmem
    have hlt : ((es ++ new).map Prod.fst).indexOf ch ≤ 65535 := by
      have h1 := List.indexOf_lt_length.2 hmem
      have h2 := hinv.length_le
      rw [List.length_map] at h1
      omega
    obtain ⟨pre2, t1, res, hrest⟩ := ih (es ++ new) t2
      (buf ++ be16 (((es ++ new).map Prod.fst).indexOf ch)) hinv
    refine ⟨pre1 ++ pre2, t1, res, fun tail => ?_⟩
    rw [List.append_assoc]
    simp only [encodeTextLoop, hen, hk1, toPropertyKey, toStr, hk2, writeUInt16BE_num hlt]
    exact hrest tail

theorem packFile_total {es : List (CodeUnit × JStr)} {s : PackState} (h : TableInv es s.table)
    (relPath : JStr) (buffer : List Byte) :
    ∃ pre s1, ∀ tail, packFile s (pre ++ tail) relPath buffer = some (s1, tail) := by
  by_cases ht : toLowerCase (extname relPath) ∈ TextExtensions
  · obtain ⟨pre, t1, res, hen⟩ := encodeTextLoop_total (toStringUtf8 buffer) es s.table [] h
    cases res with
    | ok data =>
      exact ⟨pre, ⟨s.bundleBuffers ++ [data], t1,
        s.filesMeta ++ [⟨relPath, s.offset, data.length, false⟩], s.offset + data.length⟩,
        fun tail => by
          have := hen tail
          simp only [packFile, ht, if_true, encodeText, this]⟩
    | error e =>
      exact ⟨pre, ⟨s.bundleBuffers ++ [buffer], t1,
        s.filesMeta ++ [⟨relPath, s.offset, buffer.length, true⟩], s.offset + buffer.length⟩,
        fun tail => by
          have := hen tail
          simp only [packFile, ht, if_true, encodeText, this]⟩
  · exact ⟨[], ⟨s.bundleBuffers ++ [buffer], s.table,
      s.filesMeta ++ [⟨relPath, s.offset, buffer.length, true⟩], s.offset + buffer.length⟩,
      fun tail => by simp only [packFile, ht, if_false, List.nil_append]⟩

theorem packLoop_total : ∀ (files : List (JStr × List Byte)) (es : List (CodeUnit × JStr))
    (s : PackState), TableInv es s.table →
    ∃ pre s1, ∀ tail, packLoop files s (pre ++ tail) = some (s1, tail) := by
  intro files
  induction files with
  | nil => intro es s _; exact ⟨[], s, fun tail => rfl⟩
  | cons f files ih =>
    intro es s h
    obtain ⟨relPath, buffer⟩ := f
    obtain ⟨pre1, s2, hp⟩ := packFile_total h relPath buffer
    obtain ⟨more, _, hinv, _⟩ := packFile_spec h (hp [])
    obtain ⟨pre2, s1, hrest⟩ := ih _ s2 hinv
    refine ⟨pre1 ++ pre2, s1, fun tail => ?_⟩
    rw [List.append_assoc]
    simp only [packLoop, hp]
    exact hrest tail

/-- Every text can be encoded from every reachable table: there are draws of the random
source on which `encodeText` comes to an end. -/
theorem encodeText_total (t : Table) (text : JStr) (hr : Reachable t) :
    ∃ rnd t1 rnd1 res, encodeText t rnd text = some (t1, rnd1, res) := by
  obtain ⟨es, hinv⟩ := hr.wellFormed
  obtain ⟨pre, t1, res, h⟩ := encodeTextLoop_total text es t [] hinv
  exact ⟨pre ++ [], t1, [], res, h []⟩

/-- Every sequence of texts can be encoded from a well-formed table. -/
theorem calls_total : ∀ (texts : List JStr) (es : List (CodeUnit × JStr)) (t : Table),
    TableInv es t → ∃ t1, Calls t texts t1 := by
  intro texts
  induction texts with
  | nil => intro es t _; exact ⟨t, Calls.done t⟩
  | cons text texts ih =>
    intro es t h
    obtain ⟨pre, t2, res, he⟩ := encodeTextLoop_total text es t [] h
    have he0 : encodeText t (pre ++ []) text = some (t2, [], res) := he []
    obtain ⟨more, hinv, _, _⟩ := encodeText_spec h he0
    obtain ⟨t1, hc⟩ := ih _ t2 hinv
    exact ⟨t1, Calls.call he0 hc⟩

/-- Every list of files can be packed: there are draws of the random source on which the
packing run comes to an end. -/
theorem pack_total (files : List (JStr × List Byte)) : ∃ rnd a, pack files rnd = some a := by
  obtain ⟨pre, s1, h⟩ := packLoop_total files [] PackState.init TableInv.init
  exact ⟨pre ++ [], ⟨s1.bundleBuffers.flatten, s1.table.keys, s1.table.bin, s1.filesMeta,
    s1.offset, s1.table.binCounter⟩, by simp only [pack, h []]⟩

/-! ## Payloads and records by position -/

theorem FileData.unique {cs : List CodeUnit} {file : JStr × List Byte} {d1 d2 : List Byte}
    (h1 : FileData cs file d1) (h2 : FileData cs file d2) : d1 = d2 := by
  unfold FileData at h1 h2
  by_cases ht : isTextPath file.1 = true
  · rw [if_pos ht] at h1 h2
    rw [h1.1, h2.1]
  · rw [if_neg ht] at h1 h2
    rw [h1, h2]

theorem fileData_list_unique {cs : List CodeUnit} {files : List (JStr × List Byte)}
    {ds1 : List (List Byte)} (h1 : List.Forall₂ (FileData cs) files ds1) :
    ∀ {ds2 : List (List Byte)}, List.Forall₂ (FileData cs) files ds2 → ds1 = ds2 := by
  induction h1 with
  | nil => intro ds2 h2; cases h2; rfl
  | cons hd _ ih =>
    intro ds2 h2
    cases h2 with
    | cons hd2 htl2 => rw [hd.unique hd2, ih htl2]

/-- The record and the blob range of the file at position `i` of a packed list. -/
theorem recordsFrom_get {cs : List CodeUnit} {files : List (JStr × List Byte)}
    {datas : List (List Byte)} (h : List.Forall₂ (FileData cs) files datas) :
    ∀ (pre post : List Byte) (i : Nat) (f : JStr × List Byte) (r : FileMeta),
    files[i]? = some f → (recordsFrom pre.length files datas)[i]? = some r →
    ∃ d, FileData cs f d ∧ r.path = f.1 ∧ r.length = d.length ∧
      r.binary = !isTextPath f.1 ∧
      slice (pre ++ datas.flatten ++ post) r.offset (r.offset + r.length) = d := by
  induction h with
  | nil => intro pre post i f r hf; simp at hf
  | @cons f0 d0 fs ds hd _ ih =>
    intro pre post i f r hf hr
    cases i with
    | zero =>
      simp only [List.getElem?_cons_zero, Option.some.injEq, recordsFrom] at hf hr
      subst hf
      subst hr
      refine ⟨d0, hd, rfl, rfl, rfl, ?_⟩
      have hbundle : pre ++ (d0 :: ds).flatten ++ post = pre ++ d0 ++ (ds.flatten ++ post) := by
        simp
      rw [hbundle]
      exact slice_middle _ _ _
    | succ i =>
      simp only [List.getElem?_cons_succ, recordsFrom] at hf hr
      have hlen : (pre ++ d0).length = pre.length + d0.length := List.length_append _ _
      rw [← hlen] at hr
      obtain ⟨d, h1, h2, h3, h4, h5⟩ := ih (pre ++ d0) post i f r hf hr
      refine ⟨d, h1, h2, h3, h4, ?_⟩
      have hnext : pre ++ (d0 :: ds).flatten ++ post = (pre ++ d0) ++ ds.flatten ++ post := by
        simp
      rw [hnext]
      exact h5

/-- The offset cursor, the records and the blob of a packing run that came to an end. -/
theorem pack_contiguous {files : List (JStr × List Byte)} {rnd : List Nat} {a : Archive}
    (h : pack files rnd = some a) :
    Contiguous 0 a.files a.offset ∧ a.bundle.length = a.offset ∧
      a.files.length = files.length := by
  unfold pack at h
  cases hp : packLoop files PackState.init rnd with
  | none => simp [hp] at h
  | some p =>
    obtain ⟨s, rnd1⟩ := p
    simp only [hp, Option.some.injEq] at h
    subst h
    obtain ⟨hc, hl, hn⟩ := packLoop_contiguous files PackState.init s rnd rnd1 hp rfl rfl
    exact ⟨hc, hl, by simpa [PackState.init] using hn⟩

/-- The record of the file at position `i` of a packing run, and its range of the blob. -/
theorem pack_get {files : List (JStr × List Byte)} {rnd : List Nat} {a : Archive}
    (h : pack files rnd = some a) {i : Nat} {f : JStr × List Byte} {r : FileMeta}
    (hf : files[i]? = some f) (hr : a.files[i]? = some r) :
    ∃ cs d, FileData cs f d ∧ r.path = f.1 ∧ r.length = d.length ∧
      r.binary = !isTextPath f.1 ∧ slice a.bundle r.offset (r.offset + r.length) = d := by
  obtain ⟨es, datas, _, hbundle, hfiles, hall, _⟩ := pack_spec h
  rw [hfiles] at hr
  have := recordsFrom_get hall [] [] i f r hf hr
  simp only [List.nil_append, List.append_nil] at this
  obtain ⟨d, h1, h2, h3, h4, h5⟩ := this
  exact ⟨_, d, h1, h2, h3, h4, by rw [hbundle]; exact h5⟩

/-! ## The decoder on buffers of odd length -/

/-- The decoder loop throws on every buffer of odd length. -/
theorem decodeTextLoop_odd (rBin rKeys : Obj) : ∀ (buffer : List Byte) (result : JStr),
    buffer.length % 2 = 1 → ∃ e, decodeTextLoop rBin rKeys buffer result = .error e := by
  intro buffer result
  induction buffer, result using decodeTextLoop.induct rBin rKeys with
  | case1 result => intro h; simp at h
  | case2 b result => intro _; exact ⟨_, rfl⟩
  | case3 hi lo rest result num key ch hch =>
    intro _
    exact ⟨.unknownCharKey num, by simp only [decodeTextLoop]; rw [if_pos hch]⟩
  | case4 hi lo rest result num key ch hch ih =>
    intro h
    obtain ⟨e, he⟩ := ih (by simp only [List.length_cons] at h; omega)
    exact ⟨e, by simp only [decodeTextLoop]; rw [if_neg hch]; exact he⟩

/-- When the complete pairs decode, one more byte makes the last read fall out of range. -/
theorem decodeTextLoop_extra_byte (rBin rKeys : Obj) (last : Byte) :
    ∀ (pairs : List Byte) (result text : JStr),
    decodeTextLoop rBin rKeys pairs result = .ok text →
    decodeTextLoop rBin rKeys (pairs ++ [last]) result = .error .outOfRange := by
  intro pairs result
  induction pairs, result using decodeTextLoop.induct rBin rKeys with
  | case1 result => intro text _; rfl
  | case2 b result => intro text h; simp [decodeTextLoop] at h
  | case3 hi lo rest result num key ch hch =>
    intro text h
    simp only [decodeTextLoop] at h
    rw [if_pos hch] at h
    cases h
  | case4 hi lo rest result num key ch hch ih =>
    intro text h
    simp only [decodeTextLoop] at h
    rw [if_neg hch] at h
    have := ih text h
    simp only [List.cons_append, decodeTextLoop]
    rw [if_neg hch]
    exact this

/-! ## Argument parsing -/

theorem splitOn_ne_nil (sep : CodeUnit) (s : JStr) : splitOn sep s ≠ [] := by
  cases s with
  | nil => simp [splitOn]
  | cons c rest =>
    simp only [splitOn]
    split
    · simp
    · split <;> simp

theorem splitOn_head (sep : CodeUnit) : ∀ s : JStr,
    (splitOn sep s).head? = some (s.takeWhile (fun u => u ≠ sep)) := by
  intro s
  induction s with
  | nil => simp [splitOn]
  | cons c rest ih =>
    simp only [splitOn]
    by_cases hc : c = sep
    · simp [hc]
    · rw [if_neg hc]
      cases hs : splitOn sep rest with
      | nil => exact absurd hs (splitOn_ne_nil sep rest)
      | cons piece pieces =>
        rw [hs] at ih
        simp only [List.head?_cons, Option.some.injEq] at ih
        simp [List.takeWhile_cons, hc, ih]

/-- The piece at index 1 of `split` is the text between the first two separators. -/
theorem splitOn_second (sep : CodeUnit) : ∀ s : JStr, sep ∈ s →
    (splitOn sep s)[1]? = some (betweenFirstTwo sep s) := by
  intro s
  induction s with
  | nil => intro h; simp at h
  | cons c rest ih =>
    intro h
    simp only [splitOn]
    by_cases hc : c = sep
    · rw [if_pos hc]
      have := splitOn_head sep rest
      simp only [List.getElem?_cons_succ, List.getElem?_cons_zero, betweenFirstTwo]
      rw [← List.head?_eq_getElem?] at *
      simp [List.dropWhile_cons, hc, this]
    · rw [if_neg hc]
      have hr : sep ∈ rest := by
        rcases List.mem_cons.1 h with h | h
        · exact absurd h.symm hc
        · exact h
      have := ih hr
      cases hs : splitOn sep rest with
      | nil => exact absurd hs (splitOn_ne_nil sep rest)
      | cons piece pieces =>
        rw [hs] at this
        simp only [List.getElem?_cons_succ] at this ⊢
        rw [this]
        simp [betweenFirstTwo, List.dropWhile_cons, hc]

/-! ## Further facts about calls, empty files and arguments -/

theorem Calls.append_call {t t1 t2 : Table} {texts : List JStr} {text : JStr}
    {rnd rnd1 : List Nat} {res : Except JSError (List Byte)} (hc : Calls t texts t1)
    (he : encodeText t1 rnd text = some (t2, rnd1, res)) : Calls t (texts ++ [text]) t2 := by
  induction hc with
  | done t => exact Calls.call he (Calls.done _)
  | call h _ ih => exact Calls.call h (ih he)

theorem mem_binFrom : ∀ (es : List (CodeUnit × JStr)) (n : Nat) (k : JStr) (v : JSVal),
    (k, v) ∈ binFrom n es → ∃ m, v = .num m ∧ n ≤ m ∧ m < n + es.length := by
  intro es
  induction es with
  | nil => intro n k v h; simp [binFrom] at h
  | cons e es ih =>
    intro n k v h
    simp only [binFrom, List.mem_cons, Prod.mk.injEq] at h
    rcases h with h | h
    · exact ⟨n, h.2, Nat.le_refl _, by simp⟩
    · obtain ⟨m, h1, h2, h3⟩ := ih (n + 1) k v h
      exact ⟨m, h1, by omega, by simp only [List.length_cons]; omega⟩

/-- A single allocation step is a call of `encodeText` on a text of one code unit. -/
theorem encodeText_single {t t1 : Table} {rnd rnd1 : List Nat} {ch : CodeUnit}
    (h : ensureEntry t rnd ch = some (t1, rnd1)) :
    ∃ res, encodeText t rnd [ch] = some (t1, rnd1, res) := by
  simp only [encodeText, encodeTextLoop, h]
  cases writeUInt16BE (getProp t1.bin (toPropertyKey (getProp t1.keys [ch]))) with
  | error e => exact ⟨_, rfl⟩
  | ok bytes => exact ⟨_, rfl⟩

theorem extracted_empty (relPath : JStr) : extracted (relPath, []) = ⟨relPath, []⟩ := by
  unfold extracted
  split <;> rfl

theorem fileData_empty {cs : List CodeUnit} {relPath : JStr} {d : List Byte}
    (h : FileData cs (relPath, []) d) : d = [] := by
  unfold FileData at h
  split at h
  · exact h.1
  · exact h

theorem js_eq_sign : js "=" = [61] := by rfl

theorem getArg_absent {args : List JStr} {name : JStr} (h : optionAbsent args name) :
    getArg args name = none := by
  have : args.find? (fun x => startsWith x (js "--" ++ name ++ js "=")) = none := by
    rw [List.find?_eq_none]
    intro x hx
    rw [h x hx]
    exact Bool.false_ne_true
  unfold getArg
  rw [this]

theorem mem_of_startsWith {arg name : JStr}
    (h : startsWith arg (js "--" ++ name ++ js "=") = true) : (61 : CodeUnit) ∈ arg := by
  unfold startsWith at h
  rw [List.isPrefixOf_iff_prefix] at h
  obtain ⟨t, ht⟩ := h
  rw [← ht, js_eq_sign]
  simp

/-- The first argument that starts with `--name=` decides the result of `getArg`. -/
theorem getArg_first {before after : List JStr} {arg name : JStr}
    (hb : optionAbsent before name)
    (ha : startsWith arg (js "--" ++ name ++ js "=") = true) :
    getArg (before ++ arg :: after) name = some (betweenFirstTwo 61 arg) := by
  have h1 : before.find? (fun x => startsWith x (js "--" ++ name ++ js "=")) = none := by
    rw [List.find?_eq_none]
    intro x hx
    rw [hb x hx]
    exact Bool.false_ne_true
  have h2 : (before ++ arg :: after).find? (fun x => startsWith x (js "--" ++ name ++ js "="))
      = some arg := by
    have h3 : (arg :: after).find? (fun x => startsWith x (js "--" ++ name ++ js "="))
        = some arg := by
      rw [List.find?_cons]
      show (match startsWith arg (js "--" ++ name ++ js "=") with
        | true => some arg
        | false => _) = some arg
      rw [ha]
    rw [List.find?_append, h1, h3]
    rfl
  unfold getArg
  rw [h2]
  exact splitOn_second 61 arg (mem_of_startsWith ha)

theorem dropWhile_ne_append (sep : CodeUnit) : ∀ (l v : JStr), sep ∉ l →
    (l ++ sep :: v).dropWhile (fun u => u ≠ sep) = sep :: v := by
  intro l
  induction l with
  | nil => intro v _; simp [List.dropWhile_cons]
  | cons c l ih =>
    intro v h
    simp only [List.mem_cons, not_or] at h
    have hc : c ≠ sep := fun e => h.1 e.symm
    simp only [List.cons_append, List.dropWhile_cons, hc, ne_eq, not_false_eq_true,
      decide_True, if_true]
    exact ih v h.2

theorem getArg_single {name value : JStr} (after : List JStr) (h : (61 : CodeUnit) ∉ name) :
    getArg ((js "--" ++ name ++ js "=" ++ value) :: after) name
      = some (value.takeWhile (fun u => u ≠ 61)) := by
  have ha : startsWith (js "--" ++ name ++ js "=" ++ value) (js "--" ++ name ++ js "=")
      = true := by
    unfold startsWith
    rw [List.isPrefixOf_iff_prefix]
    exact List.prefix_append _ _
  have hb : optionAbsent [] name := by intro x hx; simp at hx
  have := @getArg_first [] after (js "--" ++ name ++ js "=" ++ value) name hb ha
  simp only [List.nil_append] at this
  rw [this]
  have hl : (61 : CodeUnit) ∉ js "--" ++ name := by
    intro hm
    rcases List.mem_append.1 hm with hm | hm
    · revert hm; decide
    · exact h hm
  have hd := dropWhile_ne_append 61 (js "--" ++ name) value hl
  unfold betweenFirstTwo
  rw [js_eq_sign, List.append_assoc, List.singleton_append]
  rw [hd]
  rfl

/-! ## Extensions and lower-casing -/

theorem lowerUnit_iff (u v : CodeUnit) : lowerUnit u = v ↔ LowerOf u v := by
  unfold lowerUnit LowerOf
  by_cases h : 65 ≤ u.val ∧ u.val ≤ 90
  · rw [if_pos h]
    have hval : (Fin.ofNat (u.val + 32) : CodeUnit).val = u.val + 32 := by
      show (u.val + 32) % 65536 = u.val + 32
      omega
    constructor
    · intro hv
      left
      exact ⟨h.1, h.2, by rw [← hv, hval]⟩
    · rintro (⟨_, _, hv⟩ | ⟨hn, _⟩)
      · exact Fin.ext (by rw [hval, hv])
      · exact absurd h hn
  · rw [if_neg h]
    constructor
    · intro hv
      right
      exact ⟨h, hv.symm⟩
    · rintro (⟨h1, h2, _⟩ | ⟨_, hv⟩)
      · exact absurd ⟨h1, h2⟩ h
      · exact hv.symm

/-- The lower-casing of the model is the lower-casing of ASCII capitals. -/
theorem toLowerCase_iff : ∀ (s e : JStr), toLowerCase s = e ↔ LoweredTo s e := by
  intro s
  induction s with
  | nil =>
    intro e
    constructor
    · intro h; subst h; exact List.Forall₂.nil
    · intro h; cases h; rfl
  | cons u s ih =>
    intro e
    constructor
    · intro h
      subst h
      exact List.Forall₂.cons ((lowerUnit_iff u _).1 rfl) ((ih _).1 rfl)
    · intro h
      cases h with
      | cons h1 h2 =>
        show lowerUnit u :: toLowerCase s = _
        rw [(lowerUnit_iff u _).2 h1, (ih _).2 h2]

theorem mem_textExtensions_iff (ext : JStr) :
    toLowerCase ext ∈ TextExtensions ↔ ∃ e ∈ TextExtensions, LoweredTo ext e := by
  constructor
  · intro h
    exact ⟨_, h, (toLowerCase_iff ext _).1 rfl⟩
  · rintro ⟨e, he, hl⟩
    rw [(toLowerCase_iff ext e).2 hl]
    exact he

theorem takeWhile_append_stop {p : CodeUnit → Bool} : ∀ (l r : JStr) (x : CodeUnit),
    (∀ a ∈ l, p a = true) → p x = false → (l ++ x :: r).takeWhile p = l := by
  intro l
  induction l with
  | nil => intro r x _ hx; simp [List.takeWhile_cons, hx]
  | cons a l ih =>
    intro r x hl hx
    have ha := hl a (List.mem_cons_self _ _)
    simp only [List.cons_append, List.takeWhile_cons, ha, if_true]
    rw [ih r x (fun b hb => hl b (List.mem_cons_of_mem _ hb)) hx]

theorem takeWhile_all {p : CodeUnit → Bool} : ∀ (l : JStr),
    (∀ a ∈ l, p a = true) → l.takeWhile p = l := by
  intro l
  induction l with
  | nil => intro _; rfl
  | cons a l ih =>
    intro hl
    have ha := hl a (List.mem_cons_self _ _)
    simp only [List.takeWhile_cons, ha, if_true]
    rw [ih (fun b hb => hl b (List.mem_cons_of_mem _ hb))]

/-- The part after the last separator of `dir ++ base`, when `dir` is empty or ends with the
separator and `base` is free of it, is `base`. -/
theorem afterLast_dir (sep : CodeUnit) (dir base : JStr) (hb : sep ∉ base)
    (hd : dir = [] ∨ ∃ d, dir = d ++ [sep]) : afterLast sep (dir ++ base) = base := by
  have hall : ∀ a ∈ base.reverse, (decide (a ≠ sep)) = true := by
    intro a ha
    have : a ≠ sep := fun e => hb (e ▸ List.mem_reverse.1 ha)
    simpa using this
  unfold afterLast
  rcases hd with rfl | ⟨d, rfl⟩
  · rw [List.nil_append, takeWhile_all _ hall, List.reverse_reverse]
  · have : (d ++ [sep] ++ base).reverse = base.reverse ++ sep :: d.reverse := by simp
    rw [this, takeWhile_append_stop _ _ _ hall (by simp), List.reverse_reverse]

/-- Model of `extname` on a path whose last segment is `stem.e`: the extension is `.e`. -/
theorem extname_simple (dir stem e : JStr)
    (hd : dir = [] ∨ ∃ d, dir = d ++ [47]) (hs : stem ≠ []) (hs47 : (47 : CodeUnit) ∉ stem)
    (he47 : (47 : CodeUnit) ∉ e) (he46 : (46 : CodeUnit) ∉ e)
    (hdots : ¬ (stem = [46] ∧ e = [])) :
    extname (dir ++ (stem ++ 46 :: e)) = 46 :: e := by
  have hbase47 : (47 : CodeUnit) ∉ stem ++ 46 :: e := by
    intro h
    rcases List.mem_append.1 h with h | h
    · exact hs47 h
    · rcases List.mem_cons.1 h with h | h
      · exact absurd h (by decide)
      · exact he47 h
  -- no trailing slash
  have htrim : ((dir ++ (stem ++ 46 :: e)).reverse.dropWhile (fun u => u = 47)).reverse
      = dir ++ (stem ++ 46 :: e) := by
    have hrev : (dir ++ (stem ++ 46 :: e)).reverse = (46 :: e).reverse ++ (stem.reverse ++ dir.reverse) := by
      simp
    have hne : (46 :: e).reverse ≠ [] := by simp
    cases hl : (46 :: e).reverse with
    | nil => exact absurd hl hne
    | cons x xs =>
      have hx : x ≠ 47 := by
        intro hx47
        have : x ∈ (46 :: e).reverse := by rw [hl]; exact List.mem_cons_self _ _
        rcases List.mem_cons.1 (List.mem_reverse.1 this) with h | h
        · rw [hx47] at h; exact absurd h (by decide)
        · rw [hx47] at h; exact he47 h
      rw [hrev, hl]
      simp only [List.cons_append, List.dropWhile_cons, hx, decide_False, Bool.false_eq_true,
        if_false]
      rw [← List.cons_append, ← hl, ← hrev, List.reverse_reverse]
  have hbase : afterLast 47 (dir ++ (stem ++ 46 :: e)) = stem ++ 46 :: e :=
    afterLast_dir 47 dir _ hbase47 hd
  have htail : afterLast 46 (stem ++ 46 :: e) = e := by
    have hall : ∀ a ∈ e.reverse, (decide (a ≠ 46)) = true := by
      intro a ha
      have : a ≠ 46 := fun h => he46 (h ▸ List.mem_reverse.1 ha)
      simpa using this
    unfold afterLast
    have : (stem ++ 46 :: e).reverse = e.reverse ++ 46 :: stem.reverse := by simp
    rw [this, takeWhile_append_stop _ _ _ hall (by simp), List.reverse_reverse]
  unfold extname
  simp only [htrim, hbase, htail]
  have hlen : (stem ++ 46 :: e).length = stem.length + (e.length + 1) := by simp
  have hspos : 0 < stem.length := List.length_pos.2 hs
  rw [if_neg (by rw [hlen]; omega), if_neg (by rw [hlen]; omega)]
  have hne : stem ++ 46 :: e ≠ js ".." := by
    intro h
    have h2 : js ".." = [46, 46] := by rfl
    rw [h2] at h
    cases stem with
    | nil => exact hs rfl
    | cons a stem =>
      cases stem with
      | nil =>
        simp only [List.singleton_append, List.cons.injEq] at h
        apply hdots
        refine ⟨by rw [h.1], ?_⟩
        cases e with
        | nil => rfl
        | cons b e => simp at h
      | cons b stem =>
        have := congrArg List.length h
        simp at this
  rw [if_neg hne]

/-- Model of `extname` on a path whose last segment has no dot, or only a leading one: there
is no extension. -/
theorem extname_none (dir base : JStr) (hd : dir = [] ∨ ∃ d, dir = d ++ [47])
    (hb : base ≠ []) (hb47 : (47 : CodeUnit) ∉ base)
    (hdot : (46 : CodeUnit) ∉ base ∨ ∃ e, base = 46 :: e ∧ (46 : CodeUnit) ∉ e) :
    extname (dir ++ base) = [] := by
  have htrim : ((dir ++ base).reverse.dropWhile (fun u => u = 47)).reverse = dir ++ base := by
    have hrev : (dir ++ base).reverse = base.reverse ++ dir.reverse := by simp
    have hne : base.reverse ≠ [] := by simpa using hb
    cases hl : base.reverse with
    | nil => exact absurd hl hne
    | cons x xs =>
      have hx : x ≠ 47 := by
        intro hx47
        have : x ∈ base.reverse := by rw [hl]; exact List.mem_cons_self _ _
        rw [hx47] at this
        exact hb47 (List.mem_reverse.1 this)
      rw [hrev, hl]
      simp only [List.cons_append, List.dropWhile_cons, hx, decide_False, Bool.false_eq_true,
        if_false]
      rw [← List.cons_append, ← hl, ← hrev, List.reverse_reverse]
  have hbase : afterLast 47 (dir ++ base) = base := afterLast_dir 47 dir _ hb47 hd
  unfold extname
  simp only [htrim, hbase]
  rcases hdot with hdot | ⟨e, rfl, he⟩
  · have htail : afterLast 46 base = base := by
      have := afterLast_dir 46 [] base hdot (Or.inl rfl)
      simpa using this
    rw [htail, if_pos rfl]
  · have htail : afterLast 46 (46 :: e) = e := by
      have := afterLast_dir 46 [46] e he (Or.inr ⟨[], rfl⟩)
      simpa using this
    rw [htail, if_neg (by simp), if_pos (by simp)]

theorem nil_not_textExtension : ([] : JStr) ∉ TextExtensions := by decide

theorem sample_pack2 :
    pack [(js "dir/A.JS", [104, 105]), (js ".js", [104]), (js "b.png", [255, 0])] sampleDraws
      = some sampleArchive2 := by
  rfl

/-- The upper-case extension `.JS` is the allow-list entry `.js` up to case. -/
theorem upper_js_lowered : ∃ x ∈ TextExtensions, LoweredTo (46 :: js "JS") x :=
  ⟨js ".js", by decide,
    List.Forall₂.cons (Or.inr ⟨by decide, rfl⟩)
      (List.Forall₂.cons (Or.inl ⟨by decide, by decide, by decide⟩)
        (List.Forall₂.cons (Or.inl ⟨by decide, by decide, by decide⟩) List.Forall₂.nil))⟩

/-! ## The usage test of the two scripts -/

theorem getArg_later {before after : List JStr} {name value : JStr}
    (hb : optionAbsent before name) (h : (61 : CodeUnit) ∉ name) :
    getArg (before ++ (js "--" ++ name ++ js "=" ++ value) :: after) name
      = some (value.takeWhile (fun u => u ≠ 61)) := by
  have ha : startsWith (js "--" ++ name ++ js "=" ++ value) (js "--" ++ name ++ js "=")
      = true := by
    unfold startsWith
    rw [List.isPrefixOf_iff_prefix]
    exact List.prefix_append _ _
  rw [@getArg_first before after (js "--" ++ name ++ js "=" ++ value) name hb ha]
  have hl : (61 : CodeUnit) ∉ js "--" ++ name := by
    intro hm
    rcases List.mem_append.1 hm with hm | hm
    · revert hm; decide
    · exact h hm
  have hd := dropWhile_ne_append 61 (js "--" ++ name) value hl
  unfold betweenFirstTwo
  rw [js_eq_sign, List.append_assoc, List.singleton_append]
  rw [hd]
  rfl

theorem falsy_iff (v : Option JStr) : falsy v = true ↔ v = none ∨ v = some [] := by
  cases v with
  | none => simp [falsy]
  | some s => cases s <;> simp [falsy]

theorem packStartup_usage_iff (args : List JStr) (existsSync : JStr → Bool) :
    packStartup args existsSync = [.consoleError .usage, .exit 1] ↔
      (falsy (getArg args (js "src-dir")) = true ∨
        falsy (getArg args (js "output-cpp-dir")) = true ∨
        falsy (getArg args (js "output-mod")) = true) := by
  unfold packStartup
  simp only []
  by_cases h : (falsy (getArg args (js "src-dir")) || falsy (getArg args (js "output-cpp-dir"))
      || falsy (getArg args (js "output-mod"))) = true
  · rw [if_pos h]
    simp only [Bool.or_eq_true] at h
    simp only [true_iff]
    tauto
  · rw [if_neg h]
    simp only [Bool.or_eq_true] at h
    constructor
    · intro h2
      exfalso
      split at h2
      · simp at h2
      · simp at h2
    · intro h2
      exact absurd (by tauto) h

theorem extractStartup_usage_iff (args : List JStr) (join : JStr → JStr → JStr)
    (existsSync : JStr → Bool) :
    extractStartup args join existsSync = [.consoleError .usage, .exit 1] ↔
      (falsy (getArg args (js "output-dir")) = true ∨
        falsy (getArg args (js "mod-dir")) = true) := by
  unfold extractStartup
  simp only []
  by_cases h : (falsy (getArg args (js "output-dir")) || falsy (getArg args (js "mod-dir")))
      = true
  · rw [if_pos h]
    simp only [Bool.or_eq_true] at h
    simp only [true_iff]
    exact h
  · rw [if_neg h]
    simp only [Bool.or_eq_true] at h
    constructor
    · intro h2
      exfalso
      split at h2
      · simp at h2
      · simp at h2
    · intro h2
      exact absurd h2 h

/-! ## Claims -/

theorem sample_encode :
    encodeText Table.empty sampleDraws (js "hi") = some (sampleTable, [], .ok [0, 0, 0, 1]) := by
  rfl

theorem sample_reachable : Reachable sampleTable :=
  ⟨[js "hi"], Calls.call sample_encode (Calls.done _)⟩

theorem sample_encode2 :
    encodeText sampleTable sampleDraws2 (js "hx") = some (sampleTable2, [], .ok [0, 0, 0, 2]) := by
  rfl

/-- Claim C2. Codec round trip.  For every table `t` reachable from the empty table by calls of
`encodeText` and every text (the empty one included): there are draws of the random source on
which `encodeText(text)` comes to an end; and on every supply of draws on which it does, the
call returns a buffer (it does not throw) on which `decodeText` returns exactly `text`, when
the reverse maps are built from the entries, in any enumeration order, of the table `t2`
reached after any further calls `texts` of `encodeText` (none, when `texts` is empty). -/
theorem codec_round_trip (t : Table) (text : JStr) (hr : Reachable t) :
    (∃ rnd t1 rnd1 res, encodeText t rnd text = some (t1, rnd1, res)) ∧
    ∀ (t1 t2 : Table) (rnd rnd1 : List Nat) (res : Except JSError (List Byte))
      (texts : List JStr) (keysEntries binEntries : Obj),
      encodeText t rnd text = some (t1, rnd1, res) → Calls t1 texts t2 →
      keysEntries.Perm t2.keys → binEntries.Perm t2.bin →
      ∃ buf, res = .ok buf ∧
        decodeText (reverseBin binEntries) (reverseKeys keysEntries) buf = .ok text := by
  refine ⟨encodeText_total t text hr, ?_⟩
  intro t1 t2 rnd rnd1 res texts keysEntries binEntries he hc hk hb
  obtain ⟨es, hinv⟩ := hr.wellFormed
  obtain ⟨more, hinv1, hfst1, hres⟩ := encodeText_spec hinv he
  obtain ⟨more2, hinv2, _⟩ := hc.preserves _ hinv1
  refine ⟨_, hres, ?_⟩
  have := decodeTextLoop_spec (reverseBin binEntries) (reverseKeys keysEntries)
    (fun c => ((es ++ more).map Prod.fst).indexOf c) text [] ?_
  · simpa [decodeText] using this
  · intro c hcmem
    have hc1 : c ∈ (es ++ more).map Prod.fst := by
      rw [hfst1]; exact mem_firstSeenFrom _ _ _ hcmem
    have hc2 : c ∈ ((es ++ more) ++ more2).map Prod.fst := by
      rw [List.map_append]; exact List.mem_append_left _ hc1
    have hidx : (((es ++ more) ++ more2).map Prod.fst).indexOf c
        = ((es ++ more).map Prod.fst).indexOf c := by
      rw [List.map_append, List.indexOf_append_of_mem hc1]
    obtain ⟨k, hmem, _, _, hk2⟩ := hinv2.lookup_mem hc2
    have hlt := List.indexOf_lt_length.2 hc2
    have hle := hinv2.length_le
    rw [List.length_map] at hlt
    refine ⟨by show ((es ++ more).map Prod.fst).indexOf c ≤ 65535; omega, k, ?_, ?_⟩
    · have := hinv2.reverseBin_lookup hb hk2 hmem
      rw [hidx] at this
      exact this
    · exact hinv2.reverseKeys_lookup hk hmem

theorem codec_round_trip_witness :
    decodeText (reverseBin sampleTable2.bin.reverse) (reverseKeys sampleTable2.keys.reverse)
      [0, 0, 0, 1] = .ok (js "hi") := by
  obtain ⟨buf, h1, h2⟩ := (codec_round_trip Table.empty (js "hi") ⟨[], Calls.done _⟩).2
    sampleTable sampleTable2 sampleDraws [] (.ok [0, 0, 0, 1]) [js "hx"]
    sampleTable2.keys.reverse sampleTable2.bin.reverse
    sample_encode (Calls.call sample_encode2 (Calls.done _))
    (List.reverse_perm _) (List.reverse_perm _)
  cases h1
  exact h2

/-- Claim C7. Table injectivity.  After any sequence of `encodeText` calls from the empty table,
under any draws of the random source: no two characters of `keys` share a label, no two labels
of `bin` share an index, a label is a value of `keys` exactly when it is a property of `bin`,
every value of `keys` is a label string, both objects list each of their properties once, and
they have the same number of entries. -/
theorem table_injectivity (t : Table) (hr : Reachable t) :
    (∀ c1 c2 v, (c1, v) ∈ t.keys → (c2, v) ∈ t.keys → c1 = c2) ∧
    (∀ k1 k2 v, (k1, v) ∈ t.bin → (k2, v) ∈ t.bin → k1 = k2) ∧
    (∀ k, (∃ c, (c, JSVal.str k) ∈ t.keys) ↔ (∃ v, (k, v) ∈ t.bin)) ∧
    (∀ c v, (c, v) ∈ t.keys → ∃ k, v = JSVal.str k) ∧
    (t.keys.map Prod.fst).Nodup ∧ (t.bin.map Prod.fst).Nodup ∧
    t.keys.length = t.bin.length := by
  obtain ⟨es, h⟩ := hr.wellFormed
  have hbfst := binFrom_map_fst 0 es
  have hbsnd := binFrom_map_snd 0 es
  refine ⟨?_, ?_, ?_, ?_, ?_, ?_, ?_⟩
  · intro c1 c2 v h1 h2
    rw [h.keys_eq] at h1 h2
    obtain ⟨e1, hm1, he1⟩ := List.mem_map.1 h1
    obtain ⟨e2, hm2, he2⟩ := List.mem_map.1 h2
    simp only [Prod.mk.injEq] at he1 he2
    have hlab : e1.2 = e2.2 := by
      have := he1.2.trans he2.2.symm
      simpa using this
    have := List.inj_on_of_nodup_map h.labels_nodup hm1 hm2 hlab
    rw [← he1.1, ← he2.1, this]
  · intro k1 k2 v h1 h2
    rw [h.bin_eq] at h1 h2
    have hnd : ((binFrom 0 es).map Prod.snd).Nodup := by
      rw [hbsnd]
      exact (List.nodup_range' 0 es.length).map (fun a b hab => by simpa using hab)
    have := List.inj_on_of_nodup_map hnd h1 h2 rfl
    simpa using this
  · intro k
    rw [h.keys_eq, h.bin_eq]
    constructor
    · rintro ⟨c, hc⟩
      obtain ⟨e, hm, he⟩ := List.mem_map.1 hc
      simp only [Prod.mk.injEq, JSVal.str.injEq] at he
      have hk : k ∈ (binFrom 0 es).map Prod.fst := by
        rw [hbfst]; exact List.mem_map.2 ⟨e, hm, he.2⟩
      obtain ⟨p, hp, hpk⟩ := List.mem_map.1 hk
      exact ⟨p.2, by rw [← hpk]; exact hp⟩
    · rintro ⟨v, hv⟩
      have hk : k ∈ es.map Prod.snd := by
        rw [← hbfst]; exact List.mem_map.2 ⟨(k, v), hv, rfl⟩
      obtain ⟨e, hm, he⟩ := List.mem_map.1 hk
      exact ⟨[e.1], List.mem_map.2 ⟨e, hm, by simp [he]⟩⟩
  · intro c v hcv
    rw [h.keys_eq] at hcv
    obtain ⟨e, _, he⟩ := List.mem_map.1 hcv
    simp only [Prod.mk.injEq] at he
    exact ⟨e.2, he.2.symm⟩
  · rw [h.keys_eq]
    have : (keysOf es).map Prod.fst = (es.map Prod.fst).map (fun c => [c]) := by
      simp [keysOf, List.map_map, Function.comp]
    rw [this]
    exact h.chars_nodup.map (fun a b hab => by simpa using hab)
  · rw [h.bin_eq, hbfst]
    exact h.labels_nodup
  · have h1 : t.keys.length = es.length := by rw [h.keys_eq]; simp [keysOf]
    have h2 : t.bin.length = es.length := by
      rw [h.bin_eq, ← List.length_map (binFrom 0 es) Prod.fst, hbfst, List.length_map]
    rw [h1, h2]

theorem table_injectivity_witness :
    (∀ c1 c2 v, (c1, v) ∈ sampleTable.keys → (c2, v) ∈ sampleTable.keys → c1 = c2) ∧
    (∀ k1 k2 v, (k1, v) ∈ sampleTable.bin → (k2, v) ∈ sampleTable.bin → k1 = k2) ∧
    (∀ k, (∃ c, (c, JSVal.str k) ∈ sampleTable.keys) ↔ (∃ v, (k, v) ∈ sampleTable.bin)) ∧
    (∀ c v, (c, v) ∈ sampleTable.keys → ∃ k, v = JSVal.str k) ∧
    (sampleTable.keys.map Prod.fst).Nodup ∧ (sampleTable.bin.map Prod.fst).Nodup ∧
    sampleTable.keys.length = sampleTable.bin.length :=
  table_injectivity sampleTable ⟨[js "hi"], Calls.call sample_encode (Calls.done _)⟩

/-- Claim C9. Encoded layout.  For every reachable table and every text there are draws of the
random source on which `encodeText(text)` comes to an end, and every call that comes to an end
returns a buffer (it does not throw) of exactly `2 * text.length` bytes in which bytes `2i` and
`2i + 1` are the high and the low byte of the index `bin[keys[text[i]]]` of the table after the
call, an index within `0..65535`.  Hence a record that the pack loop pushes with
`binary = false` has a length of twice the number of code units of the decoded file. -/
theorem encoded_layout :
    (∀ (t : Table) (text : JStr), Reachable t →
      (∃ rnd t1 rnd1 res, encodeText t rnd text = some (t1, rnd1, res)) ∧
      ∀ (t1 : Table) (rnd rnd1 : List Nat) (res : Except JSError (List Byte)),
      encodeText t rnd text = some (t1, rnd1, res) →
      ∃ buf, res = .ok buf ∧ buf.length = 2 * text.length ∧
        ∀ i c, text[i]? = some c →
          ∃ n, t1.indexOf c = .num n ∧ n ≤ 65535 ∧
            buf[2 * i]? = some (Fin.ofNat (n / 256)) ∧
            buf[2 * i + 1]? = some (Fin.ofNat (n % 256))) ∧
    (∀ (s s1 : PackState) (rnd rnd1 : List Nat) (relPath : JStr) (buffer : List Byte),
      Reachable s.table → packFile s rnd relPath buffer = some (s1, rnd1) →
      ∃ r, s1.filesMeta = s.filesMeta ++ [r] ∧ r.path = relPath ∧
        (r.binary = false → r.length = 2 * (toStringUtf8 buffer).length)) := by
  constructor
  · intro t text hr
    refine ⟨encodeText_total t text hr, ?_⟩
    intro t1 rnd rnd1 res he
    obtain ⟨es, hinv⟩ := hr.wellFormed
    obtain ⟨more, hinv1, hfst1, hres⟩ := encodeText_spec hinv he
    refine ⟨_, hres, flatMap_be16_length _ _, ?_⟩
    intro i c hic
    have hcmem : c ∈ text := List.getElem?_mem hic
    have hc1 : c ∈ (es ++ more).map Prod.fst := by
      rw [hfst1]; exact mem_firstSeenFrom _ _ _ hcmem
    have hlt := List.indexOf_lt_length.2 hc1
    have hle := hinv1.length_le
    rw [List.length_map] at hlt
    obtain ⟨h1, h2⟩ := flatMap_be16_get
      (fun c => ((es ++ more).map Prod.fst).indexOf c) text i c hic
    exact ⟨_, hinv1.indexOf_mem hc1, by omega, h1, h2⟩
  · intro s s1 rnd rnd1 relPath buffer hr hp
    obtain ⟨es, hinv⟩ := hr.wellFormed
    unfold packFile at hp
    simp only at hp
    split at hp
    · cases hen : encodeText s.table rnd (toStringUtf8 buffer) with
      | none => simp [hen] at hp
      | some p =>
        obtain ⟨t1, rnd2, res⟩ := p
        obtain ⟨more, _, _, hres⟩ := encodeText_spec hinv hen
        subst hres
        simp only [hen, Option.some.injEq, Prod.mk.injEq] at hp
        obtain ⟨rfl, _⟩ := hp
        exact ⟨_, rfl, rfl, fun _ => flatMap_be16_length _ _⟩
    · simp only [Option.some.injEq, Prod.mk.injEq] at hp
      obtain ⟨rfl, _⟩ := hp
      exact ⟨_, rfl, rfl, fun h => by simp at h⟩

theorem encoded_layout_witness :
    (∃ buf, (Except.ok [0, 0, 0, 1] : Except JSError (List Byte)) = .ok buf ∧
      buf.length = 2 * (js "hi").length ∧
        ∀ i c, (js "hi")[i]? = some c →
          ∃ n, sampleTable.indexOf c = .num n ∧ n ≤ 65535 ∧
            buf[2 * i]? = some (Fin.ofNat (n / 256)) ∧
            buf[2 * i + 1]? = some (Fin.ofNat (n % 256))) ∧
    (∃ r, (⟨[[0, 0, 0, 1]], sampleTable, [⟨js "a.md", 0, 4, false⟩], 4⟩ : PackState).filesMeta
        = PackState.init.filesMeta ++ [r] ∧ r.path = js "a.md" ∧
        (r.binary = false → r.length = 2 * (toStringUtf8 [104, 105]).length)) :=
  ⟨(encoded_layout.1 Table.empty (js "hi") ⟨[], Calls.done _⟩).2 sampleTable sampleDraws []
      (.ok [0, 0, 0, 1]) sample_encode,
   encoded_layout.2 PackState.init ⟨[[0, 0, 0, 1]], sampleTable, [⟨js "a.md", 0, 4, false⟩], 4⟩
      sampleDraws [] (js "a.md") [104, 105] ⟨[], Calls.done _⟩ (by rfl)⟩

/-- Claim C8. Idempotent table growth.  (1) For every table state of a run and every text, a call
of `encodeText` leaves the label `keys[c]` and the index `bin[keys[c]]` of every character `c`
already in the table unchanged.  (2) For every table whatsoever, when every code unit of the
text already has a (non-empty) label, the call leaves `keys`, `bin` and `binCounter` unchanged
and uses up no draw of the random source.  (3) On a table state of a run the call only appends
properties to `keys` and to `bin` and never lowers `binCounter`: no entry is removed or
reassigned. -/
theorem idempotent_growth :
    (∀ (t t1 : Table) (rnd rnd1 : List Nat) (text : JStr) (res : Except JSError (List Byte))
      (c : CodeUnit), Reachable t → encodeText t rnd text = some (t1, rnd1, res) →
      getProp t.keys [c] ≠ .undefined →
      getProp t1.keys [c] = getProp t.keys [c] ∧ t1.indexOf c = t.indexOf c) ∧
    (∀ (t : Table) (rnd : List Nat) (text : JStr),
      (∀ c ∈ text, truthy (getProp t.keys [c]) = true) →
      ∃ res, encodeText t rnd text = some (t, rnd, res)) ∧
    (∀ (t t1 : Table) (rnd rnd1 : List Nat) (text : JStr) (res : Except JSError (List Byte)),
      Reachable t → encodeText t rnd text = some (t1, rnd1, res) →
      ∃ newKeys newBin, t1.keys = t.keys ++ newKeys ∧ t1.bin = t.bin ++ newBin ∧
        t.binCounter ≤ t1.binCounter) := by
  refine ⟨?_, ?_, ?_⟩
  · intro t t1 rnd rnd1 text res c hr he hc
    obtain ⟨es, hinv⟩ := hr.wellFormed
    obtain ⟨more, hinv1, _, _⟩ := encodeText_spec hinv he
    have hmem : c ∈ es.map Prod.fst := by
      by_contra hn
      exact hc (hinv.lookup_not_mem hn)
    have hmem1 : c ∈ (es ++ more).map Prod.fst := by
      rw [List.map_append]; exact List.mem_append_left _ hmem
    obtain ⟨k, hk, _, hk1, _⟩ := hinv.lookup_mem hmem
    obtain ⟨k1, hk1m, _, hk11, _⟩ := hinv1.lookup_mem hmem1
    have hsame : ((c, k1) : CodeUnit × JStr) = (c, k) :=
      List.inj_on_of_nodup_map hinv1.chars_nodup hk1m (List.mem_append_left _ hk) rfl
    have hkk : k1 = k := by simpa using hsame
    constructor
    · rw [hk1, hk11, hkk]
    · rw [hinv.indexOf_mem hmem, hinv1.indexOf_mem hmem1, List.map_append,
        List.indexOf_append_of_mem hmem]
  · intro t rnd text h
    exact encodeTextLoop_known text t rnd [] h
  · intro t t1 rnd rnd1 text res hr he
    obtain ⟨es, hinv⟩ := hr.wellFormed
    obtain ⟨more, hinv1, _, _⟩ := encodeText_spec hinv he
    refine ⟨keysOf more, binFrom (0 + es.length) more, ?_, ?_, ?_⟩
    · rw [hinv1.keys_eq, hinv.keys_eq]
      simp [keysOf]
    · rw [hinv1.bin_eq, hinv.bin_eq, binFrom_append_list]
    · rw [hinv1.counter_eq, hinv.counter_eq, List.length_append]
      omega

theorem idempotent_growth_witness :
    (getProp sampleTable2.keys [104] = getProp sampleTable.keys [104] ∧
      sampleTable2.indexOf 104 = sampleTable.indexOf 104) ∧
    (∃ res, encodeText sampleTable sampleDraws (js "hihi") = some (sampleTable, sampleDraws, res)) ∧
    (∃ newKeys newBin, sampleTable2.keys = sampleTable.keys ++ newKeys ∧
      sampleTable2.bin = sampleTable.bin ++ newBin ∧
      sampleTable.binCounter ≤ sampleTable2.binCounter) :=
  ⟨idempotent_growth.1 sampleTable sampleTable2 sampleDraws2 [] (js "hx") (.ok [0, 0, 0, 2]) 104
      sample_reachable sample_encode2 (by decide),
   idempotent_growth.2.1 sampleTable sampleDraws (js "hihi") (List.all_eq_true.1 (by rfl)),
   idempotent_growth.2.2 sampleTable sampleTable2 sampleDraws2 [] (js "hx") (.ok [0, 0, 0, 2])
      sample_reachable sample_encode2⟩

/-- Claim C10. First-seen dense indexing.  Every sequence of texts can be encoded from the empty
table, and after the calls `encodeText(texts[0])`, ... from the empty table, the index
`bin[keys[c]]` of every code unit `c` of the texts is the number of distinct code units whose
first occurrence, scanning the texts in order (each left to right), precedes that of `c`;
the indices stored in `bin` are exactly `0, 1, ..., n - 1`, in this order, for the `n` distinct
code units of the texts; `binCounter = n`; and no other code unit has an entry. -/
theorem first_seen_indexing (texts : List JStr) :
    (∃ t, Calls Table.empty texts t) ∧
    ∀ t : Table, Calls Table.empty texts t →
    (∀ c ∈ texts.flatten, t.indexOf c = .num (distinctBefore texts.flatten c)) ∧
    t.bin.map Prod.snd = (List.range (distinctCount texts.flatten)).map JSVal.num ∧
    t.binCounter = distinctCount texts.flatten ∧
    (∀ c, c ∉ texts.flatten → getProp t.keys [c] = .undefined) := by
  refine ⟨calls_total texts [] Table.empty TableInv.init, ?_⟩
  intro t hc
  obtain ⟨more, hinv, hfst⟩ := hc.preserves [] TableInv.init
  simp only [List.nil_append, List.map_nil] at hinv hfst
  have hlen : more.length = distinctCount texts.flatten := by
    rw [← length_firstSeen, ← hfst, List.length_map]
  refine ⟨?_, ?_, ?_, ?_⟩
  · intro c hcm
    have hmem : c ∈ more.map Prod.fst := by
      rw [hfst]; exact (mem_firstSeen_iff _ _).2 hcm
    rw [hinv.indexOf_mem hmem, hfst, indexOf_firstSeen _ c hcm]
  · rw [hinv.bin_eq, binFrom_map_snd, hlen, List.range_eq_range']
  · rw [hinv.counter_eq, hlen]
  · intro c hcn
    apply hinv.lookup_not_mem
    rw [hfst, mem_firstSeen_iff]
    exact hcn

theorem first_seen_indexing_witness :
    (∀ c ∈ [js "hi"].flatten, sampleTable.indexOf c = .num (distinctBefore [js "hi"].flatten c)) ∧
    sampleTable.bin.map Prod.snd
      = (List.range (distinctCount [js "hi"].flatten)).map JSVal.num ∧
    sampleTable.binCounter = distinctCount [js "hi"].flatten ∧
    (∀ c, c ∉ [js "hi"].flatten → getProp sampleTable.keys [c] = .undefined) :=
  (first_seen_indexing [js "hi"]).2 sampleTable (Calls.call sample_encode (Calls.done _))

/-- Claim C6. Offset contiguity.  For every ordered list of input files there are draws of the
random source on which the packing run comes to an end, and every run that comes to an end
leaves one record per file; the first record has offset 0; each further record starts where
its predecessor ends; and the final offset cursor is the sum of all record lengths and the
length of the concatenated blob. -/
theorem offset_contiguity (files : List (JStr × List Byte)) :
    (∃ rnd a, pack files rnd = some a) ∧
    ∀ (rnd : List Nat) (a : Archive), pack files rnd = some a →
    a.files.length = files.length ∧
    (∀ r, a.files[0]? = some r → r.offset = 0) ∧
    (∀ i r r1, a.files[i]? = some r → a.files[i + 1]? = some r1 →
      r1.offset = r.offset + r.length) ∧
    a.offset = (a.files.map FileMeta.length).sum ∧
    a.offset = a.bundle.length := by
  refine ⟨pack_total files, ?_⟩
  intro rnd a h
  unfold pack at h
  cases hp : packLoop files PackState.init rnd with
  | none => simp [hp] at h
  | some p =>
    obtain ⟨s, rnd1⟩ := p
    simp only [hp, Option.some.injEq] at h
    subst h
    obtain ⟨hc, hl, hn⟩ := packLoop_contiguous files PackState.init s rnd rnd1 hp rfl rfl
    refine ⟨by simpa [PackState.init] using hn, ?_, hc.next, ?_, hl.symm⟩
    · intro r hr
      show r.offset = 0
      cases hfm : s.filesMeta with
      | nil => simp [hfm] at hr
      | cons x rs =>
        rw [hfm] at hc
        simp only [hfm, List.getElem?_cons_zero, Option.some.injEq] at hr
        rw [← hr]
        exact hc.1
    · have := hc.sum
      simp only [zero_add] at this
      exact this.symm

theorem offset_contiguity_witness :
    ([⟨js "a.md", 0, 4, false⟩, ⟨js "b.png", 4, 2, true⟩] : List FileMeta).length
      = [(js "a.md", ([104, 105] : List Byte)), (js "b.png", [255, 0])].length ∧
    (∀ r, ([⟨js "a.md", 0, 4, false⟩, ⟨js "b.png", 4, 2, true⟩] : List FileMeta)[0]? = some r →
      r.offset = 0) ∧
    (∀ i r r1,
      ([⟨js "a.md", 0, 4, false⟩, ⟨js "b.png", 4, 2, true⟩] : List FileMeta)[i]? = some r →
      ([⟨js "a.md", 0, 4, false⟩, ⟨js "b.png", 4, 2, true⟩] : List FileMeta)[i + 1]? = some r1 →
      r1.offset = r.offset + r.length) ∧
    6 = (([⟨js "a.md", 0, 4, false⟩, ⟨js "b.png", 4, 2, true⟩] : List FileMeta).map
      FileMeta.length).sum ∧
    6 = ([0, 0, 0, 1, 255, 0] : List Byte).length :=
  (offset_contiguity [(js "a.md", [104, 105]), (js "b.png", [255, 0])]).2 sampleDraws
    ⟨[0, 0, 0, 1, 255, 0], sampleTable.keys, sampleTable.bin,
      [⟨js "a.md", 0, 4, false⟩, ⟨js "b.png", 4, 2, true⟩], 6, 2⟩ (by rfl)

/-- Claim C1. Archive round trip, at the failing input: the single file `a.js` whose only byte is
`0xFF`, which is not valid UTF-8.  Under every supply of draws on which the packing run comes
to an end, the file is recorded as text (`buffer.toString` does not throw, so the fallback to
binary is never taken), and extraction writes the three bytes `EF BF BD` of U+FFFD at `a.js`
instead of the original byte. -/
theorem archive_round_trip_invalid_utf8 (rnd : List Nat) (a : Archive)
    (h : pack [(js "a.js", [255])] rnd = some a) :
    a.files = [⟨js "a.js", 0, 2, false⟩] ∧
    extract a.bundle a.keys a.bin a.files = ([⟨js "a.js", [239, 191, 189]⟩], none) ∧
    ([239, 191, 189] : List Byte) ≠ [255] := by
  refine ⟨?_, ?_, by decide⟩
  · obtain ⟨es, datas, _, _, hfiles, hall, _⟩ := pack_spec h
    cases hall with
    | cons hd htl =>
      cases htl
      have ht : isTextPath (js "a.js") = true := by rfl
      unfold FileData at hd
      rw [if_pos ht] at hd
      rw [hfiles, hd.1]
      simp only [recordsFrom, ht, Bool.not_true]
      have hlen := flatMap_be16_length (fun c => (es.map Prod.fst).indexOf c)
        (toStringUtf8 [255])
      rw [hlen]
      rfl
  · rw [pack_extract _ rnd a a.keys a.bin h (List.Perm.refl _) (List.Perm.refl _)]
    rfl

theorem archive_round_trip_invalid_utf8_witness :
    ([⟨js "a.js", 0, 2, false⟩] : List FileMeta) = [⟨js "a.js", 0, 2, false⟩] ∧
    extract [0, 0] [([65533], .str (js "abcdefg"))] [(js "abcdefg", .num 0)]
      [⟨js "a.js", 0, 2, false⟩] = ([⟨js "a.js", [239, 191, 189]⟩], none) ∧
    ([239, 191, 189] : List Byte) ≠ [255] :=
  archive_round_trip_invalid_utf8 sampleDraws
    ⟨[0, 0], [([65533], .str (js "abcdefg"))], [(js "abcdefg", .num 0)],
      [⟨js "a.js", 0, 2, false⟩], 2, 1⟩ (by rfl)

/-- Claim C3. Counterexample to the example scenario as stated: with no draws at all, packing
`a.txt` (content `hi`) and `b.png` (bytes `FF 00`) comes to an end with the blob
`68 69 FF 00`, which refutes the claimed blob `00 00 00 01 FF 00`. -/
theorem example_scenario_counterexample :
    ¬ (∀ (rnd : List Nat) (a : Archive),
        pack [(js "a.txt", [104, 105]), (js "b.png", [255, 0])] rnd = some a →
        a.bundle = [0, 0, 0, 1, 255, 0] ∧
        a.files = [⟨js "a.txt", 0, 4, false⟩, ⟨js "b.png", 4, 2, true⟩] ∧
        ∃ k0 k1, a.keys = [([104], .str k0), ([105], .str k1)] ∧
          a.bin = [(k0, .num 0), (k1, .num 1)]) := by
  intro hclaim
  have h := hclaim []
    ⟨[104, 105, 255, 0], [], [], [⟨js "a.txt", 0, 2, true⟩, ⟨js "b.png", 2, 2, true⟩], 4, 0⟩
    (by rfl)
  exact absurd h.1 (by decide)

/-- Claim C3. The example scenario as the code runs it.  `.txt` is not in `TextExtensions`, so
`a.txt` is packed as a binary file: under every supply of draws the table stays empty, the
blob is `68 69 FF 00` and the records are `a.txt` at offset 0 and `b.png` at offset 2, both of
length 2 and binary.  With the allow-listed name `a.md` in place of `a.txt` the outputs are
those of the scenario: exactly the two table entries `h` and `i`, with indices 0 and 1 under
two different labels, the blob `00 00 00 01 FF 00`, and the records `a.md` (offset 0, length 4,
text) and `b.png` (offset 4, length 2, binary). -/
theorem example_scenario_amended :
    (∀ rnd : List Nat,
      pack [(js "a.txt", [104, 105]), (js "b.png", [255, 0])] rnd
        = some ⟨[104, 105, 255, 0], [], [],
            [⟨js "a.txt", 0, 2, true⟩, ⟨js "b.png", 2, 2, true⟩], 4, 0⟩) ∧
    (∀ (rnd : List Nat) (a : Archive),
      pack [(js "a.md", [104, 105]), (js "b.png", [255, 0])] rnd = some a →
      a.bundle = [0, 0, 0, 1, 255, 0] ∧
      a.files = [⟨js "a.md", 0, 4, false⟩, ⟨js "b.png", 4, 2, true⟩] ∧
      ∃ k0 k1, k0 ≠ k1 ∧ a.keys = [([104], .str k0), ([105], .str k1)] ∧
        a.bin = [(k0, .num 0), (k1, .num 1)] ∧ a.binCounter = 2) := by
  constructor
  · intro rnd
    rfl
  · intro rnd a h
    obtain ⟨es, datas, hinv, hbundle, hfiles, hall, hfst⟩ := pack_spec h
    have hcs : firstSeenFrom [] ([(js "a.md", ([104, 105] : List Byte)),
        (js "b.png", [255, 0])].flatMap fileText) = [104, 105] := by rfl
    rw [hcs] at hfst
    rw [hfst] at hall
    cases hall with
    | cons hd1 htl =>
      cases htl with
      | cons hd2 htl2 =>
        cases htl2
        have ht1 : isTextPath (js "a.md") = true := by rfl
        have ht2 : isTextPath (js "b.png") = false := by rfl
        unfold FileData at hd1 hd2
        rw [if_pos ht1] at hd1
        simp only [ht2, Bool.false_eq_true, if_false] at hd2
        have hd1v : (toStringUtf8 [104, 105]).flatMap
            (fun c => be16 (([104, 105] : List CodeUnit).indexOf c)) = [0, 0, 0, 1] := by rfl
        have hdata := hd1.1
        simp only at hdata hd2
        rw [hd1v] at hdata
        subst hdata
        subst hd2
        refine ⟨by rw [hbundle]; rfl, by rw [hfiles]; rfl, ?_⟩
        rcases es with _ | ⟨⟨c0, k0⟩, _ | ⟨⟨c1, k1⟩, _ | ⟨e2, rest⟩⟩⟩
        · simp at hfst
        · simp at hfst
        · simp only [List.map_cons, List.map_nil, List.cons.injEq, and_true] at hfst
          obtain ⟨rfl, rfl⟩ := hfst
          have hk := hinv.keys_eq
          have hb := hinv.bin_eq
          have hn := hinv.counter_eq
          have hl := hinv.labels_nodup
          simp only [keysOf, binFrom, List.map_cons, List.map_nil, List.length_cons,
            List.length_nil] at hk hb hn
          refine ⟨k0, k1, ?_, hk, hb, hn⟩
          intro heq
          simp [heq] at hl
        · simp at hfst

theorem example_scenario_amended_witness :
    ([0, 0, 0, 1, 255, 0] : List Byte) = [0, 0, 0, 1, 255, 0] ∧
    ([⟨js "a.md", 0, 4, false⟩, ⟨js "b.png", 4, 2, true⟩] : List FileMeta)
      = [⟨js "a.md", 0, 4, false⟩, ⟨js "b.png", 4, 2, true⟩] ∧
    ∃ k0 k1, k0 ≠ k1 ∧ sampleTable.keys = [([104], .str k0), ([105], .str k1)] ∧
      sampleTable.bin = [(k0, .num 0), (k1, .num 1)] ∧ 2 = 2 :=
  example_scenario_amended.2 sampleDraws
    ⟨[0, 0, 0, 1, 255, 0], sampleTable.keys, sampleTable.bin,
      [⟨js "a.md", 0, 4, false⟩, ⟨js "b.png", 4, 2, true⟩], 6, 2⟩ (by rfl)

/-- Claim C4. Per-file failure tolerance, at the failing input: an empty table, the blob
`00 00 FF 00` and the records `a.js` (text, bytes 0..2) and `b.png` (binary, bytes 2..4).
Decoding `a.js` throws, nothing catches the exception inside the extract loop, and the loop
ends there: no file is written, `b.png` included, although its own extraction cannot fail
(second part: the same blob with only the record of `b.png` writes it). -/
theorem extract_aborts_on_decode_failure :
    extract [0, 0, 255, 0] [] [] [⟨js "a.js", 0, 2, false⟩, ⟨js "b.png", 2, 2, true⟩]
      = ([], some (.unknownCharKey 0)) ∧
    extract [0, 0, 255, 0] [] [] [⟨js "b.png", 2, 2, true⟩]
      = ([⟨js "b.png", [255, 0]⟩], none) := by
  constructor <;> rfl

/-- Claim C5. The text decoder, at two failing inputs.  (1) `keys = {"a": "undefined"}`,
`bin = {"undefined": 0}` and the buffer `00 01`: index 1 has no label in the reverse `bin` map,
yet `reverseKeys[undefined]` reads the property named `undefined`, so the decoder returns `a`
instead of throwing.  (2) `keys = {}`, `bin = {"valueOf": 0}` and the buffer `00 00`: the label
`valueOf` has no character in the reverse `keys` map, yet the lookup finds the function
inherited from `Object.prototype`, so the decoder returns its source text instead of
throwing. -/
theorem decodeText_misses_unmapped :
    getProp (reverseBin [(js "undefined", .num 0)]) (toPropertyKey (.num 1)) = .undefined ∧
    decodeText (reverseBin [(js "undefined", .num 0)])
      (reverseKeys [(js "a", .str (js "undefined"))]) [0, 1] = .ok (js "a") ∧
    getProp (reverseBin [(js "valueOf", .num 0)]) (toPropertyKey (.num 0))
      = .str (js "valueOf") ∧
    ownProp (reverseKeys []) (js "valueOf") = none ∧
    decodeText (reverseBin [(js "valueOf", .num 0)]) (reverseKeys []) [0, 0]
      = .ok (js "function valueOf() \x7b [native code] \x7d") := by
  refine ⟨?_, ?_, ?_, ?_, ?_⟩ <;> rfl

theorem sample_pack :
    pack [(js "a.md", [104, 105]), (js "b.png", [255, 0])] sampleDraws = some sampleArchive := by
  rfl

/-- Claim C11. Independence from label randomness.  Two packing runs over the same ordered
list of files that come to an end under different draws of the random source produce the same
blob, the same file records, the same final offset and the same `binCounter`; `keys` lists
the same characters in the same order, `bin` holds the same indices in the same order, and
every code unit of the text files has the same index `bin[keys[c]]` in both runs.  Only the
label strings can differ. -/
theorem label_independence (files : List (JStr × List Byte)) (rnd1 rnd2 : List Nat)
    (a1 a2 : Archive) (h1 : pack files rnd1 = some a1) (h2 : pack files rnd2 = some a2) :
    a1.bundle = a2.bundle ∧ a1.files = a2.files ∧ a1.offset = a2.offset ∧
    a1.binCounter = a2.binCounter ∧
    a1.keys.map Prod.fst = a2.keys.map Prod.fst ∧
    a1.bin.map Prod.snd = a2.bin.map Prod.snd ∧
    ∀ c ∈ files.flatMap fileText,
      Table.indexOf ⟨a1.keys, a1.bin, a1.binCounter⟩ c
        = Table.indexOf ⟨a2.keys, a2.bin, a2.binCounter⟩ c := by
  obtain ⟨es1, ds1, hinv1, hb1, hf1, hall1, hcs1⟩ := pack_spec h1
  obtain ⟨es2, ds2, hinv2, hb2, hf2, hall2, hcs2⟩ := pack_spec h2
  have hcs : es1.map Prod.fst = es2.map Prod.fst := by rw [hcs1, hcs2]
  have hlen : es1.length = es2.length := by
    have := congrArg List.length hcs
    simpa using this
  rw [hcs] at hall1
  have hds : ds1 = ds2 := fileData_list_unique hall1 hall2
  have hbundle : a1.bundle = a2.bundle := by rw [hb1, hb2, hds]
  have ho1 := (pack_contiguous h1).2.1
  have ho2 := (pack_contiguous h2).2.1
  refine ⟨hbundle, by rw [hf1, hf2, hds], by rw [← ho1, ← ho2, hbundle], ?_, ?_, ?_, ?_⟩
  · have c1 := hinv1.counter_eq
    have c2 := hinv2.counter_eq
    simp only at c1 c2
    rw [c1, c2, hlen]
  · have k1 := hinv1.keys_eq
    have k2 := hinv2.keys_eq
    simp only at k1 k2
    have e1 : (keysOf es1).map Prod.fst = (es1.map Prod.fst).map (fun c => [c]) := by
      simp [keysOf, List.map_map, Function.comp]
    have e2 : (keysOf es2).map Prod.fst = (es2.map Prod.fst).map (fun c => [c]) := by
      simp [keysOf, List.map_map, Function.comp]
    rw [k1, k2, e1, e2, hcs]
  · have b1 := hinv1.bin_eq
    have b2 := hinv2.bin_eq
    simp only at b1 b2
    rw [b1, b2, binFrom_map_snd, binFrom_map_snd, hlen]
  · intro c hc
    have hm1 : c ∈ es1.map Prod.fst := by
      rw [hcs1]; exact mem_firstSeenFrom _ _ _ hc
    have hm2 : c ∈ es2.map Prod.fst := by rw [← hcs]; exact hm1
    rw [hinv1.indexOf_mem hm1, hinv2.indexOf_mem hm2, hcs]

theorem label_independence_witness :
    ([0, 0, 0, 1, 255, 0] : List Byte) = [0, 0, 0, 1, 255, 0] ∧
    ([⟨js "a.md", 0, 4, false⟩, ⟨js "b.png", 4, 2, true⟩] : List FileMeta)
      = [⟨js "a.md", 0, 4, false⟩, ⟨js "b.png", 4, 2, true⟩] ∧
    6 = 6 ∧ 2 = 2 ∧
    sampleTable.keys.map Prod.fst
      = ([([104], .str (js "abcdefi")), ([105], .str (js "abcdefg"))] : Obj).map Prod.fst ∧
    sampleTable.bin.map Prod.snd
      = ([(js "abcdefi", .num 0), (js "abcdefg", .num 1)] : Obj).map Prod.snd ∧
    ∀ c ∈ [(js "a.md", ([104, 105] : List Byte)), (js "b.png", [255, 0])].flatMap fileText,
      Table.indexOf ⟨sampleTable.keys, sampleTable.bin, 2⟩ c
        = Table.indexOf ⟨[([104], .str (js "abcdefi")), ([105], .str (js "abcdefg"))],
            [(js "abcdefi", .num 0), (js "abcdefg", .num 1)], 2⟩ c :=
  label_independence [(js "a.md", [104, 105]), (js "b.png", [255, 0])] sampleDraws sampleDraws3
    ⟨[0, 0, 0, 1, 255, 0], sampleTable.keys, sampleTable.bin,
      [⟨js "a.md", 0, 4, false⟩, ⟨js "b.png", 4, 2, true⟩], 6, 2⟩
    ⟨[0, 0, 0, 1, 255, 0], [([104], .str (js "abcdefi")), ([105], .str (js "abcdefg"))],
      [(js "abcdefi", .num 0), (js "abcdefg", .num 1)],
      [⟨js "a.md", 0, 4, false⟩, ⟨js "b.png", 4, 2, true⟩], 6, 2⟩ (by rfl) (by rfl)

/-- Claim C12. Index width.  For every table reached by calls of `encodeText` from the empty
table (texts are sequences of 16-bit code units): `keys` and `bin` hold at most `2^16` entries
and `binCounter` is at most `2^16`; every index stored in `bin` is within `0..65535`; at every
allocation step the table stays reachable and the value passed to `writeUInt16BE` is a number
`n` within `0..65535`, which the two bytes written represent exactly
(`hi * 256 + lo = n`, no wrap); and no call of `encodeText` throws. -/
theorem index_width (t : Table) (hr : Reachable t) :
    t.keys.length ≤ 65536 ∧ t.bin.length ≤ 65536 ∧ t.binCounter ≤ 65536 ∧
    (∀ k v, (k, v) ∈ t.bin → ∃ n, v = .num n ∧ n ≤ 65535) ∧
    (∀ (rnd rnd1 : List Nat) (ch : CodeUnit) (t1 : Table),
      ensureEntry t rnd ch = some (t1, rnd1) →
      Reachable t1 ∧ ∃ n hi lo, t1.indexOf ch = .num n ∧ n ≤ 65535 ∧
        writeUInt16BE (t1.indexOf ch) = .ok [hi, lo] ∧ hi.val * 256 + lo.val = n) ∧
    (∀ (rnd rnd1 : List Nat) (text : JStr) (t1 : Table) (res : Except JSError (List Byte)),
      encodeText t rnd text = some (t1, rnd1, res) → ∃ buf, res = .ok buf) := by
  obtain ⟨es, hinv⟩ := hr.wellFormed
  have hle := hinv.length_le
  have hk : t.keys.length = es.length := by rw [hinv.keys_eq]; simp [keysOf]
  have hb : t.bin.length = es.length := by
    rw [hinv.bin_eq, ← List.length_map (binFrom 0 es) Prod.fst, binFrom_map_fst,
      List.length_map]
  refine ⟨by omega, by omega, by rw [hinv.counter_eq]; exact hle, ?_, ?_, ?_⟩
  · intro k v hkv
    rw [hinv.bin_eq] at hkv
    obtain ⟨m, h1, _, h3⟩ := mem_binFrom es 0 k v hkv
    exact ⟨m, h1, by omega⟩
  · intro rnd rnd1 ch t1 hen
    obtain ⟨texts, hcalls⟩ := hr
    obtain ⟨res, hres⟩ := encodeText_single hen
    refine ⟨⟨texts ++ [[ch]], hcalls.append_call hres⟩, ?_⟩
    obtain ⟨new, hinv1, _, hmem⟩ := ensureEntry_inv hinv hen
    have hlt := List.indexOf_lt_length.2 hmem
    have hle1 := hinv1.length_le
    rw [List.length_map] at hlt
    have hn : ((es ++ new).map Prod.fst).indexOf ch ≤ 65535 := by omega
    obtain ⟨hi, lo, hbe, hval⟩ := be16_val hn
    refine ⟨_, hi, lo, hinv1.indexOf_mem hmem, hn, ?_, hval⟩
    rw [hinv1.indexOf_mem hmem, writeUInt16BE_num hn, hbe]
  · intro rnd rnd1 text t1 res he
    obtain ⟨more, _, _, hres⟩ := encodeText_spec hinv he
    exact ⟨_, hres⟩

theorem index_width_witness :
    sampleTable.keys.length ≤ 65536 ∧ sampleTable.bin.length ≤ 65536 ∧
    sampleTable.binCounter ≤ 65536 ∧
    (∀ k v, (k, v) ∈ sampleTable.bin → ∃ n, v = .num n ∧ n ≤ 65535) ∧
    (∀ (rnd rnd1 : List Nat) (ch : CodeUnit) (t1 : Table),
      ensureEntry sampleTable rnd ch = some (t1, rnd1) →
      Reachable t1 ∧ ∃ n hi lo, t1.indexOf ch = .num n ∧ n ≤ 65535 ∧
        writeUInt16BE (t1.indexOf ch) = .ok [hi, lo] ∧ hi.val * 256 + lo.val = n) ∧
    (∀ (rnd rnd1 : List Nat) (text : JStr) (t1 : Table) (res : Except JSError (List Byte)),
      encodeText sampleTable rnd text = some (t1, rnd1, res) → ∃ buf, res = .ok buf) :=
  index_width sampleTable ⟨[js "hi"], Calls.call sample_encode (Calls.done _)⟩

/-- Claim C13. Binary passthrough.  A packing run that comes to an end leaves one record per
file, and for every file whose record has `binary = true` the record carries the path of the
file, its length is the byte count of the file, and the slice `[offset, offset + length)` of
the blob is the raw bytes of the file, whatever files precede or follow it. -/
theorem binary_passthrough (files : List (JStr × List Byte)) (rnd : List Nat) (a : Archive)
    (h : pack files rnd = some a) :
    a.files.length = files.length ∧
    ∀ (i : Nat) (f : JStr × List Byte) (r : FileMeta),
      files[i]? = some f → a.files[i]? = some r → r.binary = true →
      r.path = f.1 ∧ r.length = f.2.length ∧
        slice a.bundle r.offset (r.offset + r.length) = f.2 := by
  refine ⟨(pack_contiguous h).2.2, ?_⟩
  intro i f r hf hr hb
  obtain ⟨cs, d, hd, hpath, hlen, hbin, hslice⟩ := pack_get h hf hr
  have ht : isTextPath f.1 = false := by
    rw [hb] at hbin
    simpa using hbin.symm
  unfold FileData at hd
  simp only [ht, Bool.false_eq_true, if_false] at hd
  subst hd
  exact ⟨hpath, hlen, hslice⟩

theorem binary_passthrough_witness :
    sampleArchive.files.length
      = [(js "a.md", ([104, 105] : List Byte)), (js "b.png", [255, 0])].length ∧
    ∀ (i : Nat) (f : JStr × List Byte) (r : FileMeta),
      [(js "a.md", ([104, 105] : List Byte)), (js "b.png", [255, 0])][i]? = some f →
      sampleArchive.files[i]? = some r → r.binary = true →
      r.path = f.1 ∧ r.length = f.2.length ∧
        slice sampleArchive.bundle r.offset (r.offset + r.length) = f.2 :=
  binary_passthrough [(js "a.md", [104, 105]), (js "b.png", [255, 0])] sampleDraws
    sampleArchive sample_pack

/-- Claim C14. Name-based classification.  (1) In a packing run that comes to an end, the
record of a file has `binary = false` exactly when the lower-cased extension of its relative
path is in `TextExtensions`, that is, when the extension is an entry of the allow-list up to
the case of its ASCII letters.  (2) In every state of the pack loop, for a file whose text
encoding does not throw, the same holds of the record pushed.  (3) Two files with the same
path receive the same classification, whatever their contents, also in different runs.
(4) For a path whose last segment is `stem.e` (a non-empty `stem`, no further dot in `e`), the
file is text exactly when `.e` is an entry of the allow-list up to the case of its ASCII
letters; (5) a path whose last segment has no dot, or only a leading dot, is binary. -/
theorem name_based_classification :
    (∀ (files : List (JStr × List Byte)) (rnd : List Nat) (a : Archive) (i : Nat)
      (f : JStr × List Byte) (r : FileMeta),
      pack files rnd = some a → files[i]? = some f → a.files[i]? = some r →
      (r.binary = false ↔ toLowerCase (extname f.1) ∈ TextExtensions) ∧
      (r.binary = false ↔ ∃ e ∈ TextExtensions, LoweredTo (extname f.1) e)) ∧
    (∀ (s s1 : PackState) (rnd rnd1 : List Nat) (relPath : JStr) (buffer : List Byte),
      packFile s rnd relPath buffer = some (s1, rnd1) →
      (∀ t1 rnd2 e, encodeText s.table rnd (toStringUtf8 buffer) ≠ some (t1, rnd2, .error e)) →
      ∃ r, s1.filesMeta = s.filesMeta ++ [r] ∧ r.path = relPath ∧
        (r.binary = false ↔ toLowerCase (extname relPath) ∈ TextExtensions) ∧
        (r.binary = false ↔ ∃ e ∈ TextExtensions, LoweredTo (extname relPath) e)) ∧
    (∀ (files1 files2 : List (JStr × List Byte)) (rnd1 rnd2 : List Nat) (a1 a2 : Archive)
      (i j : Nat) (p : JStr) (b1 b2 : List Byte) (r1 r2 : FileMeta),
      pack files1 rnd1 = some a1 → pack files2 rnd2 = some a2 →
      files1[i]? = some (p, b1) → files2[j]? = some (p, b2) →
      a1.files[i]? = some r1 → a2.files[j]? = some r2 → r1.binary = r2.binary) ∧
    (∀ (files : List (JStr × List Byte)) (rnd : List Nat) (a : Archive) (i : Nat)
      (dir stem e : JStr) (buffer : List Byte) (r : FileMeta),
      pack files rnd = some a → files[i]? = some (dir ++ (stem ++ 46 :: e), buffer) →
      a.files[i]? = some r → (dir = [] ∨ ∃ d, dir = d ++ [47]) → stem ≠ [] →
      (47 : CodeUnit) ∉ stem → (47 : CodeUnit) ∉ e → (46 : CodeUnit) ∉ e →
      ¬ (stem = [46] ∧ e = []) →
      (r.binary = false ↔ ∃ x ∈ TextExtensions, LoweredTo (46 :: e) x)) ∧
    (∀ (files : List (JStr × List Byte)) (rnd : List Nat) (a : Archive) (i : Nat)
      (dir base : JStr) (buffer : List Byte) (r : FileMeta),
      pack files rnd = some a → files[i]? = some (dir ++ base, buffer) →
      a.files[i]? = some r → (dir = [] ∨ ∃ d, dir = d ++ [47]) → base ≠ [] →
      (47 : CodeUnit) ∉ base →
      ((46 : CodeUnit) ∉ base ∨ ∃ e, base = 46 :: e ∧ (46 : CodeUnit) ∉ e) →
      r.binary = true) := by
  have run : ∀ (files : List (JStr × List Byte)) (rnd : List Nat) (a : Archive) (i : Nat)
      (f : JStr × List Byte) (r : FileMeta),
      pack files rnd = some a → files[i]? = some f → a.files[i]? = some r →
      (r.binary = false ↔ toLowerCase (extname f.1) ∈ TextExtensions) := by
    intro files rnd a i f r h hf hr
    obtain ⟨cs, d, _, _, _, hbin, _⟩ := pack_get h hf hr
    rw [hbin]
    simp [isTextPath]
  refine ⟨?_, ?_, ?_, ?_, ?_⟩
  · intro files rnd a i f r h hf hr
    have h1 := run files rnd a i f r h hf hr
    exact ⟨h1, h1.trans (mem_textExtensions_iff _)⟩
  · intro s s1 rnd rnd1 relPath buffer hp hok
    unfold packFile at hp
    simp only at hp
    by_cases ht : toLowerCase (extname relPath) ∈ TextExtensions
    · rw [if_pos ht] at hp
      cases hen : encodeText s.table rnd (toStringUtf8 buffer) with
      | none => simp [hen] at hp
      | some q =>
        obtain ⟨t1, rnd2, res⟩ := q
        cases res with
        | error e => exact absurd hen (hok t1 rnd2 e)
        | ok data =>
          simp only [hen, Option.some.injEq, Prod.mk.injEq] at hp
          obtain ⟨rfl, _⟩ := hp
          have h1 : ((⟨relPath, s.offset, data.length, false⟩ : FileMeta).binary = false ↔
              toLowerCase (extname relPath) ∈ TextExtensions) := by simp [ht]
          exact ⟨_, rfl, rfl, h1, h1.trans (mem_textExtensions_iff _)⟩
    · rw [if_neg ht] at hp
      simp only [Option.some.injEq, Prod.mk.injEq] at hp
      obtain ⟨rfl, _⟩ := hp
      have h1 : ((⟨relPath, s.offset, buffer.length, true⟩ : FileMeta).binary = false ↔
          toLowerCase (extname relPath) ∈ TextExtensions) := by simp [ht]
      exact ⟨_, rfl, rfl, h1, h1.trans (mem_textExtensions_iff _)⟩
  · intro files1 files2 rnd1 rnd2 a1 a2 i j p b1 b2 r1 r2 h1 h2 hf1 hf2 hr1 hr2
    obtain ⟨_, _, _, _, _, hbin1, _⟩ := pack_get h1 hf1 hr1
    obtain ⟨_, _, _, _, _, hbin2, _⟩ := pack_get h2 hf2 hr2
    rw [hbin1, hbin2]
  · intro files rnd a i dir stem e buffer r h hf hr hd hs hs47 he47 he46 hdots
    have h1 := run files rnd a i _ r h hf hr
    have hext : extname (dir ++ (stem ++ 46 :: e)) = 46 :: e :=
      extname_simple dir stem e hd hs hs47 he47 he46 hdots
    simp only [hext] at h1
    exact h1.trans (mem_textExtensions_iff _)
  · intro files rnd a i dir base buffer r h hf hr hd hb hb47 hdot
    have h1 := run files rnd a i _ r h hf hr
    have hext : extname (dir ++ base) = [] := extname_none dir base hd hb hb47 hdot
    simp only [hext] at h1
    have hnot : ¬ (r.binary = false) := fun hb0 => nil_not_textExtension (h1.1 hb0)
    cases hbin : r.binary with
    | true => rfl
    | false => exact absurd hbin hnot

theorem name_based_classification_witness :
    (((⟨js "dir/A.JS", 0, 4, false⟩ : FileMeta).binary = false ↔
        toLowerCase (extname (js "dir/A.JS", ([104, 105] : List Byte)).1) ∈ TextExtensions) ∧
      ((⟨js "dir/A.JS", 0, 4, false⟩ : FileMeta).binary = false ↔
        ∃ e ∈ TextExtensions, LoweredTo (extname (js "dir/A.JS", ([104, 105] : List Byte)).1) e)) ∧
    (∃ r, (⟨[[255, 0]], Table.empty, [⟨js "B.PNG", 0, 2, true⟩], 2⟩ : PackState).filesMeta
        = PackState.init.filesMeta ++ [r] ∧ r.path = js "B.PNG" ∧
        (r.binary = false ↔ toLowerCase (extname (js "B.PNG")) ∈ TextExtensions) ∧
        (r.binary = false ↔ ∃ e ∈ TextExtensions, LoweredTo (extname (js "B.PNG")) e)) ∧
    (⟨js "a.md", 0, 4, false⟩ : FileMeta).binary
      = (⟨js "a.md", 0, 2, false⟩ : FileMeta).binary ∧
    ((⟨js "dir/A.JS", 0, 4, false⟩ : FileMeta).binary = false ↔
      ∃ x ∈ TextExtensions, LoweredTo (46 :: js "JS") x) ∧
    (⟨js ".js", 4, 1, true⟩ : FileMeta).binary = true :=
  ⟨name_based_classification.1
      [(js "dir/A.JS", [104, 105]), (js ".js", [104]), (js "b.png", [255, 0])] sampleDraws
      sampleArchive2 0 (js "dir/A.JS", [104, 105]) ⟨js "dir/A.JS", 0, 4, false⟩ sample_pack2
      (by rfl) (by rfl),
   name_based_classification.2.1 PackState.init
      ⟨[[255, 0]], Table.empty, [⟨js "B.PNG", 0, 2, true⟩], 2⟩ [] [] (js "B.PNG") [255, 0]
      (by rfl) (by intro t1 rnd2 e h; cases h),
   name_based_classification.2.2.1 [(js "a.md", [104, 105]), (js "b.png", [255, 0])]
      [(js "a.md", [104])] sampleDraws sampleDraws sampleArchive
      ⟨[0, 0], [([104], .str (js "abcdefg"))], [(js "abcdefg", .num 0)],
        [⟨js "a.md", 0, 2, false⟩], 2, 1⟩ 0 0 (js "a.md") [104, 105] [104]
      ⟨js "a.md", 0, 4, false⟩ ⟨js "a.md", 0, 2, false⟩ sample_pack (by rfl) (by rfl) (by rfl)
      (by rfl) (by rfl),
   name_based_classification.2.2.2.1
      [(js "dir/A.JS", [104, 105]), (js ".js", [104]), (js "b.png", [255, 0])] sampleDraws
      sampleArchive2 0 (js "dir/") (js "A") (js "JS") [104, 105] ⟨js "dir/A.JS", 0, 4, false⟩
      sample_pack2 (by rfl) (by rfl) (Or.inr ⟨js "dir", by rfl⟩) (by decide) (by decide)
      (by decide) (by decide) (by decide),
   name_based_classification.2.2.2.2
      [(js "dir/A.JS", [104, 105]), (js ".js", [104]), (js "b.png", [255, 0])] sampleDraws
      sampleArchive2 1 [] (js ".js") [104] ⟨js ".js", 4, 1, true⟩
      sample_pack2 (by rfl) (by rfl) (Or.inl rfl) (by decide) (by decide)
      (Or.inr ⟨js "js", by rfl, by decide⟩)⟩

/-- Claim C15. Empty file.  (1) In every state of the pack loop and under every supply of
draws, a file of zero bytes, with a text or a binary extension, is packed without using a draw:
an empty buffer and a record of length 0 at the current offset are pushed, and the character
table and the offset cursor stay as they are.  (2) In a packing run that comes to an end, the
record of a zero-byte file at any position has its path and length 0, the next record (if any)
has the same offset, and extraction, which does not fail, writes an empty file at that path at
the same position. -/
theorem empty_file :
    (∀ (s : PackState) (rnd : List Nat) (relPath : JStr),
      packFile s rnd relPath [] =
        some (⟨s.bundleBuffers ++ [[]], s.table,
          s.filesMeta ++ [⟨relPath, s.offset, 0, !isTextPath relPath⟩], s.offset⟩, rnd)) ∧
    (∀ (files : List (JStr × List Byte)) (rnd : List Nat) (a : Archive) (i : Nat)
      (relPath : JStr) (r : FileMeta),
      pack files rnd = some a → files[i]? = some (relPath, []) → a.files[i]? = some r →
      r.path = relPath ∧ r.length = 0 ∧
      (∀ r1, a.files[i + 1]? = some r1 → r1.offset = r.offset) ∧
      (extract a.bundle a.keys a.bin a.files).1[i]? = some ⟨relPath, []⟩ ∧
      (extract a.bundle a.keys a.bin a.files).2 = none) := by
  constructor
  · intro s rnd relPath
    unfold packFile
    by_cases ht : toLowerCase (extname relPath) ∈ TextExtensions
    · have htp : isTextPath relPath = true := by simp [isTextPath, ht]
      simp only [ht, if_true, htp, Bool.not_true]
      rfl
    · have htp : isTextPath relPath = false := by simp [isTextPath, ht]
      simp only [ht, if_false, htp, Bool.not_false]
      rfl
  · intro files rnd a i relPath r h hf hr
    obtain ⟨cs, d, hd, hpath, hlen, _, _⟩ := pack_get h hf hr
    have hd0 := fileData_empty hd
    subst hd0
    have hlen0 : r.length = 0 := hlen
    refine ⟨hpath, hlen0, ?_, ?_, ?_⟩
    · intro r1 hr1
      have := Contiguous.next _ _ _ (pack_contiguous h).1 i r r1 hr hr1
      rw [this, hlen0]
      rfl
    · rw [pack_extract files rnd a a.keys a.bin h (List.Perm.refl _) (List.Perm.refl _)]
      simp only [List.getElem?_map, hf, Option.map_some', extracted_empty]
    · rw [pack_extract files rnd a a.keys a.bin h (List.Perm.refl _) (List.Perm.refl _)]

theorem empty_file_witness :
    (⟨js "e.md", 4, 0, false⟩ : FileMeta).path = js "e.md" ∧
    (⟨js "e.md", 4, 0, false⟩ : FileMeta).length = 0 ∧
    (∀ r1, ([⟨js "a.md", 0, 4, false⟩, ⟨js "e.md", 4, 0, false⟩, ⟨js "e.png", 4, 0, true⟩,
        ⟨js "b.png", 4, 2, true⟩] : List FileMeta)[1 + 1]? = some r1 →
      r1.offset = (⟨js "e.md", 4, 0, false⟩ : FileMeta).offset) ∧
    (extract [0, 0, 0, 1, 255, 0] sampleTable.keys sampleTable.bin
      [⟨js "a.md", 0, 4, false⟩, ⟨js "e.md", 4, 0, false⟩, ⟨js "e.png", 4, 0, true⟩,
        ⟨js "b.png", 4, 2, true⟩]).1[1]? = some ⟨js "e.md", []⟩ ∧
    (extract [0, 0, 0, 1, 255, 0] sampleTable.keys sampleTable.bin
      [⟨js "a.md", 0, 4, false⟩, ⟨js "e.md", 4, 0, false⟩, ⟨js "e.png", 4, 0, true⟩,
        ⟨js "b.png", 4, 2, true⟩]).2 = none :=
  empty_file.2
    [(js "a.md", [104, 105]), (js "e.md", []), (js "e.png", []), (js "b.png", [255, 0])]
    sampleDraws
    ⟨[0, 0, 0, 1, 255, 0], sampleTable.keys, sampleTable.bin,
      [⟨js "a.md", 0, 4, false⟩, ⟨js "e.md", 4, 0, false⟩, ⟨js "e.png", 4, 0, true⟩,
        ⟨js "b.png", 4, 2, true⟩], 6, 2⟩
    1 (js "e.md") ⟨js "e.md", 4, 0, false⟩ (by rfl) (by rfl) (by rfl)

/-- Claim C16. Missing-input rejection.  (1) The pack script prints a diagnostic and exits with
code 1, having created no directory and no file, whenever no argument gives `--src-dir=`,
`--output-cpp-dir=` or `--output-mod=`, or the source directory named does not exist.  (2) The
extract script does the same whenever no argument gives `--output-dir=` or `--mod-dir=`, or
`bundle.fmod` or `keys.json` is missing from the archive directory named.  (3), (4) When all
values are non-empty and the paths exist, the first directory is created only after these
checks. -/
theorem missing_input_rejection :
    (∀ (args : List JStr) (existsSync : JStr → Bool),
      (optionAbsent args (js "src-dir") ∨ optionAbsent args (js "output-cpp-dir") ∨
        optionAbsent args (js "output-mod") ∨
        ∃ d, getArg args (js "src-dir") = some d ∧ existsSync d = false) →
      ∃ d, packStartup args existsSync = [.consoleError d, .exit 1]) ∧
    (∀ (args : List JStr) (join : JStr → JStr → JStr) (existsSync : JStr → Bool),
      (optionAbsent args (js "output-dir") ∨ optionAbsent args (js "mod-dir") ∨
        ∃ m, getArg args (js "mod-dir") = some m ∧
          (existsSync (join m (js "bundle.fmod")) = false ∨
            existsSync (join m (js "keys.json")) = false)) →
      ∃ d, extractStartup args join existsSync = [.consoleError d, .exit 1]) ∧
    (∀ (args : List JStr) (existsSync : JStr → Bool) (src cpp mod : JStr),
      getArg args (js "src-dir") = some src → getArg args (js "output-cpp-dir") = some cpp →
      getArg args (js "output-mod") = some mod → src ≠ [] → cpp ≠ [] → mod ≠ [] →
      existsSync src = true → packStartup args existsSync = [.mkdir cpp, .mkdir mod]) ∧
    (∀ (args : List JStr) (join : JStr → JStr → JStr) (existsSync : JStr → Bool)
      (out mod : JStr),
      getArg args (js "output-dir") = some out → getArg args (js "mod-dir") = some mod →
      out ≠ [] → mod ≠ [] → existsSync (join mod (js "bundle.fmod")) = true →
      existsSync (join mod (js "keys.json")) = true →
      extractStartup args join existsSync
        = [.readFile (join mod (js "bundle.fmod")), .readFile (join mod (js "keys.json")),
            .mkdir out]) := by
  refine ⟨?_, ?_, ?_, ?_⟩
  · intro args existsSync h
    unfold packStartup
    simp only
    by_cases hf : (falsy (getArg args (js "src-dir")) || falsy (getArg args (js "output-cpp-dir"))
        || falsy (getArg args (js "output-mod"))) = true
    · rw [if_pos hf]
      exact ⟨_, rfl⟩
    · rw [if_neg hf]
      rcases h with h | h | h | ⟨d, hd, he⟩
      · rw [getArg_absent h] at hf
        exact absurd rfl hf
      · rw [getArg_absent h] at hf
        simp [falsy] at hf
      · rw [getArg_absent h] at hf
        simp [falsy] at hf
      · rw [hd]
        simp only [Option.getD_some, he, Bool.not_false, if_true]
        exact ⟨_, rfl⟩
  · intro args join existsSync h
    unfold extractStartup
    simp only
    by_cases hf : (falsy (getArg args (js "output-dir")) || falsy (getArg args (js "mod-dir")))
        = true
    · rw [if_pos hf]
      exact ⟨_, rfl⟩
    · rw [if_neg hf]
      rcases h with h | h | ⟨m, hm, he⟩
      · rw [getArg_absent h] at hf
        exact absurd rfl hf
      · rw [getArg_absent h] at hf
        simp [falsy] at hf
      · rw [hm]
        simp only [Option.getD_some]
        rcases he with he | he
        · simp only [he, Bool.not_false, Bool.true_or, if_true]
          exact ⟨_, rfl⟩
        · simp only [he, Bool.not_false, Bool.or_true, if_true]
          exact ⟨_, rfl⟩
  · intro args existsSync src cpp mod h1 h2 h3 n1 n2 n3 he
    have f1 : falsy (some src) = false := by cases src with
      | nil => exact absurd rfl n1
      | cons a l => rfl
    have f2 : falsy (some cpp) = false := by cases cpp with
      | nil => exact absurd rfl n2
      | cons a l => rfl
    have f3 : falsy (some mod) = false := by cases mod with
      | nil => exact absurd rfl n3
      | cons a l => rfl
    simp [packStartup, h1, h2, h3, f1, f2, f3, he]
  · intro args join existsSync out mod h1 h2 n1 n2 he1 he2
    have f1 : falsy (some out) = false := by cases out with
      | nil => exact absurd rfl n1
      | cons a l => rfl
    have f2 : falsy (some mod) = false := by cases mod with
      | nil => exact absurd rfl n2
      | cons a l => rfl
    simp [extractStartup, h1, h2, f1, f2, he1, he2]

theorem missing_input_rejection_witness :
    (∃ d, packStartup [js "--src-dir=s", js "--output-mod=m"] (fun _ => true)
        = [.consoleError d, .exit 1]) ∧
    (∃ d, extractStartup [js "--output-dir=o", js "--mod-dir=m"] (fun a b => a ++ 47 :: b)
        (fun p => decide (p = js "m/bundle.fmod")) = [.consoleError d, .exit 1]) ∧
    packStartup [js "--src-dir=s", js "--output-cpp-dir=c", js "--output-mod=m"]
      (fun _ => true) = [.mkdir (js "c"), .mkdir (js "m")] ∧
    extractStartup [js "--output-dir=o", js "--mod-dir=m"] (fun a b => a ++ 47 :: b)
      (fun _ => true)
      = [.readFile ((fun a b => a ++ 47 :: b) (js "m") (js "bundle.fmod")),
          .readFile ((fun a b => a ++ 47 :: b) (js "m") (js "keys.json")), .mkdir (js "o")] :=
  ⟨missing_input_rejection.1 [js "--src-dir=s", js "--output-mod=m"] (fun _ => true)
     (Or.inr (Or.inl (by unfold optionAbsent; decide))),
   missing_input_rejection.2.1 [js "--output-dir=o", js "--mod-dir=m"]
     (fun a b => a ++ 47 :: b) (fun p => decide (p = js "m/bundle.fmod"))
     (Or.inr (Or.inr ⟨js "m", by rfl, Or.inr (by rfl)⟩)),
   missing_input_rejection.2.2.1 [js "--src-dir=s", js "--output-cpp-dir=c", js "--output-mod=m"]
     (fun _ => true) (js "s") (js "c") (js "m") (by rfl) (by rfl) (by rfl) (by decide)
     (by decide) (by decide) rfl,
   missing_input_rejection.2.2.2 [js "--output-dir=o", js "--mod-dir=m"]
     (fun a b => a ++ 47 :: b) (fun _ => true) (js "o") (js "m") (by rfl) (by rfl) (by decide)
     (by decide) rfl rfl⟩

/-- Claim C17. Odd-length payload.  (1) For every metadata and every buffer of odd length,
`decodeText` throws.  (2) When the complete pairs of the buffer decode to a text, the buffer
with one more byte does not return that text: the read of the last, incomplete pair throws the
out-of-range error.  (3) For every metadata, `decodeText` returns the empty text on the empty
buffer. -/
theorem odd_length_payload :
    (∀ (keys bin : Obj) (buffer : List Byte), buffer.length % 2 = 1 →
      ∃ e, decodeText (reverseBin bin) (reverseKeys keys) buffer = .error e) ∧
    (∀ (keys bin : Obj) (pairs : List Byte) (last : Byte) (text : JStr),
      decodeText (reverseBin bin) (reverseKeys keys) pairs = .ok text →
      decodeText (reverseBin bin) (reverseKeys keys) (pairs ++ [last]) = .error .outOfRange) ∧
    (∀ keys bin : Obj, decodeText (reverseBin bin) (reverseKeys keys) [] = .ok []) :=
  ⟨fun _ _ buffer h => decodeTextLoop_odd _ _ buffer [] h,
   fun _ _ pairs last text h => decodeTextLoop_extra_byte _ _ last pairs [] text h,
   fun _ _ => rfl⟩

theorem odd_length_payload_witness :
    (∃ e, decodeText (reverseBin sampleTable.bin) (reverseKeys sampleTable.keys) [0, 0, 0]
      = .error e) ∧
    decodeText (reverseBin sampleTable.bin) (reverseKeys sampleTable.keys) ([0, 1] ++ [0])
      = .error .outOfRange :=
  ⟨odd_length_payload.1 sampleTable.keys sampleTable.bin [0, 0, 0] (by decide),
   odd_length_payload.2.1 sampleTable.keys sampleTable.bin [0, 1] 0 (js "i") (by rfl)⟩

/-- Claim C18. Argument value extraction.  (1) `getArg(name)` is `null` when no argument
starts with `--name=`.  (2) Otherwise it is, for the first argument that does, the text between
the first and the second `=` of that argument (the whole remainder when there is no second
`=`).  (3) So for an option name without `=` the value given after `--name=` is cut at its
first `=`.  (4) The test `!v` of the callers holds exactly for `null` and for the empty string.
(5) `c.js` prints its usage message and exits with status 1 exactly when one of `src-dir`,
`output-cpp-dir`, `output-mod` is missing or has the empty value, and (6) `e.js` does so
exactly when one of `output-dir`, `mod-dir` is missing or has the empty value.  (7), (8) On
the argument lists: when the first argument that starts with `--name=`, for any of these
options, has nothing between that `=` and the next `=` or the end, the script ends with the
same two actions as on every argument list from which the option is absent. -/
theorem getArg_value :
    (∀ (args : List JStr) (name : JStr), optionAbsent args name → getArg args name = none) ∧
    (∀ (before after : List JStr) (arg name : JStr), optionAbsent before name →
      startsWith arg (js "--" ++ name ++ js "=") = true →
      getArg (before ++ arg :: after) name = some (betweenFirstTwo 61 arg)) ∧
    (∀ (name value : JStr) (after : List JStr), (61 : CodeUnit) ∉ name →
      getArg ((js "--" ++ name ++ js "=" ++ value) :: after) name
        = some (value.takeWhile (fun u => u ≠ 61))) ∧
    (∀ v : Option JStr, falsy v = true ↔ v = none ∨ v = some []) ∧
    (∀ (args : List JStr) (existsSync : JStr → Bool),
      packStartup args existsSync = [.consoleError .usage, .exit 1] ↔
        ∃ name ∈ [js "src-dir", js "output-cpp-dir", js "output-mod"],
          getArg args name = none ∨ getArg args name = some []) ∧
    (∀ (args : List JStr) (join : JStr → JStr → JStr) (existsSync : JStr → Bool),
      extractStartup args join existsSync = [.consoleError .usage, .exit 1] ↔
        ∃ name ∈ [js "output-dir", js "mod-dir"],
          getArg args name = none ∨ getArg args name = some []) ∧
    (∀ name ∈ [js "src-dir", js "output-cpp-dir", js "output-mod"],
      ∀ (before after : List JStr) (value : JStr) (existsSync : JStr → Bool),
      optionAbsent before name → value.takeWhile (fun u => u ≠ 61) = [] →
      packStartup (before ++ (js "--" ++ name ++ js "=" ++ value) :: after) existsSync
          = [.consoleError .usage, .exit 1] ∧
        ∀ absent : List JStr, optionAbsent absent name →
          packStartup absent existsSync
            = packStartup (before ++ (js "--" ++ name ++ js "=" ++ value) :: after)
                existsSync) ∧
    (∀ name ∈ [js "output-dir", js "mod-dir"],
      ∀ (before after : List JStr) (value : JStr) (join : JStr → JStr → JStr)
        (existsSync : JStr → Bool),
      optionAbsent before name → value.takeWhile (fun u => u ≠ 61) = [] →
      extractStartup (before ++ (js "--" ++ name ++ js "=" ++ value) :: after) join existsSync
          = [.consoleError .usage, .exit 1] ∧
        ∀ absent : List JStr, optionAbsent absent name →
          extractStartup absent join existsSync
            = extractStartup (before ++ (js "--" ++ name ++ js "=" ++ value) :: after) join
                existsSync) := by
  have hpack : ∀ (args : List JStr) (existsSync : JStr → Bool),
      packStartup args existsSync = [.consoleError .usage, .exit 1] ↔
        ∃ name ∈ [js "src-dir", js "output-cpp-dir", js "output-mod"],
          getArg args name = none ∨ getArg args name = some [] := by
    intro args existsSync
    rw [packStartup_usage_iff, falsy_iff, falsy_iff, falsy_iff]
    constructor
    · rintro (h | h | h)
      · exact ⟨_, List.mem_cons_self _ _, h⟩
      · exact ⟨_, List.mem_cons_of_mem _ (List.mem_cons_self _ _), h⟩
      · exact ⟨_, List.mem_cons_of_mem _ (List.mem_cons_of_mem _ (List.mem_cons_self _ _)), h⟩
    · rintro ⟨name, hm, h⟩
      simp only [List.mem_cons, List.mem_singleton, List.not_mem_nil, or_false] at hm
      rcases hm with rfl | rfl | rfl
      · exact Or.inl h
      · exact Or.inr (Or.inl h)
      · exact Or.inr (Or.inr h)
  have hext : ∀ (args : List JStr) (join : JStr → JStr → JStr) (existsSync : JStr → Bool),
      extractStartup args join existsSync = [.consoleError .usage, .exit 1] ↔
        ∃ name ∈ [js "output-dir", js "mod-dir"],
          getArg args name = none ∨ getArg args name = some [] := by
    intro args join existsSync
    rw [extractStartup_usage_iff, falsy_iff, falsy_iff]
    constructor
    · rintro (h | h)
      · exact ⟨_, List.mem_cons_self _ _, h⟩
      · exact ⟨_, List.mem_cons_of_mem _ (List.mem_cons_self _ _), h⟩
    · rintro ⟨name, hm, h⟩
      simp only [List.mem_cons, List.mem_singleton, List.not_mem_nil, or_false] at hm
      rcases hm with rfl | rfl
      · exact Or.inl h
      · exact Or.inr h
  refine ⟨fun args name h => getArg_absent h, fun before after arg name hb ha => getArg_first hb ha,
    fun name value after h => getArg_single after h, falsy_iff, hpack, hext, ?_, ?_⟩
  · intro name hm before after value existsSync hb hv
    have hname : (61 : CodeUnit) ∉ name := by
      simp only [List.mem_cons, List.mem_singleton, List.not_mem_nil, or_false] at hm
      rcases hm with rfl | rfl | rfl <;> decide
    have hg : getArg (before ++ (js "--" ++ name ++ js "=" ++ value) :: after) name = some [] := by
      rw [getArg_later hb hname, hv]
    have h1 := (hpack (before ++ (js "--" ++ name ++ js "=" ++ value) :: after) existsSync).2
      ⟨name, hm, Or.inr hg⟩
    refine ⟨h1, fun absent ha => ?_⟩
    rw [h1]
    exact (hpack absent existsSync).2 ⟨name, hm, Or.inl (getArg_absent ha)⟩
  · intro name hm before after value join existsSync hb hv
    have hname : (61 : CodeUnit) ∉ name := by
      simp only [List.mem_cons, List.mem_singleton, List.not_mem_nil, or_false] at hm
      rcases hm with rfl | rfl <;> decide
    have hg : getArg (before ++ (js "--" ++ name ++ js "=" ++ value) :: after) name = some [] := by
      rw [getArg_later hb hname, hv]
    have h1 := (hext (before ++ (js "--" ++ name ++ js "=" ++ value) :: after) join
      existsSync).2 ⟨name, hm, Or.inr hg⟩
    refine ⟨h1, fun absent ha => ?_⟩
    rw [h1]
    exact (hext absent join existsSync).2 ⟨name, hm, Or.inl (getArg_absent ha)⟩

theorem getArg_value_witness :
    getArg [js "--mod-dir=m"] (js "src-dir") = none ∧
    getArg ([js "--x=1"] ++ js "--src-dir=a=b" :: [js "--src-dir=c"]) (js "src-dir")
      = some (betweenFirstTwo 61 (js "--src-dir=a=b")) ∧
    getArg ((js "--" ++ js "src-dir" ++ js "=" ++ js "a=b") :: []) (js "src-dir")
      = some ((js "a=b").takeWhile (fun u => u ≠ 61)) ∧
    (falsy (some []) = true ↔ (some [] : Option JStr) = none ∨ (some [] : Option JStr) = some []) ∧
    packStartup [js "--src-dir=", js "--output-cpp-dir=c", js "--output-mod=m"]
      (fun _ => true) = [.consoleError .usage, .exit 1] ∧
    packStartup [js "--src-dir=s", js "--output-cpp-dir=", js "--output-mod=m"]
      (fun _ => true) = [.consoleError .usage, .exit 1] ∧
    packStartup [js "--src-dir=s", js "--output-cpp-dir=c", js "--output-mod="]
      (fun _ => true) = [.consoleError .usage, .exit 1] ∧
    extractStartup [js "--output-dir=", js "--mod-dir=m"] (fun a b => a ++ 47 :: b)
      (fun _ => true) = [.consoleError .usage, .exit 1] ∧
    extractStartup [js "--output-dir=o", js "--mod-dir="] (fun a b => a ++ 47 :: b)
      (fun _ => true) = [.consoleError .usage, .exit 1] ∧
    (packStartup ([js "--src-dir=s"] ++ (js "--" ++ js "output-cpp-dir" ++ js "=" ++ js "=c")
          :: [js "--output-mod=m"]) (fun _ => true) = [.consoleError .usage, .exit 1] ∧
      ∀ absent : List JStr, optionAbsent absent (js "output-cpp-dir") →
        packStartup absent (fun _ => true)
          = packStartup ([js "--src-dir=s"] ++
              (js "--" ++ js "output-cpp-dir" ++ js "=" ++ js "=c") :: [js "--output-mod=m"])
              (fun _ => true)) ∧
    (extractStartup ([js "--output-dir=o"] ++ (js "--" ++ js "mod-dir" ++ js "=" ++ [])
          :: []) (fun a b => a ++ 47 :: b) (fun _ => true) = [.consoleError .usage, .exit 1] ∧
      ∀ absent : List JStr, optionAbsent absent (js "mod-dir") →
        extractStartup absent (fun a b => a ++ 47 :: b) (fun _ => true)
          = extractStartup ([js "--output-dir=o"] ++
              (js "--" ++ js "mod-dir" ++ js "=" ++ []) :: []) (fun a b => a ++ 47 :: b)
              (fun _ => true)) :=
  ⟨getArg_value.1 [js "--mod-dir=m"] (js "src-dir") (by unfold optionAbsent; decide),
   getArg_value.2.1 [js "--x=1"] [js "--src-dir=c"] (js "--src-dir=a=b") (js "src-dir")
     (by unfold optionAbsent; decide) (by rfl),
   getArg_value.2.2.1 (js "src-dir") (js "a=b") [] (by decide),
   getArg_value.2.2.2.1 (some []),
   (getArg_value.2.2.2.2.1 [js "--src-dir=", js "--output-cpp-dir=c", js "--output-mod=m"]
     (fun _ => true)).2 ⟨js "src-dir", List.mem_cons_self _ _, Or.inr (by rfl)⟩,
   (getArg_value.2.2.2.2.1 [js "--src-dir=s", js "--output-cpp-dir=", js "--output-mod=m"]
     (fun _ => true)).2
     ⟨js "output-cpp-dir", List.mem_cons_of_mem _ (List.mem_cons_self _ _), Or.inr (by rfl)⟩,
   (getArg_value.2.2.2.2.1 [js "--src-dir=s", js "--output-cpp-dir=c", js "--output-mod="]
     (fun _ => true)).2
     ⟨js "output-mod",
       List.mem_cons_of_mem _ (List.mem_cons_of_mem _ (List.mem_cons_self _ _)),
       Or.inr (by rfl)⟩,
   (getArg_value.2.2.2.2.2.1 [js "--output-dir=", js "--mod-dir=m"] (fun a b => a ++ 47 :: b)
     (fun _ => true)).2 ⟨js "output-dir", List.mem_cons_self _ _, Or.inr (by rfl)⟩,
   (getArg_value.2.2.2.2.2.1 [js "--output-dir=o", js "--mod-dir="] (fun a b => a ++ 47 :: b)
     (fun _ => true)).2
     ⟨js "mod-dir", List.mem_cons_of_mem _ (List.mem_cons_self _ _), Or.inr (by rfl)⟩,
   getArg_value.2.2.2.2.2.2.1 (js "output-cpp-dir")
     (List.mem_cons_of_mem _ (List.mem_cons_self _ _)) [js "--src-dir=s"]
     [js "--output-mod=m"] (js "=c") (fun _ => true) (by unfold optionAbsent; decide) (by rfl),
   getArg_value.2.2.2.2.2.2.2 (js "mod-dir")
     (List.mem_cons_of_mem _ (List.mem_cons_self _ _)) [js "--output-dir=o"] [] []
     (fun a b => a ++ 47 :: b) (fun _ => true) (by unfold optionAbsent; decide) (by rfl)⟩

end Fmod
